import Mathlib

/-! # Compact block encodings (`blockencodings.h`)

A shallow embedding of the serialization helpers of `blockencodings.h`
(`Uint48Formatter`, `DifferenceTransform`, `BlockTransactionsRequest`,
`PrefilledTransaction`, `CBlockHeaderAndShortTxIDs`) and theorems about them.

Conventions of the embedding:
* a `uint16_t` / `uint32_t` / `uint64_t` value is a `Nat` below `2^16` / `2^32` / `2^64`;
* `int32_t` arithmetic is arithmetic on `Int` followed by `wrapInt32`;
* a C++ exception is the `error` case of `Except`, carrying the message of the
  `std::ios_base::failure`.
-/

set_option autoImplicit false

namespace BlockEncodings

/-! ## Machine integers -/

/-- Two's complement reduction of an integer to the range of `int32_t`. -/
def wrapInt32 (x : Int) : Int := (x + 2 ^ 31) % 2 ^ 32 - 2 ^ 31

/-- Conversion of an `int32_t` to `uint16_t` (`uint16_t(out)`). -/
def toUint16 (x : Int) : Nat := (x % 2 ^ 16).toNat

/-- A list all of whose entries are `uint16_t` values. -/
def IsUint16List (l : List Nat) : Prop := ∀ x ∈ l, x < 65536

instance (l : List Nat) : Decidable (IsUint16List l) := by
  unfold IsUint16List; infer_instance

/-! ## `DifferenceTransform` -/

/-- The message of the failure thrown by `DifferenceTransform::operator()`. -/
def ERR_DIFFERENTIAL_OVERFLOW : String := "differential value overflow"

/-- State of a `DifferenceTransform<Unser>`: the member `int32_t m_shift = 0`. -/
structure DifferenceTransform where
  m_shift : Int := 0
  deriving DecidableEq

/-- The call operator `uint16_t operator()(uint16_t val)` of `DifferenceTransform<Unser>`:
the result is the output together with the updated object, or the failure. -/
def DifferenceTransform.call (Unser : Bool) (t : DifferenceTransform) (val : Nat) :
    Except String (Nat × DifferenceTransform) :=
  let out : Int := wrapInt32 (t.m_shift + (val : Int))
  if out < 0 ∨ out > 0xffff then
    Except.error ERR_DIFFERENTIAL_OVERFLOW
  else
    Except.ok (toUint16 out,
      { m_shift := if Unser then wrapInt32 (out + 1)
                   else wrapInt32 (wrapInt32 (-(val : Int)) - 1) })

/-- One transform object applied to the elements of a list in order, collecting the
outputs and returning the object as the last call left it; the first failure aborts
the run. -/
def DifferenceTransform.run (Unser : Bool) :
    DifferenceTransform → List Nat → Except String (List Nat × DifferenceTransform)
  | t, [] => Except.ok ([], t)
  | t, v :: vs =>
    match t.call Unser v with
    | Except.error e => Except.error e
    | Except.ok (o, t') =>
      match DifferenceTransform.run Unser t' vs with
      | Except.error e => Except.error e
      | Except.ok (os, t'') => Except.ok (o :: os, t'')

/-- A fresh `DifferenceTransform<false>` applied to each element in order. -/
def encode (indexes : List Nat) : Except String (List Nat) :=
  match DifferenceTransform.run false {} indexes with
  | Except.error e => Except.error e
  | Except.ok (os, _) => Except.ok os

/-- A fresh `DifferenceTransform<true>` applied to each element in order. -/
def decode (gaps : List Nat) : Except String (List Nat) :=
  match DifferenceTransform.run true {} gaps with
  | Except.error e => Except.error e
  | Except.ok (os, _) => Except.ok os

/-! ### Reference functions for the differential codec -/

/-- Gaps of a list relative to the previous index `p` (`p = -1` before the first). -/
def gapsFrom : Int → List Nat → List Nat
  | _, [] => []
  | p, v :: vs => ((v : Int) - p - 1).toNat :: gapsFrom v vs

/-- Running accumulation of gaps after the previous index `p`. -/
def accFrom : Int → List Nat → List Nat
  | _, [] => []
  | p, g :: gs => (p + 1 + g).toNat :: accFrom (p + 1 + g) gs

/-- Strictly ascending list all of whose entries are above `p`. -/
def AscAbove : Int → List Nat → Prop
  | _, [] => True
  | p, v :: vs => p < (v : Int) ∧ AscAbove v vs

/-- The last index seen after the list, `p` when the list is empty. -/
def lastFrom : Int → List Nat → Int
  | p, [] => p
  | _, v :: vs => lastFrom v vs

/-- The accumulated index after the gaps, `p` when there is none. -/
def accLast : Int → List Nat → Int
  | p, [] => p
  | p, g :: gs => accLast (p + 1 + g) gs

/-- No accumulated index after the previous index `p` exceeds 65535. -/
def AccFits : Int → List Nat → Prop
  | _, [] => True
  | p, g :: gs => p + 1 + (g : Int) ≤ 65535 ∧ AccFits (p + 1 + g) gs

/-! ## Streams -/

/-- A byte stream: the bytes written so far when serializing, the bytes still to be
read when deserializing. A byte is a natural number below 256. -/
abbrev Stream := List Nat

/-- Outcome of a serializing operation: the stream after the writes, or the message of
the failure together with the stream as the throw left it. -/
abbrev WriteResult := Except (String × Stream) Stream

/-- Outcome of a deserializing operation: the value read and the rest of the stream,
or the message of the failure. -/
abbrev ReadResult (α : Type) := Except String (α × Stream)

/-- The `n` low-order base-256 digits of `v`, least significant first. -/
def leBytes : Nat → Nat → List Nat
  | 0, _ => []
  | n + 1, v => v % 256 :: leBytes n (v / 256)

/-- The value of a little-endian byte string. -/
def leValue : List Nat → Nat
  | [] => 0
  | b :: bs => b + 256 * leValue bs

/-- The message of the failure of a read past the end of the stream. -/
def ERR_END_OF_DATA : String := "end of data"

/-- Modelled from the spec: the fixed-width integer writes of a stream (`s << x` in
`serialize.h`, which is absent); "all integers little-endian". The `n`-byte
little-endian form of `x` is appended. -/
def ser_writedata (n : Nat) (s : Stream) (x : Nat) : Stream := s ++ leBytes n x

/-- Modelled from the spec: the fixed-width integer reads of a stream (`s >> x` in
`serialize.h`, which is absent); "all integers little-endian". The next `n` bytes are
consumed; a stream with fewer bytes left fails. -/
def ser_readdata (n : Nat) (s : Stream) : ReadResult Nat :=
  if s.length < n then Except.error ERR_END_OF_DATA
  else Except.ok (leValue (s.take n), s.drop n)

/-! ## `Uint48Formatter` -/

/-- The message of the failure thrown by `Uint48Formatter::Ser`. -/
def ERR_UINT48_RANGE : String := "Uint48Formatter value out of range"

/-- The method `Uint48Formatter::Ser(Stream& s, I v)`; the integer type `I` is any type
whose values are the integers given. -/
def Uint48Formatter.Ser (s : Stream) (v : Int) : WriteResult :=
  if v < 0 ∨ Int.shiftRight v 48 ≠ 0 then
    Except.error (ERR_UINT48_RANGE, s)
  else
    let lsb : Nat := (Int.land v 0xffffffff % 2 ^ 32).toNat
    let msb : Nat := (Int.land (Int.shiftRight v 32) 0xffff % 2 ^ 16).toNat
    Except.ok (ser_writedata 2 (ser_writedata 4 s lsb) msb)

/-- The method `Uint48Formatter::Unser(Stream& s, I& v)`: the value assigned to `v`
(a `uint64_t` expression) and the rest of the stream. -/
def Uint48Formatter.Unser (s : Stream) : ReadResult Nat :=
  match ser_readdata 4 s with
  | Except.error e => Except.error e
  | Except.ok (lsb, s1) =>
    match ser_readdata 2 s1 with
    | Except.error e => Except.error e
    | Except.ok (msb, s2) => Except.ok (((msb % 2 ^ 64) <<< 32) % 2 ^ 64 ||| (lsb % 2 ^ 64), s2)

/-- The constant `CBlockHeaderAndShortTxIDs::SHORTTXIDS_LENGTH`. -/
def SHORTTXIDS_LENGTH : Nat := 6

/-- The six bytes of a short ID: the low 32 bits, then bits 32 to 47, each
little-endian. -/
def uint48Bytes (v : Nat) : List Nat :=
  leBytes 4 (v % 2 ^ 32) ++ leBytes 2 (v / 2 ^ 32 % 2 ^ 16)

/-- The bytes of a list of short IDs, six for each, one after the other. -/
def uint48ListBytes : List Nat → List Nat
  | [] => []
  | v :: vs => uint48Bytes v ++ uint48ListBytes vs

/-! ## Serializers taken from outside `blockencodings.h` -/

/-- The serializers of `serialize.h` and `primitives/block.h` that `blockencodings.h`
calls and whose code is not part of the sources, with `FillShortTxIDSelector`, which
the header only declares. They are parameters of the embedding. -/
structure Serializers (Header Tx : Type) where
  /-- `WriteCompactSize(s, n)`. -/
  WriteCompactSize : Stream → Nat → Stream
  /-- `ReadCompactSize(s)`. -/
  ReadCompactSize : Stream → ReadResult Nat
  /-- `CompactSizeFormatter::Ser` at the type `uint16_t`. -/
  CompactSizeSer16 : Stream → Nat → WriteResult
  /-- `CompactSizeFormatter::Unser` at the type `uint16_t`. -/
  CompactSizeUnser16 : Stream → ReadResult Nat
  /-- `s << header` for a `CBlockHeader`. -/
  SerHeader : Stream → Header → Stream
  /-- `s >> header` for a `CBlockHeader`. -/
  UnserHeader : Stream → ReadResult Header
  /-- `s << hash` for a `uint256`. -/
  SerHash : Stream → Nat → Stream
  /-- `s >> hash` for a `uint256`. -/
  UnserHash : Stream → ReadResult Nat
  /-- `TransactionCompression::Ser` on a `CTransactionRef`. -/
  SerTx : Stream → Tx → Stream
  /-- `TransactionCompression::Unser` on a `CTransactionRef`. -/
  UnserTx : Stream → ReadResult Tx
  /-- The salts `(shorttxidk0, shorttxidk1)` that `FillShortTxIDSelector` stores,
  computed from the header and the nonce. -/
  FillShortTxIDSelector : Header → Nat → Nat × Nat

/-! ## `VectorFormatter` -/

/-- The transform that `VectorFormatter` applies when none is given: every element
is passed through unchanged. -/
def IdentityTransform {α : Type} (t : Unit) (a : α) : Except String (α × Unit) :=
  Except.ok (a, t)

/-- The elements of a vector written in order: the transform object is applied to
the element and the formatter writes what it returns. -/
def VectorFormatter.SerElems {α β τ : Type} (fmt : Stream → β → WriteResult)
    (transform : τ → α → Except String (β × τ)) : τ → Stream → List α → WriteResult
  | _, s, [] => Except.ok s
  | t, s, a :: as =>
    match transform t a with
    | Except.error e => Except.error (e, s)
    | Except.ok (b, t') =>
      match fmt s b with
      | Except.error e => Except.error e
      | Except.ok s' => VectorFormatter.SerElems fmt transform t' s' as

/-- Modelled from the spec: `VectorFormatter<Formatter, SerTransform, _>::Ser`
(`serialize.h` is absent); a "length-prefixed list": the count written by
`WriteCompactSize`, then every element in order through a fresh transform object and
the element formatter. -/
def VectorFormatter.Ser {α β τ : Type} (writeCompactSize : Stream → Nat → Stream)
    (fmt : Stream → β → WriteResult) (transform : τ → α → Except String (β × τ)) (fresh : τ)
    (s : Stream) (v : List α) : WriteResult :=
  VectorFormatter.SerElems fmt transform fresh (writeCompactSize s v.length) v

/-- The given number of elements read in order: the formatter reads an element and
the transform object is applied to it. -/
def VectorFormatter.UnserElems {α β τ : Type} (fmt : Stream → ReadResult α)
    (transform : τ → α → Except String (β × τ)) : τ → Nat → Stream → ReadResult (List β)
  | _, 0, s => Except.ok ([], s)
  | t, n + 1, s =>
    match fmt s with
    | Except.error e => Except.error e
    | Except.ok (a, s') =>
      match transform t a with
      | Except.error e => Except.error e
      | Except.ok (b, t') =>
        match VectorFormatter.UnserElems fmt transform t' n s' with
        | Except.error e => Except.error e
        | Except.ok (bs, s'') => Except.ok (b :: bs, s'')

/-- Modelled from the spec: `VectorFormatter<Formatter, _, UnserTransform>::Unser`
(`serialize.h` is absent); a "length-prefixed list": the count read by
`ReadCompactSize`, then that many elements in order through the element formatter and
a fresh transform object. -/
def VectorFormatter.Unser {α β τ : Type} (readCompactSize : Stream → ReadResult Nat)
    (fmt : Stream → ReadResult α) (transform : τ → α → Except String (β × τ)) (fresh : τ)
    (s : Stream) : ReadResult (List β) :=
  match readCompactSize s with
  | Except.error e => Except.error e
  | Except.ok (size, s') => VectorFormatter.UnserElems fmt transform fresh size s'

/-! ## `BlockTransactionsRequest` -/

/-- The class `BlockTransactionsRequest`: a block hash and `uint16_t` indexes. -/
structure BlockTransactionsRequest where
  blockhash : Nat
  indexes : List Nat

/-- Serialization of a `BlockTransactionsRequest`: the hash, then the indexes through
`VectorFormatter<CompactSizeFormatter, DifferenceTransform<false>, DifferenceTransform<true>>`. -/
def BlockTransactionsRequest.Serialize {Header Tx : Type} (env : Serializers Header Tx)
    (s : Stream) (obj : BlockTransactionsRequest) : WriteResult :=
  VectorFormatter.Ser env.WriteCompactSize env.CompactSizeSer16
    (DifferenceTransform.call false) {} (env.SerHash s obj.blockhash) obj.indexes

/-- Deserialization of a `BlockTransactionsRequest`. -/
def BlockTransactionsRequest.Unserialize {Header Tx : Type} (env : Serializers Header Tx)
    (s : Stream) : ReadResult BlockTransactionsRequest :=
  match env.UnserHash s with
  | Except.error e => Except.error e
  | Except.ok (blockhash, s1) =>
    match VectorFormatter.Unser env.ReadCompactSize env.CompactSizeUnser16
        (DifferenceTransform.call true) {} s1 with
    | Except.error e => Except.error e
    | Except.ok (indexes, s2) => Except.ok ({ blockhash := blockhash, indexes := indexes }, s2)

/-! ## `PrefilledTransaction` -/

/-- The struct `PrefilledTransaction`: a `uint16_t` index and a transaction. -/
structure PrefilledTransaction (Tx : Type) where
  index : Nat
  tx : Tx

/-- Serialization of a `PrefilledTransaction`: `COMPACTSIZE(index)`, then the
transaction through `TransactionCompression`. -/
def PrefilledTransaction.Serialize {Header Tx : Type} (env : Serializers Header Tx)
    (s : Stream) (obj : PrefilledTransaction Tx) : WriteResult :=
  match env.CompactSizeSer16 s obj.index with
  | Except.error e => Except.error e
  | Except.ok s1 => Except.ok (env.SerTx s1 obj.tx)

/-- Deserialization of a `PrefilledTransaction`. -/
def PrefilledTransaction.Unserialize {Header Tx : Type} (env : Serializers Header Tx)
    (s : Stream) : ReadResult (PrefilledTransaction Tx) :=
  match env.CompactSizeUnser16 s with
  | Except.error e => Except.error e
  | Except.ok (index, s1) =>
    match env.UnserTx s1 with
    | Except.error e => Except.error e
    | Except.ok (tx, s2) => Except.ok ({ index := index, tx := tx }, s2)

/-! ## `CBlockHeaderAndShortTxIDs` -/

/-- The message of the failure thrown when a deserialized `CBlockHeaderAndShortTxIDs`
has too many entries. -/
def ERR_INDEXES_OVERFLOWED : String := "indexes overflowed 16 bits"

/-- The class `CBlockHeaderAndShortTxIDs`, its members in declaration order. -/
structure CBlockHeaderAndShortTxIDs (Header Tx : Type) where
  shorttxidk0 : Nat
  shorttxidk1 : Nat
  nonce : Nat
  shorttxids : List Nat
  prefilledtxn : List (PrefilledTransaction Tx)
  header : Header

/-- The method `BlockTxCount()`. The sizes of two vectors held in memory add up below
the range of `size_t`, so the sum is the exact one. -/
def CBlockHeaderAndShortTxIDs.BlockTxCount {Header Tx : Type}
    (obj : CBlockHeaderAndShortTxIDs Header Tx) : Nat :=
  obj.shorttxids.length + obj.prefilledtxn.length

/-- The short-ID list as `CBlockHeaderAndShortTxIDs` writes it:
`Using<VectorFormatter<Uint48Formatter>>(obj.shorttxids)`, no transform given. -/
def SerShortTxIDs {Header Tx : Type} (env : Serializers Header Tx) (s : Stream)
    (shorttxids : List Nat) : WriteResult :=
  VectorFormatter.Ser env.WriteCompactSize (fun s' (v : Nat) => Uint48Formatter.Ser s' (v : Int))
    IdentityTransform () s shorttxids

/-- The short-ID list as `CBlockHeaderAndShortTxIDs` reads it. -/
def UnserShortTxIDs {Header Tx : Type} (env : Serializers Header Tx) (s : Stream) :
    ReadResult (List Nat) :=
  VectorFormatter.Unser env.ReadCompactSize Uint48Formatter.Unser IdentityTransform () s

/-- The prefilled list as `CBlockHeaderAndShortTxIDs` writes it: a vector of
`PrefilledTransaction`, each written by its own serialization. -/
def SerPrefilled {Header Tx : Type} (env : Serializers Header Tx) (s : Stream)
    (prefilledtxn : List (PrefilledTransaction Tx)) : WriteResult :=
  VectorFormatter.Ser env.WriteCompactSize (PrefilledTransaction.Serialize env)
    IdentityTransform () s prefilledtxn

/-- The prefilled list as `CBlockHeaderAndShortTxIDs` reads it. -/
def UnserPrefilled {Header Tx : Type} (env : Serializers Header Tx) (s : Stream) :
    ReadResult (List (PrefilledTransaction Tx)) :=
  VectorFormatter.Unser env.ReadCompactSize (PrefilledTransaction.Unserialize env)
    IdentityTransform () s

/-- Serialization of a `CBlockHeaderAndShortTxIDs`:
`READWRITE(obj.header, obj.nonce, Using<VectorFormatter<Uint48Formatter>>(obj.shorttxids),
obj.prefilledtxn)` when writing. -/
def CBlockHeaderAndShortTxIDs.Serialize {Header Tx : Type} (env : Serializers Header Tx)
    (s : Stream) (obj : CBlockHeaderAndShortTxIDs Header Tx) : WriteResult :=
  let s1 := env.SerHeader s obj.header
  let s2 := ser_writedata 8 s1 obj.nonce
  match SerShortTxIDs env s2 obj.shorttxids with
  | Except.error e => Except.error e
  | Except.ok s3 => SerPrefilled env s3 obj.prefilledtxn

/-- Deserialization into the object `obj`: the four fields are read in order, the
entry count is checked, and `FillShortTxIDSelector` sets the salts. -/
def CBlockHeaderAndShortTxIDs.Unserialize {Header Tx : Type} (env : Serializers Header Tx)
    (obj : CBlockHeaderAndShortTxIDs Header Tx) (s : Stream) :
    ReadResult (CBlockHeaderAndShortTxIDs Header Tx) :=
  match env.UnserHeader s with
  | Except.error e => Except.error e
  | Except.ok (header, s1) =>
    match ser_readdata 8 s1 with
    | Except.error e => Except.error e
    | Except.ok (nonce, s2) =>
      match UnserShortTxIDs env s2 with
      | Except.error e => Except.error e
      | Except.ok (shorttxids, s3) =>
        match UnserPrefilled env s3 with
        | Except.error e => Except.error e
        | Except.ok (prefilledtxn, s4) =>
          let read : CBlockHeaderAndShortTxIDs Header Tx :=
            { obj with header := header, nonce := nonce, shorttxids := shorttxids,
                       prefilledtxn := prefilledtxn }
          if read.BlockTxCount > 65535 then
            Except.error ERR_INDEXES_OVERFLOWED
          else
            let salts := env.FillShortTxIDSelector read.header read.nonce
            Except.ok ({ read with shorttxidk0 := salts.1, shorttxidk1 := salts.2 }, s4)

/-! ## The short-ID list as the specification words it -/

/-- The short-ID list written "via DifferentialIndexCodec-wrapped list": the
`VectorFormatter` of `SerShortTxIDs` with the `DifferenceTransform<false>` wrapping of
`BlockTransactionsRequest` applied to every element. This follows the specification,
not the source. -/
def SerShortTxIDsDifferential {Header Tx : Type} (env : Serializers Header Tx) (s : Stream)
    (shorttxids : List Nat) : WriteResult :=
  VectorFormatter.Ser env.WriteCompactSize (fun s' (v : Nat) => Uint48Formatter.Ser s' (v : Int))
    (DifferenceTransform.call false) {} s shorttxids

/-! ## A sample instance of the outside serializers -/

/-- A sample compact-size writer: one byte below 253, else a marker byte and the
2-, 4- or 8-byte little-endian value. -/
def sampleWriteCompactSize (s : Stream) (n : Nat) : Stream :=
  if n < 253 then s ++ [n]
  else if n ≤ 0xffff then s ++ 253 :: leBytes 2 n
  else if n ≤ 0xffffffff then s ++ 254 :: leBytes 4 n
  else s ++ 255 :: leBytes 8 n

/-- A sample compact-size reader, the inverse of `sampleWriteCompactSize`. -/
def sampleReadCompactSize (s : Stream) : ReadResult Nat :=
  match s with
  | [] => Except.error ERR_END_OF_DATA
  | b :: rest =>
    if b < 253 then Except.ok (b, rest)
    else if b = 253 then ser_readdata 2 rest
    else if b = 254 then ser_readdata 4 rest
    else ser_readdata 8 rest

/-- A sample reader of a compact size into a `uint16_t`: larger values fail. -/
def sampleCompactSizeUnser16 (s : Stream) : ReadResult Nat :=
  match sampleReadCompactSize s with
  | Except.error e => Except.error e
  | Except.ok (n, rest) =>
    if n > 65535 then Except.error "CompactSize exceeds limit of type"
    else Except.ok (n, rest)

/-- A sample instance of `Serializers`, used to evaluate the definitions on concrete
inputs: headers are 4-byte numbers, hashes 32-byte numbers, transactions single bytes,
and the salts are the header and the nonce themselves. -/
def sampleSerializers : Serializers Nat Nat where
  WriteCompactSize := sampleWriteCompactSize
  ReadCompactSize := sampleReadCompactSize
  CompactSizeSer16 := fun s n => Except.ok (sampleWriteCompactSize s n)
  CompactSizeUnser16 := sampleCompactSizeUnser16
  SerHeader := ser_writedata 4
  UnserHeader := ser_readdata 4
  SerHash := ser_writedata 32
  UnserHash := ser_readdata 32
  SerTx := ser_writedata 1
  UnserTx := ser_readdata 1
  FillShortTxIDSelector := fun header nonce => (header, nonce)

/-! ## `BlockTransactions` -/

/-- The class `BlockTransactions`: a block hash and transaction references. A
`CTransactionRef` is a shared pointer, `none` when null. -/
structure BlockTransactions (Tx : Type) where
  blockhash : Nat
  txn : List (Option Tx)

/-- The constructor `BlockTransactions(const BlockTransactionsRequest& req)`, with the
initializers `blockhash(req.blockhash), txn(req.indexes.size())`: a vector of that many
value-initialized references, each of them null. -/
def BlockTransactions.ofRequest {Tx : Type} (req : BlockTransactionsRequest) :
    BlockTransactions Tx :=
  { blockhash := req.blockhash, txn := List.replicate req.indexes.length none }

/-! ## Round-trip laws of the outside serializers -/

/-- The bytes that the outside serializers write for a value: of a count, of a
`uint16_t` through `CompactSizeFormatter`, of a header, of a hash and of a
transaction. -/
structure Encoders (Header Tx : Type) where
  sizeBytes : Nat → List Nat
  index16Bytes : Nat → List Nat
  headerBytes : Header → List Nat
  hashBytes : Nat → List Nat
  txBytes : Tx → List Nat

/-- The outside serializers write by appending the bytes of the value and read back
what they wrote: counts up to 65536, `uint16_t` values, headers, hashes below `2^256`
and transactions. -/
structure Serializers.RoundTrip {Header Tx : Type} (env : Serializers Header Tx)
    (enc : Encoders Header Tx) : Prop where
  write_size : ∀ s n, env.WriteCompactSize s n = s ++ enc.sizeBytes n
  read_size : ∀ n rest, n ≤ 65536 →
    env.ReadCompactSize (enc.sizeBytes n ++ rest) = Except.ok (n, rest)
  write_index16 : ∀ s v, v < 65536 →
    env.CompactSizeSer16 s v = Except.ok (s ++ enc.index16Bytes v)
  read_index16 : ∀ v rest, v < 65536 →
    env.CompactSizeUnser16 (enc.index16Bytes v ++ rest) = Except.ok (v, rest)
  write_header : ∀ s h, env.SerHeader s h = s ++ enc.headerBytes h
  read_header : ∀ h rest, env.UnserHeader (enc.headerBytes h ++ rest) = Except.ok (h, rest)
  write_hash : ∀ s h, env.SerHash s h = s ++ enc.hashBytes h
  read_hash : ∀ h rest, h < 2 ^ 256 →
    env.UnserHash (enc.hashBytes h ++ rest) = Except.ok (h, rest)
  write_tx : ∀ s t, env.SerTx s t = s ++ enc.txBytes t
  read_tx : ∀ t rest, env.UnserTx (enc.txBytes t ++ rest) = Except.ok (t, rest)

/-- The bytes of a list of `uint16_t` values, each through `CompactSizeFormatter`. -/
def index16ListBytes {Header Tx : Type} (enc : Encoders Header Tx) : List Nat → List Nat
  | [] => []
  | v :: vs => enc.index16Bytes v ++ index16ListBytes enc vs

/-- The bytes of a `PrefilledTransaction`: the index, then the transaction. -/
def prefilledBytes {Header Tx : Type} (enc : Encoders Header Tx)
    (p : PrefilledTransaction Tx) : List Nat :=
  enc.index16Bytes p.index ++ enc.txBytes p.tx

/-- The bytes of a list of `PrefilledTransaction`, one after the other. -/
def prefilledListBytes {Header Tx : Type} (enc : Encoders Header Tx) :
    List (PrefilledTransaction Tx) → List Nat
  | [] => []
  | p :: ps => prefilledBytes enc p ++ prefilledListBytes enc ps

/-- The bytes of the sample serializers. In the sample a header is a number below
`2^32` and a transaction a number below 256. -/
def sampleEncoders : Encoders (Fin (2 ^ 32)) (Fin 256) where
  sizeBytes := fun n => sampleWriteCompactSize [] n
  index16Bytes := fun n => sampleWriteCompactSize [] n
  headerBytes := fun h => leBytes 4 h.val
  hashBytes := leBytes 32
  txBytes := fun t => leBytes 1 t.val

/-- The sample serializers over headers below `2^32` and transactions below 256,
for which they read back what they wrote. -/
def sampleSerializersFin : Serializers (Fin (2 ^ 32)) (Fin 256) where
  WriteCompactSize := sampleWriteCompactSize
  ReadCompactSize := sampleReadCompactSize
  CompactSizeSer16 := fun s n => Except.ok (sampleWriteCompactSize s n)
  CompactSizeUnser16 := sampleCompactSizeUnser16
  SerHeader := fun s h => ser_writedata 4 s h.val
  UnserHeader := fun s =>
    match ser_readdata 4 s with
    | Except.error e => Except.error e
    | Except.ok (v, rest) => Except.ok (Fin.ofNat v, rest)
  SerHash := ser_writedata 32
  UnserHash := ser_readdata 32
  SerTx := fun s t => ser_writedata 1 s t.val
  UnserTx := fun s =>
    match ser_readdata 1 s with
    | Except.error e => Except.error e
    | Except.ok (v, rest) => Except.ok (Fin.ofNat v, rest)
  FillShortTxIDSelector := fun header nonce => (header.val, nonce)

/-! ## `PartiallyDownloadedBlock` -/

/-- The enumeration `ReadStatus`. -/
inductive ReadStatus where
  | READ_STATUS_OK
  | READ_STATUS_INVALID
  | READ_STATUS_FAILED
  | READ_STATUS_CHECKBLOCK_FAILED
  deriving DecidableEq

/-- A block: its header and its transactions in order (`CBlock` of
`primitives/block.h`). -/
structure CBlock (Header Tx : Type) where
  header : Header
  vtx : List Tx

/-- The class `PartiallyDownloadedBlock`, its data members as declared; an empty slot
of `txn_available` is a null reference. The pool is handed to `InitData`. -/
structure PartiallyDownloadedBlock (Header Tx : Type) where
  txn_available : List (Option Tx)
  prefilled_count : Nat
  mempool_count : Nat
  extra_count : Nat
  header : Header

/-- The collaborators of the reconstruction whose code is not part of the sources:
the keyed hash behind the short IDs, the identifying hash of a transaction (plain or
witness, as `fUseWTXID` fixes it), the test that a prefilled transaction is well-formed,
and `CheckBlock`. They are parameters of the embedding. -/
structure Collaborators (Header Tx : Type) where
  KeyedHash : Nat → Nat → Nat → Nat
  TxHash : Tx → Nat
  WellFormed : Tx → Bool
  CheckBlock : CBlock Header Tx → Bool

/-- Modelled from the spec: `CBlockHeaderAndShortTxIDs::GetShortID`, declared in
`blockencodings.h` and defined in `blockencodings.cpp`, which is absent. "`ShortId`
applies the keyed hash to the transaction's identifying hash and truncates to 48 bits",
with the two salts of the message as key. -/
def CBlockHeaderAndShortTxIDs.GetShortID {Header Tx : Type} (col : Collaborators Header Tx)
    (obj : CBlockHeaderAndShortTxIDs Header Tx) (txhash : Nat) : Nat :=
  col.KeyedHash obj.shorttxidk0 obj.shorttxidk1 txhash % 2 ^ 48

/-- Modelled from the spec: the constructor
`CBlockHeaderAndShortTxIDs(const CBlock& block, bool fUseWTXID)`, declared in
`blockencodings.h` and defined in `blockencodings.cpp`, which is absent. The message
carries the header of the block, the nonce, the salts derived from header and nonce,
the coinbase prefilled at offset 0, and "one short ID per non-prefilled transaction
slot, in block order". The nonce is chosen by the sender. -/
def CBlockHeaderAndShortTxIDs.ofBlock {Header Tx : Type} (env : Serializers Header Tx)
    (col : Collaborators Header Tx) (nonce : Nat) (block : CBlock Header Tx) :
    CBlockHeaderAndShortTxIDs Header Tx :=
  let salts := env.FillShortTxIDSelector block.header nonce
  let empty : CBlockHeaderAndShortTxIDs Header Tx :=
    { shorttxidk0 := salts.1, shorttxidk1 := salts.2, nonce := nonce, shorttxids := [],
      prefilledtxn := [], header := block.header }
  match block.vtx with
  | [] => empty
  | coinbase :: rest =>
    { empty with
      shorttxids := rest.map (fun tx => empty.GetShortID col (col.TxHash tx)),
      prefilledtxn := [{ index := 0, tx := coinbase }] }

/-- Modelled from the spec: the absolute block positions of the prefilled transactions
(part of `InitData`, which is absent). The index is "delta-encoded relative to the
previous prefilled entry's position": each offset counts the positions skipped since
the previous prefilled transaction. -/
def prefilledPositions {Tx : Type} (prefilledtxn : List (PrefilledTransaction Tx)) : List Nat :=
  accFrom (-1) (prefilledtxn.map (fun p => p.index))

/-- Modelled from the spec: step 3 of `InitData`, which is absent; "place each
prefilled transaction at its absolute index". -/
def placePrefilled {Tx : Type} :
    List (Option Tx) → List Nat → List (PrefilledTransaction Tx) → List (Option Tx)
  | slots, pos :: ps, p :: pre => placePrefilled (slots.set pos (some p.tx)) ps pre
  | slots, _, _ => slots

/-- The positions of the empty slots, ascending, the first slot being at `base`. -/
def missingPositions {Tx : Type} : Nat → List (Option Tx) → List Nat
  | _, [] => []
  | base, none :: rest => base :: missingPositions (base + 1) rest
  | base, some _ :: rest => missingPositions (base + 1) rest

/-- Modelled from the spec: step 4 of `InitData`, which is absent; "a lookup from
ShortId to short-ID-list-position for all remaining (non-prefilled) positions": the
short IDs of the message paired in order with the positions left empty by the
prefilled transactions. -/
def shortIdLookup (shorttxids : List Nat) (free : List Nat) (shortid : Nat) : Option Nat :=
  (shorttxids.zip free).lookup shortid

/-- Modelled from the spec: steps 5 and 6 of `InitData`, which is absent, for one
candidate. "Compute its short ID with the same salts and, on a lookup hit against an
unfilled slot, place it and increment" the count; "first match wins, subsequent hits
on an already-filled slot are ignored". -/
def scanOne {Tx : Type} (lookup : Nat → Option Nat) (getShortID : Nat → Nat)
    (st : List (Option Tx) × Nat) (candidate : Nat × Tx) : List (Option Tx) × Nat :=
  match lookup (getShortID candidate.1) with
  | none => st
  | some pos =>
    match st.1.get? pos with
    | some none => (st.1.set pos (some candidate.2), st.2 + 1)
    | _ => st

/-- Modelled from the spec: step 5 of `InitData`, which is absent; a pool scanned
once, candidate after candidate. -/
def scanPool {Tx : Type} (lookup : Nat → Option Nat) (getShortID : Nat → Nat)
    (st : List (Option Tx) × Nat) (candidates : List (Nat × Tx)) : List (Option Tx) × Nat :=
  candidates.foldl (scanOne lookup getShortID) st

/-- Modelled from the spec: step 2 of `InitData`, which is absent; "prefilled indexes
are strictly ascending, within bounds, and their absolute transaction is itself
internally well-formed". -/
def prefilledValid {Header Tx : Type} (col : Collaborators Header Tx)
    (cmpctblock : CBlockHeaderAndShortTxIDs Header Tx) : Bool :=
  decide ((prefilledPositions cmpctblock.prefilledtxn).Pairwise (· < ·)) &&
    (prefilledPositions cmpctblock.prefilledtxn).all (fun p => decide (p < cmpctblock.BlockTxCount)) &&
    cmpctblock.prefilledtxn.all (fun p => col.WellFormed p.tx)

/-- Modelled from the spec: step 3 of `InitData`, which is absent; "the slot array
sized to total transaction count", every slot empty, with the prefilled transactions
placed. -/
def initialSlots {Header Tx : Type} (cmpctblock : CBlockHeaderAndShortTxIDs Header Tx) :
    List (Option Tx) :=
  placePrefilled (List.replicate cmpctblock.BlockTxCount none)
    (prefilledPositions cmpctblock.prefilledtxn) cmpctblock.prefilledtxn

/-- Modelled from the spec: step 4 of `InitData`, which is absent; the lookup from the
short IDs of the message to the positions its prefilled transactions leave empty. -/
def slotLookup {Header Tx : Type} (cmpctblock : CBlockHeaderAndShortTxIDs Header Tx)
    (shortid : Nat) : Option Nat :=
  shortIdLookup cmpctblock.shorttxids (missingPositions 0 (initialSlots cmpctblock)) shortid

/-- The candidates of the primary pool, each transaction with its identifying hash. -/
def poolCandidates {Header Tx : Type} (col : Collaborators Header Tx) (pool : List Tx) :
    List (Nat × Tx) :=
  pool.map (fun tx => (col.TxHash tx, tx))

/-- The number of empty slots. -/
def emptyCount {Tx : Type} (slots : List (Option Tx)) : Nat :=
  (slots.filter (fun slot => slot.isNone)).length

/-- Modelled from the spec: `PartiallyDownloadedBlock::InitData`, declared in
`blockencodings.h` and defined in `blockencodings.cpp`, which is absent. The steps of
the spec: the transaction count bound, else `READ_STATUS_INVALID`; the validation of
the prefilled transactions, else `READ_STATUS_INVALID`; the slot array of the size of
the transaction count with the prefilled transactions placed; the lookup from short ID
to the remaining positions; the primary pool, then the extra pool, scanned once each,
first match wins; `READ_STATUS_OK` whatever is still missing. The extra pool comes in
(hash, transaction) form. -/
def PartiallyDownloadedBlock.InitData {Header Tx : Type} (col : Collaborators Header Tx)
    (pdb : PartiallyDownloadedBlock Header Tx)
    (cmpctblock : CBlockHeaderAndShortTxIDs Header Tx) (pool : List Tx)
    (extra_txn : List (Nat × Tx)) : ReadStatus × PartiallyDownloadedBlock Header Tx :=
  if cmpctblock.BlockTxCount > 65535 then
    (ReadStatus.READ_STATUS_INVALID, pdb)
  else if prefilledValid col cmpctblock = false then
    (ReadStatus.READ_STATUS_INVALID, pdb)
  else
    let slots := initialSlots cmpctblock
    let lookup := slotLookup cmpctblock
    let fromPool := scanPool lookup (cmpctblock.GetShortID col) (slots, pdb.mempool_count)
      (poolCandidates col pool)
    let fromExtra := scanPool lookup (cmpctblock.GetShortID col) (fromPool.1, pdb.extra_count)
      extra_txn
    (ReadStatus.READ_STATUS_OK,
      { txn_available := fromExtra.1, prefilled_count := cmpctblock.prefilledtxn.length,
        mempool_count := fromPool.2, extra_count := fromExtra.2,
        header := cmpctblock.header })

/-- Modelled from the spec: `PartiallyDownloadedBlock::IsTxAvailable`, declared in
`blockencodings.h` and defined in `blockencodings.cpp`, which is absent: "whether
`index` is currently filled", for an index below the transaction count. -/
def PartiallyDownloadedBlock.IsTxAvailable {Header Tx : Type}
    (pdb : PartiallyDownloadedBlock Header Tx) (index : Nat) : Bool :=
  match pdb.txn_available.get? index with
  | some (some _) => true
  | _ => false

/-- Modelled from the spec: the placing step of `FillBlock`, which is absent; "each
supplied transaction is placed into its corresponding missing slot in order". -/
def fillSlots {Tx : Type} : List (Option Tx) → List Tx → List Tx
  | [], _ => []
  | some tx :: rest, supplied => tx :: fillSlots rest supplied
  | none :: rest, tx :: supplied => tx :: fillSlots rest supplied
  | none :: rest, [] => fillSlots rest []

/-- Modelled from the spec: `PartiallyDownloadedBlock::FillBlock`, declared in
`blockencodings.h` and defined in `blockencodings.cpp`, which is absent. "Count
mismatch → `READ_STATUS_INVALID`. Each supplied transaction is placed into its
corresponding missing slot in order"; the header and the slots are assembled into a
block, and a block that fails `CheckBlock` gives `READ_STATUS_CHECKBLOCK_FAILED`. The
block is the one assembled, `none` when none was. -/
def PartiallyDownloadedBlock.FillBlock {Header Tx : Type} (col : Collaborators Header Tx)
    (pdb : PartiallyDownloadedBlock Header Tx) (vtx_missing : List Tx) :
    ReadStatus × Option (CBlock Header Tx) :=
  if vtx_missing.length ≠ (pdb.txn_available.filter (fun slot => slot.isNone)).length then
    (ReadStatus.READ_STATUS_INVALID, none)
  else
    let block : CBlock Header Tx :=
      { header := pdb.header, vtx := fillSlots pdb.txn_available vtx_missing }
    if col.CheckBlock block then (ReadStatus.READ_STATUS_OK, some block)
    else (ReadStatus.READ_STATUS_CHECKBLOCK_FAILED, some block)

/-- A sample instance of `Collaborators` over transactions that are numbers: the keyed
hash adds the salts to the hash, a transaction is its own hash, every transaction is
well-formed and every block passes `CheckBlock`. Two transactions that differ by a
multiple of `2^48` have the same short ID. -/
def sampleCollaborators : Collaborators Nat Nat where
  KeyedHash := fun k0 k1 txhash => k0 + k1 + txhash
  TxHash := fun tx => tx
  WellFormed := fun _ => true
  CheckBlock := fun _ => true

/-- A sample message with `n` short IDs and no prefilled transaction. -/
def sampleMessageOfSize (n : Nat) : CBlockHeaderAndShortTxIDs Nat Nat :=
  { shorttxidk0 := 0, shorttxidk1 := 0, nonce := 0, shorttxids := List.replicate n 0,
    prefilledtxn := [], header := 0 }

/-- A sample reconstruction state before `InitData`: no slot and no count. -/
def sampleFreshState : PartiallyDownloadedBlock Nat Nat :=
  { txn_available := [], prefilled_count := 0, mempool_count := 0, extra_count := 0,
    header := 0 }

/-- A sample message built from the block of transactions 100, 1 and 7 with nonce 7. -/
def sampleCompactBlock : CBlockHeaderAndShortTxIDs Nat Nat :=
  CBlockHeaderAndShortTxIDs.ofBlock sampleSerializers sampleCollaborators 7
    { header := 9, vtx := [100, 1, 7] }

/-- A sample block whose transactions 1 and `2^48 + 1` have the same short ID under
the sample collaborators; 100 is the coinbase. -/
def sampleCollidingBlock : CBlock Nat Nat :=
  { header := 9, vtx := [100, 1, 2 ^ 48 + 1] }

/-- A sample block of seven transactions; 100 is the coinbase. -/
def sampleSevenBlock : CBlock Nat Nat :=
  { header := 9, vtx := [100, 1, 2, 3, 4, 5, 6] }

/-! ## Sequences of calls on one `DifferenceTransform` -/

/-- The object after one call of `operator()`: the updated object when the call
returns, the object unchanged when it throws (the throw precedes the assignment to
`m_shift`). -/
def DifferenceTransform.step (Unser : Bool) (t : DifferenceTransform) (val : Nat) :
    DifferenceTransform :=
  match t.call Unser val with
  | Except.error _ => t
  | Except.ok (_, t') => t'

/-- The object after a sequence of calls on a fresh instance, whether they return
or throw. -/
def DifferenceTransform.afterCalls (Unser : Bool) (vals : List Nat) : DifferenceTransform :=
  vals.foldl (DifferenceTransform.step Unser) {}

/-- The call operator computed on the exact integers, with no reduction to `int32_t`:
what `operator()` does when none of its sums and differences overflows. -/
def DifferenceTransform.callExact (Unser : Bool) (t : DifferenceTransform) (val : Nat) :
    Except String (Nat × DifferenceTransform) :=
  let out : Int := t.m_shift + (val : Int)
  if out < 0 ∨ out > 0xffff then
    Except.error ERR_DIFFERENTIAL_OVERFLOW
  else
    Except.ok (out.toNat, { m_shift := if Unser then out + 1 else -(val : Int) - 1 })

/-- A sample message over the sample types with bounds: `n` short IDs equal to 0 and
the prefilled transactions given. -/
def sampleMessageFin (n : Nat) (prefilledtxn : List (PrefilledTransaction (Fin 256))) :
    CBlockHeaderAndShortTxIDs (Fin (2 ^ 32)) (Fin 256) :=
  { shorttxidk0 := 0, shorttxidk1 := 0, nonce := 7, shorttxids := List.replicate n 0,
    prefilledtxn := prefilledtxn, header := 9 }

/-- The bytes of a `CBlockHeaderAndShortTxIDs`: the header, the 8-byte nonce, the
count and the bytes of the short IDs, the count and the bytes of the prefilled
transactions. -/
def messageBytes {Header Tx : Type} (enc : Encoders Header Tx)
    (a : CBlockHeaderAndShortTxIDs Header Tx) : List Nat :=
  enc.headerBytes a.header ++ (leBytes 8 a.nonce ++ (enc.sizeBytes a.shorttxids.length ++
    (uint48ListBytes a.shorttxids ++ (enc.sizeBytes a.prefilledtxn.length ++
      prefilledListBytes enc a.prefilledtxn))))

/-! ## Lemmas on the machine arithmetic -/

theorem wrapInt32_of_range (x : Int) (h1 : -2 ^ 31 ≤ x) (h2 : x < 2 ^ 31) :
    wrapInt32 x = x := by
  unfold wrapInt32
  rw [Int.emod_eq_of_lt (by omega) (by omega)]
  omega

theorem toUint16_of_range (x : Int) (h1 : 0 ≤ x) (h2 : x ≤ 65535) :
    (toUint16 x : Int) = x := by
  unfold toUint16
  rw [Int.emod_eq_of_lt h1 (by omega)]
  omega

/-- One encoder step from the state left by the previous index `p`. -/
theorem call_encode_step (p : Int) (v : Nat) (hp1 : -1 ≤ p) (hp2 : p ≤ 65535)
    (hv : v < 65536) :
    DifferenceTransform.call false { m_shift := -p - 1 } v =
      if (v : Int) ≤ p then Except.error ERR_DIFFERENTIAL_OVERFLOW
      else Except.ok (((v : Int) - p - 1).toNat, { m_shift := -(v : Int) - 1 }) := by
  unfold DifferenceTransform.call
  have e1 : wrapInt32 (-p - 1 + (v : Int)) = (v : Int) - p - 1 := by
    rw [wrapInt32_of_range _ (by omega) (by omega)]; omega
  have e2 : wrapInt32 (-(v : Int)) = -(v : Int) := wrapInt32_of_range _ (by omega) (by omega)
  have e3 : wrapInt32 (-(v : Int) - 1) = -(v : Int) - 1 := wrapInt32_of_range _ (by omega) (by omega)
  simp only [e1, e2, e3]
  by_cases h : (v : Int) ≤ p
  · have : (v : Int) - p - 1 < 0 ∨ (v : Int) - p - 1 > 0xffff := Or.inl (by omega)
    rw [if_pos this, if_pos h]
  · have : ¬ ((v : Int) - p - 1 < 0 ∨ (v : Int) - p - 1 > 0xffff) := by
      intro hh; rcases hh with hh | hh <;> omega
    have e4 : toUint16 ((v : Int) - p - 1) = ((v : Int) - p - 1).toNat := by
      have := toUint16_of_range ((v : Int) - p - 1) (by omega) (by omega)
      omega
    rw [if_neg this, if_neg h, e4]
    rfl

/-- One decoder step from the state left by the previous index `p`. -/
theorem call_decode_step (p : Int) (g : Nat) (hp1 : -1 ≤ p) (hp2 : p ≤ 65535)
    (hg : g < 65536) :
    DifferenceTransform.call true { m_shift := p + 1 } g =
      if p + 1 + (g : Int) > 65535 then Except.error ERR_DIFFERENTIAL_OVERFLOW
      else Except.ok ((p + 1 + (g : Int)).toNat, { m_shift := p + 1 + (g : Int) + 1 }) := by
  unfold DifferenceTransform.call
  have e1 : wrapInt32 (p + 1 + (g : Int)) = p + 1 + (g : Int) :=
    wrapInt32_of_range _ (by omega) (by omega)
  simp only [e1]
  by_cases h : p + 1 + (g : Int) > 65535
  · have : p + 1 + (g : Int) < 0 ∨ p + 1 + (g : Int) > 0xffff := Or.inr (by omega)
    rw [if_pos this, if_pos h]
  · have : ¬ (p + 1 + (g : Int) < 0 ∨ p + 1 + (g : Int) > 0xffff) := by
      intro hh; rcases hh with hh | hh <;> omega
    have e2 : wrapInt32 (p + 1 + (g : Int) + 1) = p + 1 + (g : Int) + 1 :=
      wrapInt32_of_range _ (by omega) (by omega)
    have e4 : toUint16 (p + 1 + (g : Int)) = (p + 1 + (g : Int)).toNat := by
      have := toUint16_of_range (p + 1 + (g : Int)) (by omega) (by omega)
      omega
    rw [if_neg this, if_neg h, e4, e2]
    rfl

theorem fresh_eq_encode_state : ({} : DifferenceTransform) = { m_shift := -(-1 : Int) - 1 } := rfl

theorem fresh_eq_decode_state : ({} : DifferenceTransform) = { m_shift := (-1 : Int) + 1 } := rfl

theorem IsUint16List.head {v : Nat} {vs : List Nat} (h : IsUint16List (v :: vs)) : v < 65536 :=
  h v (List.mem_cons_self v vs)

theorem IsUint16List.tail {v : Nat} {vs : List Nat} (h : IsUint16List (v :: vs)) :
    IsUint16List vs :=
  fun x hx => h x (List.mem_cons_of_mem v hx)

/-- The encoder run on a strictly ascending list: the gaps and the final state. -/
theorem run_encode_ok (l : List Nat) : ∀ (p : Int), -1 ≤ p → p ≤ 65535 → IsUint16List l →
    AscAbove p l →
    DifferenceTransform.run false { m_shift := -p - 1 } l =
      Except.ok (gapsFrom p l, { m_shift := -(lastFrom p l) - 1 }) := by
  induction l with
  | nil => intro p _ _ _ _; rfl
  | cons v vs ih =>
    intro p hp1 hp2 hu ha
    have hv := hu.head
    obtain ⟨hpv, ha'⟩ := ha
    unfold DifferenceTransform.run
    rw [call_encode_step p v hp1 hp2 hv, if_neg (by omega)]
    simp only
    rw [ih (v : Int) (by omega) (by omega) hu.tail ha']
    rfl

/-- The encoder run on a list that is not strictly ascending fails. -/
theorem run_encode_fail (l : List Nat) : ∀ (p : Int), -1 ≤ p → p ≤ 65535 → IsUint16List l →
    ¬ AscAbove p l →
    DifferenceTransform.run false { m_shift := -p - 1 } l =
      Except.error ERR_DIFFERENTIAL_OVERFLOW := by
  induction l with
  | nil => intro p _ _ _ ha; exact absurd trivial ha
  | cons v vs ih =>
    intro p hp1 hp2 hu ha
    have hv := hu.head
    unfold DifferenceTransform.run
    rw [call_encode_step p v hp1 hp2 hv]
    by_cases hpv : (v : Int) ≤ p
    · rw [if_pos hpv]
    · rw [if_neg hpv]
      have ha' : ¬ AscAbove v vs := fun h => ha ⟨by omega, h⟩
      simp only
      rw [ih (v : Int) (by omega) (by omega) hu.tail ha']

/-- The decoder run on gaps whose accumulation fits 16 bits. -/
theorem run_decode_ok (gs : List Nat) : ∀ (p : Int), -1 ≤ p → p ≤ 65535 → IsUint16List gs →
    AccFits p gs →
    DifferenceTransform.run true { m_shift := p + 1 } gs =
      Except.ok (accFrom p gs, { m_shift := accLast p gs + 1 }) := by
  induction gs with
  | nil => intro p _ _ _ _; rfl
  | cons g gs ih =>
    intro p hp1 hp2 hu ha
    have hg := hu.head
    obtain ⟨hpg, ha'⟩ := ha
    unfold DifferenceTransform.run
    rw [call_decode_step p g hp1 hp2 hg, if_neg (by omega)]
    simp only
    rw [ih (p + 1 + (g : Int)) (by omega) (by omega) hu.tail ha']
    rfl

/-- The decoder run on gaps whose accumulation leaves 16 bits fails. -/
theorem run_decode_fail (gs : List Nat) : ∀ (p : Int), -1 ≤ p → p ≤ 65535 → IsUint16List gs →
    ¬ AccFits p gs →
    DifferenceTransform.run true { m_shift := p + 1 } gs =
      Except.error ERR_DIFFERENTIAL_OVERFLOW := by
  induction gs with
  | nil => intro p _ _ _ ha; exact absurd trivial ha
  | cons g gs ih =>
    intro p hp1 hp2 hu ha
    have hg := hu.head
    unfold DifferenceTransform.run
    rw [call_decode_step p g hp1 hp2 hg]
    by_cases hpg : p + 1 + (g : Int) > 65535
    · rw [if_pos hpg]
    · rw [if_neg hpg]
      have ha' : ¬ AccFits (p + 1 + (g : Int)) gs := fun h => ha ⟨by omega, h⟩
      simp only
      rw [ih (p + 1 + (g : Int)) (by omega) (by omega) hu.tail ha']

/-! ## Strict ascent -/

theorem ascAbove_of_pairwise (l : List Nat) : ∀ (p : Int), l.Pairwise (· < ·) →
    (∀ x ∈ l, p < (x : Int)) → AscAbove p l := by
  induction l with
  | nil => intro _ _ _; trivial
  | cons v vs ih =>
    intro p hs hp
    rw [List.pairwise_cons] at hs
    refine ⟨hp v (List.mem_cons_self v vs), ih v hs.2 ?_⟩
    intro x hx
    exact_mod_cast hs.1 x hx

theorem pairwise_of_ascAbove (l : List Nat) : ∀ (p : Int), AscAbove p l →
    l.Pairwise (· < ·) ∧ ∀ x ∈ l, p < (x : Int) := by
  induction l with
  | nil => intro _ _; exact ⟨List.Pairwise.nil, fun x hx => absurd hx (List.not_mem_nil x)⟩
  | cons v vs ih =>
    intro p ha
    obtain ⟨hpv, ha'⟩ := ha
    obtain ⟨hs, hall⟩ := ih v ha'
    refine ⟨List.pairwise_cons.mpr ⟨fun x hx => by exact_mod_cast hall x hx, hs⟩, ?_⟩
    intro x hx
    rcases List.mem_cons.mp hx with rfl | hx
    · exact hpv
    · exact lt_trans hpv (hall x hx)

theorem ascAbove_iff_pairwise (l : List Nat) : AscAbove (-1) l ↔ l.Pairwise (· < ·) :=
  ⟨fun h => (pairwise_of_ascAbove l (-1) h).1,
   fun h => ascAbove_of_pairwise l (-1) h (fun x _ => by omega)⟩

/-! ## The gaps of an ascending list decode to the list -/

theorem gapsFrom_uint16 (l : List Nat) : ∀ (p : Int), -1 ≤ p → IsUint16List l →
    AscAbove p l → IsUint16List (gapsFrom p l) := by
  induction l with
  | nil => intro _ _ _ _ x hx; exact absurd hx (List.not_mem_nil x)
  | cons v vs ih =>
    intro p hp hu ha x hx
    have hv := hu.head
    obtain ⟨hpv, ha'⟩ := ha
    rcases List.mem_cons.mp hx with rfl | hx
    · omega
    · exact ih v (by omega) hu.tail ha' x hx

theorem accFits_gapsFrom (l : List Nat) : ∀ (p : Int), -1 ≤ p → IsUint16List l →
    AscAbove p l → AccFits p (gapsFrom p l) := by
  induction l with
  | nil => intro _ _ _ _; trivial
  | cons v vs ih =>
    intro p hp hu ha
    have hv := hu.head
    obtain ⟨hpv, ha'⟩ := ha
    have e : p + 1 + (((v : Int) - p - 1).toNat : Int) = (v : Int) := by omega
    show p + 1 + (((v : Int) - p - 1).toNat : Int) ≤ 65535 ∧
      AccFits (p + 1 + (((v : Int) - p - 1).toNat : Int)) (gapsFrom v vs)
    rw [e]
    exact ⟨by omega, ih v (by omega) hu.tail ha'⟩

theorem accFrom_gapsFrom (l : List Nat) : ∀ (p : Int), AscAbove p l →
    accFrom p (gapsFrom p l) = l := by
  induction l with
  | nil => intro _ _; rfl
  | cons v vs ih =>
    intro p ha
    obtain ⟨hpv, ha'⟩ := ha
    have e : p + 1 + (((v : Int) - p - 1).toNat : Int) = (v : Int) := by omega
    show (p + 1 + (((v : Int) - p - 1).toNat : Int)).toNat ::
      accFrom (p + 1 + (((v : Int) - p - 1).toNat : Int)) (gapsFrom v vs) = v :: vs
    rw [e, ih v ha']
    rfl

theorem encode_of_ascending (l : List Nat) (hu : IsUint16List l) (hs : l.Pairwise (· < ·)) :
    encode l = Except.ok (gapsFrom (-1) l) := by
  unfold encode
  rw [fresh_eq_encode_state,
    run_encode_ok l (-1) (by omega) (by omega) hu ((ascAbove_iff_pairwise l).mpr hs)]

theorem encode_of_not_ascending (l : List Nat) (hu : IsUint16List l)
    (hs : ¬ l.Pairwise (· < ·)) : encode l = Except.error ERR_DIFFERENTIAL_OVERFLOW := by
  unfold encode
  rw [fresh_eq_encode_state,
    run_encode_fail l (-1) (by omega) (by omega) hu (fun h => hs ((ascAbove_iff_pairwise l).mp h))]

theorem decode_of_fits (gs : List Nat) (hu : IsUint16List gs) (hf : AccFits (-1) gs) :
    decode gs = Except.ok (accFrom (-1) gs) := by
  unfold decode
  rw [fresh_eq_decode_state, run_decode_ok gs (-1) (by omega) (by omega) hu hf]

theorem decode_of_not_fits (gs : List Nat) (hu : IsUint16List gs) (hf : ¬ AccFits (-1) gs) :
    decode gs = Except.error ERR_DIFFERENTIAL_OVERFLOW := by
  unfold decode
  rw [fresh_eq_decode_state, run_decode_fail gs (-1) (by omega) (by omega) hu hf]

/-! ## Positions of the gaps and of the accumulated indexes -/

theorem gapsFrom_length (l : List Nat) : ∀ (p : Int), (gapsFrom p l).length = l.length := by
  induction l with
  | nil => intro _; rfl
  | cons v vs ih => intro p; simp [gapsFrom, ih]

theorem accFrom_length (gs : List Nat) : ∀ (p : Int), (accFrom p gs).length = gs.length := by
  induction gs with
  | nil => intro _; rfl
  | cons g gs ih => intro p; simp [accFrom, ih]

theorem gapsFrom_getD (l : List Nat) : ∀ (p : Int) (i : Nat), AscAbove p l → i < l.length →
    ((gapsFrom p l).getD i 0 : Int) =
      (l.getD i 0 : Int) - (if i = 0 then p else (l.getD (i - 1) 0 : Int)) - 1 := by
  induction l with
  | nil => intro _ i _ hi; exact absurd hi (Nat.not_lt_zero i)
  | cons v vs ih =>
    intro p i ha hi
    obtain ⟨hpv, ha'⟩ := ha
    cases i with
    | zero =>
      simp only [gapsFrom, List.getD_cons_zero, if_true]
      omega
    | succ j =>
      have hj : j < vs.length := by simpa using hi
      simp only [gapsFrom, List.getD_cons_succ, Nat.add_sub_cancel]
      rw [ih v j ha' hj]
      cases j with
      | zero => simp
      | succ k => simp

theorem accFrom_getD_sum (gs : List Nat) : ∀ (p : Int) (i : Nat), -1 ≤ p → i < gs.length →
    ((accFrom p gs).getD i 0 : Int) = p + 1 + ((gs.take (i + 1)).sum : Nat) + i := by
  induction gs with
  | nil => intro _ i _ hi; exact absurd hi (Nat.not_lt_zero i)
  | cons g gs ih =>
    intro p i hp hi
    cases i with
    | zero =>
      simp only [accFrom, List.getD_cons_zero, List.take_succ_cons, List.take_zero,
        List.sum_cons, List.sum_nil]
      push_cast
      omega
    | succ j =>
      have hj : j < gs.length := by simpa using hi
      simp only [accFrom, List.getD_cons_succ, List.take_succ_cons, List.sum_cons]
      rw [ih (p + 1 + (g : Int)) j (by omega) hj]
      push_cast
      omega

theorem accFits_iff (gs : List Nat) : ∀ (p : Int), -1 ≤ p →
    (AccFits p gs ↔ ∀ i, i < gs.length → p + 1 + ((gs.take (i + 1)).sum : Nat) + i ≤ 65535) := by
  induction gs with
  | nil => intro _ _; exact ⟨fun _ i hi => absurd hi (Nat.not_lt_zero i), fun _ => trivial⟩
  | cons g gs ih =>
    intro p hp
    constructor
    · rintro ⟨h1, h2⟩ i hi
      cases i with
      | zero =>
        simp only [List.take_succ_cons, List.take_zero, List.sum_cons, List.sum_nil]
        simp only [Nat.cast_add, Nat.cast_zero]
        omega
      | succ j =>
        have hj : j < gs.length := by simpa using hi
        have := (ih (p + 1 + (g : Int)) (by omega)).mp h2 j hj
        simp only [List.take_succ_cons, List.sum_cons]
        simp only [Nat.cast_add, Nat.cast_zero]
        omega
    · intro h
      refine ⟨?_, (ih (p + 1 + (g : Int)) (by omega)).mpr ?_⟩
      · have := h 0 (by simp)
        simp only [List.take_succ_cons, List.take_zero, List.sum_cons, List.sum_nil] at this
        simp only [Nat.cast_add, Nat.cast_zero] at this
        omega
      · intro j hj
        have := h (j + 1) (by simpa using hj)
        simp only [List.take_succ_cons, List.sum_cons] at this
        simp only [Nat.cast_add, Nat.cast_zero] at this
        omega

theorem lastFrom_append_singleton (l : List Nat) (a : Nat) : ∀ (p : Int),
    lastFrom p (l ++ [a]) = a := by
  induction l with
  | nil => intro _; rfl
  | cons v vs ih => intro p; exact ih v

theorem accFrom_getD_succ (gs : List Nat) : ∀ (p : Int) (i : Nat), -1 ≤ p →
    i + 1 < gs.length →
    (accFrom p gs).getD (i + 1) 0 = (accFrom p gs).getD i 0 + 1 + gs.getD (i + 1) 0 := by
  induction gs with
  | nil => intro _ i _ hi; exact absurd hi (Nat.not_lt_zero _)
  | cons g gs ih =>
    intro p i hp hi
    cases i with
    | zero =>
      cases gs with
      | nil => simp at hi
      | cons g' gs' =>
        simp only [accFrom, List.getD_cons_succ, List.getD_cons_zero]
        omega
    | succ j =>
      have hj : j + 1 < gs.length := by simpa using hi
      simp only [accFrom, List.getD_cons_succ]
      exact ih (p + 1 + (g : Int)) j (by omega) hj

theorem decode_ok_inv (gs idx : List Nat) (hu : IsUint16List gs)
    (hd : decode gs = Except.ok idx) : AccFits (-1) gs ∧ idx = accFrom (-1) gs := by
  by_cases hf : AccFits (-1) gs
  · rw [decode_of_fits gs hu hf] at hd
    exact ⟨hf, (Except.ok.inj hd).symm⟩
  · rw [decode_of_not_fits gs hu hf] at hd
    exact absurd hd (by simp)

/-! ## The transform inside `VectorFormatter` -/

/-- Writing a vector through a `DifferenceTransform` is writing, with no transform,
the outputs of the transform run on the vector. -/
theorem serElems_transform_of_run (U : Bool) (fmt : Stream → Nat → WriteResult)
    (l : List Nat) : ∀ (t t' : DifferenceTransform) (s : Stream) (out : List Nat),
    DifferenceTransform.run U t l = Except.ok (out, t') →
    VectorFormatter.SerElems fmt (DifferenceTransform.call U) t s l =
      VectorFormatter.SerElems fmt IdentityTransform () s out := by
  induction l with
  | nil =>
    intro t t' s out h
    simp only [DifferenceTransform.run, Except.ok.injEq, Prod.mk.injEq] at h
    rw [← h.1]
    rfl
  | cons v vs ih =>
    intro t t' s out h
    unfold DifferenceTransform.run at h
    unfold VectorFormatter.SerElems
    cases hc : DifferenceTransform.call U t v with
    | error e => rw [hc] at h; exact absurd h (by simp)
    | ok r =>
      obtain ⟨o, t1⟩ := r
      rw [hc] at h
      simp only at h
      cases hr : DifferenceTransform.run U t1 vs with
      | error e => rw [hr] at h; exact absurd h (by simp)
      | ok r' =>
        obtain ⟨os, t2⟩ := r'
        rw [hr] at h
        simp only [Except.ok.injEq, Prod.mk.injEq] at h
        rw [← h.1]
        simp only [VectorFormatter.SerElems, IdentityTransform]
        cases hf : fmt s o with
        | error e => rfl
        | ok s1 => exact ih t1 t2 s1 os hr

/-- The indexes of a `BlockTransactionsRequest`, when strictly ascending, are written as
their gaps: the hash, the count, then each gap through `CompactSizeFormatter`. -/
theorem blockTransactionsRequest_serialize_gaps {Header Tx : Type}
    (env : Serializers Header Tx) (s : Stream) (obj : BlockTransactionsRequest)
    (hu : IsUint16List obj.indexes) (hs : obj.indexes.Pairwise (· < ·)) :
    BlockTransactionsRequest.Serialize env s obj =
      VectorFormatter.SerElems env.CompactSizeSer16 IdentityTransform ()
        (env.WriteCompactSize (env.SerHash s obj.blockhash) obj.indexes.length)
        (gapsFrom (-1) obj.indexes) := by
  unfold BlockTransactionsRequest.Serialize VectorFormatter.Ser
  have hr := run_encode_ok obj.indexes (-1) (by omega) (by omega) hu
    ((ascAbove_iff_pairwise _).mpr hs)
  rw [← fresh_eq_encode_state] at hr
  exact serElems_transform_of_run false _ _ _ _ _ _ hr

/-! ## Claims on the differential codec -/

/-- C1: for every strictly ascending list of uint16 indexes, encoding with a fresh
`DifferenceTransform<false>` succeeds, and decoding the gaps it produced with a fresh
`DifferenceTransform<true>` succeeds and returns the original list. -/
theorem differential_roundtrip (l : List Nat) (hu : IsUint16List l)
    (hs : l.Pairwise (· < ·)) :
    ∃ gaps, encode l = Except.ok gaps ∧ decode gaps = Except.ok l := by
  have ha := (ascAbove_iff_pairwise l).mpr hs
  refine ⟨gapsFrom (-1) l, encode_of_ascending l hu hs, ?_⟩
  rw [decode_of_fits _ (gapsFrom_uint16 l (-1) (by omega) hu ha)
    (accFits_gapsFrom l (-1) (by omega) hu ha), accFrom_gapsFrom l (-1) ha]

theorem differential_roundtrip_witness :
    IsUint16List [0, 3, 4, 65535] ∧ [0, 3, 4, 65535].Pairwise (· < ·) ∧
      ∃ gaps, encode [0, 3, 4, 65535] = Except.ok gaps ∧
        decode gaps = Except.ok [0, 3, 4, 65535] :=
  ⟨by decide, by decide, differential_roundtrip [0, 3, 4, 65535] (by decide) (by decide)⟩

/-- C2: on a strictly ascending uint16 list a fresh `DifferenceTransform<false>` outputs
`gap[0] = index[0]` and `gap[i] = index[i] - index[i-1] - 1` for every `i > 0`. -/
theorem encode_gaps (l : List Nat) (hu : IsUint16List l) (hs : l.Pairwise (· < ·)) :
    ∃ gaps, encode l = Except.ok gaps ∧ gaps.length = l.length ∧
      (0 < l.length → gaps.getD 0 0 = l.getD 0 0) ∧
      ∀ i, 0 < i → i < l.length →
        (gaps.getD i 0 : Int) = (l.getD i 0 : Int) - (l.getD (i - 1) 0 : Int) - 1 := by
  have ha := (ascAbove_iff_pairwise l).mpr hs
  refine ⟨gapsFrom (-1) l, encode_of_ascending l hu hs, gapsFrom_length l (-1), ?_, ?_⟩
  · intro h0
    have := gapsFrom_getD l (-1) 0 ha h0
    simp only [if_true] at this
    omega
  · intro i hi0 hi
    have := gapsFrom_getD l (-1) i ha hi
    rw [if_neg (by omega)] at this
    exact this

theorem encode_gaps_witness :
    IsUint16List [2, 3, 10] ∧ [2, 3, 10].Pairwise (· < ·) ∧
      ∃ gaps, encode [2, 3, 10] = Except.ok gaps ∧ gaps.length = [2, 3, 10].length ∧
        (0 < [2, 3, 10].length → gaps.getD 0 0 = [2, 3, 10].getD 0 0) ∧
        ∀ i, 0 < i → i < [2, 3, 10].length →
          (gaps.getD i 0 : Int) =
            (([2, 3, 10] : List Nat).getD i 0 : Int) -
              (([2, 3, 10] : List Nat).getD (i - 1) 0 : Int) - 1 :=
  ⟨by decide, by decide, encode_gaps [2, 3, 10] (by decide) (by decide)⟩

/-- C3: when decoding a uint16 gap list with a fresh `DifferenceTransform<true>` succeeds,
the outputs are `index[0] = gap[0]` and `index[i] = index[i-1] + 1 + gap[i]` for `i > 0`
as exact natural numbers (no wrap-around), and every decoded index is at most 65535. -/
theorem decode_accumulates (gs idx : List Nat) (hu : IsUint16List gs)
    (hd : decode gs = Except.ok idx) :
    idx.length = gs.length ∧
      (0 < gs.length → idx.getD 0 0 = gs.getD 0 0) ∧
      (∀ i, 0 < i → i < gs.length → idx.getD i 0 = idx.getD (i - 1) 0 + 1 + gs.getD i 0) ∧
      ∀ i, i < gs.length → idx.getD i 0 ≤ 65535 := by
  obtain ⟨hf, rfl⟩ := decode_ok_inv gs idx hu hd
  refine ⟨accFrom_length gs (-1), ?_, ?_, ?_⟩
  · intro h0
    cases gs with
    | nil => simp at h0
    | cons g gs =>
      simp only [accFrom, List.getD_cons_zero]
      omega
  · intro i hi0 hi
    obtain ⟨j, rfl⟩ : ∃ j, i = j + 1 := ⟨i - 1, by omega⟩
    simpa using accFrom_getD_succ gs (-1) j (by omega) hi
  · intro i hi
    have h1 := accFrom_getD_sum gs (-1) i (by omega) hi
    have h2 := (accFits_iff gs (-1) (by omega)).mp hf i hi
    omega

theorem decode_accumulates_witness :
    IsUint16List [2, 0, 6] ∧ decode [2, 0, 6] = Except.ok [2, 3, 10] ∧
      ([2, 3, 10].length = [2, 0, 6].length ∧
        (0 < [2, 0, 6].length → [2, 3, 10].getD 0 0 = [2, 0, 6].getD 0 0) ∧
        (∀ i, 0 < i → i < [2, 0, 6].length →
          [2, 3, 10].getD i 0 = [2, 3, 10].getD (i - 1) 0 + 1 + [2, 0, 6].getD i 0) ∧
        ∀ i, i < [2, 0, 6].length → [2, 3, 10].getD i 0 ≤ 65535) :=
  ⟨by decide, rfl, decode_accumulates [2, 0, 6] [2, 3, 10] (by decide) rfl⟩

/-- C4: decoding a uint16 gap list with a fresh `DifferenceTransform<true>` raises the
"differential value overflow" failure exactly when some unwrapped accumulated index
`gap[0] + ... + gap[i] + i` exceeds 65535; otherwise it succeeds, and every index it
returns is that unwrapped sum, never a value reduced modulo `2^16`. -/
theorem decode_overflow_iff (gs : List Nat) (hu : IsUint16List gs) :
    (decode gs = Except.error ERR_DIFFERENTIAL_OVERFLOW ↔
        ∃ i, i < gs.length ∧ (gs.take (i + 1)).sum + i > 65535) ∧
      ((∃ idx, decode gs = Except.ok idx) ↔
        ¬ ∃ i, i < gs.length ∧ (gs.take (i + 1)).sum + i > 65535) ∧
      ∀ idx, decode gs = Except.ok idx →
        ∀ i, i < gs.length → idx.getD i 0 = (gs.take (i + 1)).sum + i := by
  have key : AccFits (-1) gs ↔ ¬ ∃ i, i < gs.length ∧ (gs.take (i + 1)).sum + i > 65535 := by
    rw [accFits_iff gs (-1) (by omega)]
    constructor
    · rintro h ⟨i, hi, hgt⟩
      have := h i hi
      omega
    · intro h i hi
      by_contra hc
      exact h ⟨i, hi, by omega⟩
  refine ⟨?_, ?_, ?_⟩
  · constructor
    · intro he
      by_contra hc
      rw [decode_of_fits gs hu (key.mpr hc)] at he
      exact absurd he (by simp)
    · intro hex
      exact decode_of_not_fits gs hu (fun hf => key.mp hf hex)
  · constructor
    · rintro ⟨idx, hd⟩
      exact key.mp (decode_ok_inv gs idx hu hd).1
    · intro hc
      exact ⟨_, decode_of_fits gs hu (key.mpr hc)⟩
  · intro idx hd i hi
    obtain ⟨_, rfl⟩ := decode_ok_inv gs idx hu hd
    have := accFrom_getD_sum gs (-1) i (by omega) hi
    omega

theorem decode_overflow_iff_witness :
    IsUint16List [65535, 0] ∧
      ((decode [65535, 0] = Except.error ERR_DIFFERENTIAL_OVERFLOW ↔
          ∃ i, i < [65535, 0].length ∧ ([65535, 0].take (i + 1)).sum + i > 65535) ∧
        ((∃ idx, decode [65535, 0] = Except.ok idx) ↔
          ¬ ∃ i, i < [65535, 0].length ∧ ([65535, 0].take (i + 1)).sum + i > 65535) ∧
        ∀ idx, decode [65535, 0] = Except.ok idx →
          ∀ i, i < [65535, 0].length → idx.getD i 0 = ([65535, 0].take (i + 1)).sum + i) :=
  ⟨by decide, decode_overflow_iff [65535, 0] (by decide)⟩

/-- C5: encoding a uint16 list with a fresh `DifferenceTransform<false>` succeeds exactly
when the list is strictly ascending; on any other list it raises the failure, and the
failure is raised by the call on the first element that is at most its predecessor. -/
theorem encode_succeeds_iff_ascending (l : List Nat) (hu : IsUint16List l) :
    ((∃ gaps, encode l = Except.ok gaps) ↔ l.Pairwise (· < ·)) ∧
      (¬ l.Pairwise (· < ·) → encode l = Except.error ERR_DIFFERENTIAL_OVERFLOW) ∧
      ∀ pre a b rest, l = pre ++ a :: b :: rest → (pre ++ [a]).Pairwise (· < ·) → b ≤ a →
        ∃ os t, DifferenceTransform.run false {} (pre ++ [a]) = Except.ok (os, t) ∧
          os.length = pre.length + 1 ∧
          t.call false b = Except.error ERR_DIFFERENTIAL_OVERFLOW := by
  refine ⟨⟨?_, ?_⟩, encode_of_not_ascending l hu, ?_⟩
  · rintro ⟨gaps, hg⟩
    by_contra hc
    rw [encode_of_not_ascending l hu hc] at hg
    exact absurd hg (by simp)
  · intro hs
    exact ⟨_, encode_of_ascending l hu hs⟩
  · intro pre a b rest hl hs hba
    have ha : a < 65536 := hu a (by rw [hl]; simp)
    have hb : b < 65536 := hu b (by rw [hl]; simp)
    have hu' : IsUint16List (pre ++ [a]) := by
      intro x hx
      apply hu x
      rw [hl]
      rcases List.mem_append.mp hx with h | h
      · exact List.mem_append_left _ h
      · exact List.mem_append_right _ (by
          rw [List.mem_singleton] at h
          rw [h]; exact List.mem_cons_self _ _)
    refine ⟨gapsFrom (-1) (pre ++ [a]), { m_shift := -(lastFrom (-1) (pre ++ [a])) - 1 }, ?_, ?_, ?_⟩
    · rw [fresh_eq_encode_state]
      exact run_encode_ok (pre ++ [a]) (-1) (by omega) (by omega) hu'
        ((ascAbove_iff_pairwise _).mpr hs)
    · rw [gapsFrom_length]; simp
    · rw [lastFrom_append_singleton, call_encode_step (a : Int) b (by omega) (by omega) hb,
        if_pos (by omega)]

theorem encode_succeeds_iff_ascending_witness :
    IsUint16List [1, 4, 4, 9] ∧
      (((∃ gaps, encode [1, 4, 4, 9] = Except.ok gaps) ↔ [1, 4, 4, 9].Pairwise (· < ·)) ∧
        (¬ [1, 4, 4, 9].Pairwise (· < ·) →
          encode [1, 4, 4, 9] = Except.error ERR_DIFFERENTIAL_OVERFLOW) ∧
        ∀ pre a b rest, [1, 4, 4, 9] = pre ++ a :: b :: rest →
          (pre ++ [a]).Pairwise (· < ·) → b ≤ a →
          ∃ os t, DifferenceTransform.run false {} (pre ++ [a]) = Except.ok (os, t) ∧
            os.length = pre.length + 1 ∧
            t.call false b = Except.error ERR_DIFFERENTIAL_OVERFLOW) :=
  ⟨by decide, encode_succeeds_iff_ascending [1, 4, 4, 9] (by decide)⟩

/-! ## Little-endian bytes -/

theorem leBytes_length (n : Nat) : ∀ (v : Nat), (leBytes n v).length = n := by
  induction n with
  | zero => intro _; rfl
  | succ k ih => intro v; simp [leBytes, ih]

theorem leValue_leBytes (n : Nat) : ∀ (v : Nat), leValue (leBytes n v) = v % 256 ^ n := by
  induction n with
  | zero => intro v; simp [leBytes, leValue, Nat.mod_one]
  | succ k ih =>
    intro v
    simp only [leBytes, leValue, ih]
    rw [pow_succ, Nat.mul_comm (256 ^ k) 256, Nat.mod_mul, Nat.add_comm]

theorem ser_readdata_leBytes (n v : Nat) (rest : Stream) :
    ser_readdata n (leBytes n v ++ rest) = Except.ok (v % 256 ^ n, rest) := by
  unfold ser_readdata
  have hl := leBytes_length n v
  rw [if_neg (by rw [List.length_append]; omega), List.take_left' hl, List.drop_left' hl,
    leValue_leBytes]

/-! ## `Uint48Formatter` -/

theorem land_natCast (n m : Nat) : Int.land (n : Int) (m : Int) = ((n &&& m : Nat) : Int) := rfl

theorem shiftRight_natCast (n k : Nat) :
    Int.shiftRight (n : Int) k = ((n >>> k : Nat) : Int) := rfl

theorem land_low32 (n : Nat) : Int.land (n : Int) 0xffffffff = ((n % 2 ^ 32 : Nat) : Int) := by
  have h : (0xffffffff : Int) = ((0xffffffff : Nat) : Int) := rfl
  have e : (2 : Nat) ^ 32 - 1 = 0xffffffff := by norm_num
  rw [h, land_natCast, ← e, Nat.and_pow_two_sub_one_eq_mod]

theorem land_low16 (n : Nat) : Int.land (n : Int) 0xffff = ((n % 2 ^ 16 : Nat) : Int) := by
  have h : (0xffff : Int) = ((0xffff : Nat) : Int) := rfl
  have e : (2 : Nat) ^ 16 - 1 = 0xffff := by norm_num
  rw [h, land_natCast, ← e, Nat.and_pow_two_sub_one_eq_mod]

/-- The range test of `Uint48Formatter::Ser` on the exact integer. -/
theorem uint48_guard_iff (v : Int) :
    (v < 0 ∨ Int.shiftRight v 48 ≠ 0) ↔ (v < 0 ∨ 2 ^ 48 ≤ v) := by
  cases v with
  | ofNat n =>
    show ((n : Int) < 0 ∨ Int.shiftRight (n : Int) 48 ≠ 0) ↔ ((n : Int) < 0 ∨ 2 ^ 48 ≤ (n : Int))
    rw [shiftRight_natCast, Nat.shiftRight_eq_div_pow]
    constructor
    · rintro (h | h)
      · exact Or.inl h
      · right
        have : n / 2 ^ 48 ≠ 0 := by exact_mod_cast h
        omega
    · rintro (h | h)
      · exact Or.inl h
      · right
        have : n / 2 ^ 48 ≠ 0 := by omega
        exact_mod_cast this
  | negSucc n =>
    have : Int.negSucc n < 0 := Int.negSucc_lt_zero n
    exact ⟨fun _ => Or.inl this, fun _ => Or.inl this⟩

/-- What `Uint48Formatter::Ser` does on every integer. -/
theorem uint48_ser_eq (s : Stream) (v : Int) :
    Uint48Formatter.Ser s v =
      if v < 0 ∨ 2 ^ 48 ≤ v then Except.error (ERR_UINT48_RANGE, s)
      else Except.ok (s ++ leBytes 4 (v.toNat % 2 ^ 32) ++ leBytes 2 (v.toNat / 2 ^ 32 % 2 ^ 16)) := by
  unfold Uint48Formatter.Ser
  by_cases hg : v < 0 ∨ 2 ^ 48 ≤ v
  · rw [if_pos ((uint48_guard_iff v).mpr hg), if_pos hg]
  · rw [if_neg (fun h => hg ((uint48_guard_iff v).mp h)), if_neg hg]
    obtain ⟨n, rfl⟩ := Int.eq_ofNat_of_zero_le (by omega : 0 ≤ v)
    simp only [ser_writedata]
    rw [land_low32, shiftRight_natCast, land_low16, Nat.shiftRight_eq_div_pow]
    have e1 : (((n % 2 ^ 32 : Nat) : Int) % 2 ^ 32).toNat = n % 2 ^ 32 := by omega
    have e2 : (((n / 2 ^ 32 % 2 ^ 16 : Nat) : Int) % 2 ^ 16).toNat = n / 2 ^ 32 % 2 ^ 16 := by
      omega
    rw [e1, e2]
    rfl

/-- What `Uint48Formatter::Unser` does on six bytes followed by the rest. -/
theorem uint48_unser_leBytes (a b : Nat) (rest : Stream) :
    Uint48Formatter.Unser (leBytes 4 a ++ leBytes 2 b ++ rest) =
      Except.ok (2 ^ 32 * (b % 2 ^ 16) + a % 2 ^ 32, rest) := by
  unfold Uint48Formatter.Unser
  rw [List.append_assoc, ser_readdata_leBytes]
  simp only
  rw [ser_readdata_leBytes]
  simp only
  have ha : a % 256 ^ 4 < 2 ^ 32 := by
    have : (256 : Nat) ^ 4 = 2 ^ 32 := by norm_num
    rw [this]; exact Nat.mod_lt _ (by norm_num)
  have hb : b % 256 ^ 2 < 2 ^ 16 := by
    have : (256 : Nat) ^ 2 = 2 ^ 16 := by norm_num
    rw [this]; exact Nat.mod_lt _ (by norm_num)
  have e1 : a % 256 ^ 4 % 2 ^ 64 = a % 2 ^ 32 := by omega
  have e2 : (b % 256 ^ 2 % 2 ^ 64) <<< 32 % 2 ^ 64 = 2 ^ 32 * (b % 2 ^ 16) := by
    rw [Nat.shiftLeft_eq]; omega
  rw [e1, e2, ← Nat.mul_add_lt_is_or (Nat.mod_lt _ (by norm_num))]

theorem uint48_ser_nat (s : Stream) (n : Nat) (h : n < 2 ^ 48) :
    Uint48Formatter.Ser s (n : Int) = Except.ok (s ++ uint48Bytes n) := by
  rw [uint48_ser_eq, if_neg (by omega), List.append_assoc]
  rfl

theorem uint48_ser_nat_fail (s : Stream) (n : Nat) (h : 2 ^ 48 ≤ n) :
    Uint48Formatter.Ser s (n : Int) = Except.error (ERR_UINT48_RANGE, s) := by
  rw [uint48_ser_eq, if_pos (Or.inr (by omega))]

theorem uint48_unser_bytes (n : Nat) (h : n < 2 ^ 48) (rest : Stream) :
    Uint48Formatter.Unser (uint48Bytes n ++ rest) = Except.ok (n, rest) := by
  unfold uint48Bytes
  rw [uint48_unser_leBytes]
  have : 2 ^ 32 * (n / 2 ^ 32 % 2 ^ 16 % 2 ^ 16) + n % 2 ^ 32 % 2 ^ 32 = n := by omega
  rw [this]

theorem uint48Bytes_length (n : Nat) : (uint48Bytes n).length = 6 := by
  unfold uint48Bytes
  rw [List.length_append, leBytes_length, leBytes_length]

/-- C6: for every integer `v` with `0 ≤ v < 2^48`, `Uint48Formatter::Unser` applied to
the bytes written by `Uint48Formatter::Ser(v)` returns `v`. -/
theorem uint48_roundtrip (v : Int) (h0 : 0 ≤ v) (h1 : v < 2 ^ 48) (s rest : Stream) :
    ∃ bytes, Uint48Formatter.Ser s v = Except.ok (s ++ bytes) ∧
      ∃ w, Uint48Formatter.Unser (bytes ++ rest) = Except.ok (w, rest) ∧ (w : Int) = v := by
  obtain ⟨n, rfl⟩ := Int.eq_ofNat_of_zero_le h0
  have hn : n < 2 ^ 48 := by exact_mod_cast h1
  exact ⟨uint48Bytes n, uint48_ser_nat s n hn, n, uint48_unser_bytes n hn rest, rfl⟩

theorem uint48_roundtrip_witness :
    (0 : Int) ≤ 0x1234567890ab ∧ (0x1234567890ab : Int) < 2 ^ 48 ∧
      ∃ bytes, Uint48Formatter.Ser [] 0x1234567890ab = Except.ok ([] ++ bytes) ∧
        ∃ w, Uint48Formatter.Unser (bytes ++ [7]) = Except.ok (w, [7]) ∧
          (w : Int) = 0x1234567890ab :=
  ⟨by decide, by decide, uint48_roundtrip 0x1234567890ab (by decide) (by decide) [] [7]⟩

/-- The elements of a short-ID list that all fit in 48 bits are written verbatim. -/
theorem serElems_uint48_ok (ids : List Nat) : ∀ (s : Stream), (∀ x ∈ ids, x < 2 ^ 48) →
    VectorFormatter.SerElems (fun s' (v : Nat) => Uint48Formatter.Ser s' (v : Int))
      IdentityTransform () s ids = Except.ok (s ++ uint48ListBytes ids) := by
  induction ids with
  | nil => intro s _; simp [VectorFormatter.SerElems, uint48ListBytes]
  | cons v vs ih =>
    intro s h
    unfold VectorFormatter.SerElems
    simp only [IdentityTransform]
    rw [uint48_ser_nat s v (h v (List.mem_cons_self v vs))]
    simp only
    rw [ih _ (fun x hx => h x (List.mem_cons_of_mem v hx)), List.append_assoc]
    rfl

/-- A short-ID list with an element that does not fit in 48 bits is not written. -/
theorem serElems_uint48_fail (ids : List Nat) : ∀ (s : Stream), (∃ x ∈ ids, 2 ^ 48 ≤ x) →
    ∃ s', VectorFormatter.SerElems (fun s' (v : Nat) => Uint48Formatter.Ser s' (v : Int))
      IdentityTransform () s ids = Except.error (ERR_UINT48_RANGE, s') := by
  induction ids with
  | nil => rintro s ⟨x, hx, _⟩; exact absurd hx (List.not_mem_nil x)
  | cons v vs ih =>
    rintro s ⟨x, hx, hbig⟩
    unfold VectorFormatter.SerElems
    simp only [IdentityTransform]
    by_cases hv : v < 2 ^ 48
    · rw [uint48_ser_nat s v hv]
      simp only
      rcases List.mem_cons.mp hx with rfl | hx'
      · omega
      · exact ih _ ⟨x, hx', hbig⟩
    · rw [uint48_ser_nat_fail s v (by omega)]
      exact ⟨s, rfl⟩

/-- C7: `Uint48Formatter::Ser` raises the "value out of range" failure exactly when
`v < 0` or `v ≥ 2^48`, and then leaves the stream as it was; nothing else makes it fail.
The short-ID list itself holds any `uint64_t`, and serializing a list with a short ID
of `2^48` or more raises that failure. -/
theorem uint48_ser_fails_iff (s : Stream) (v : Int) :
    (Uint48Formatter.Ser s v = Except.error (ERR_UINT48_RANGE, s) ↔ (v < 0 ∨ 2 ^ 48 ≤ v)) ∧
      ((∃ s', Uint48Formatter.Ser s v = Except.ok s') ↔ (0 ≤ v ∧ v < 2 ^ 48)) ∧
      (∀ e, Uint48Formatter.Ser s v = Except.error e → e = (ERR_UINT48_RANGE, s)) ∧
      ∀ (Header Tx : Type) (env : Serializers Header Tx) (ids : List Nat),
        (∃ x ∈ ids, 2 ^ 48 ≤ x) →
        ∃ s', SerShortTxIDs env s ids = Except.error (ERR_UINT48_RANGE, s') := by
  rw [uint48_ser_eq]
  refine ⟨?_, ?_, ?_, ?_⟩
  · by_cases hg : v < 0 ∨ 2 ^ 48 ≤ v
    · rw [if_pos hg]; exact ⟨fun _ => hg, fun _ => rfl⟩
    · rw [if_neg hg]; exact ⟨fun h => absurd h (by simp), fun h => absurd h hg⟩
  · by_cases hg : v < 0 ∨ 2 ^ 48 ≤ v
    · rw [if_pos hg]
      constructor
      · rintro ⟨s', h⟩; exact absurd h (by simp)
      · rintro ⟨h0, h1⟩; rcases hg with hg | hg <;> omega
    · rw [if_neg hg]
      exact ⟨fun _ => ⟨by omega, by omega⟩, fun _ => ⟨_, rfl⟩⟩
  · intro e he
    by_cases hg : v < 0 ∨ 2 ^ 48 ≤ v
    · rw [if_pos hg] at he; exact (Except.error.inj he).symm
    · rw [if_neg hg] at he; exact absurd he (by simp)
  · intro Header Tx env ids hbig
    exact serElems_uint48_fail ids _ hbig

theorem uint48_ser_fails_iff_witness :
    (Uint48Formatter.Ser [9] (2 ^ 48) = Except.error (ERR_UINT48_RANGE, [9]) ↔
        ((2 ^ 48 : Int) < 0 ∨ (2 ^ 48 : Int) ≤ 2 ^ 48)) ∧
      ((∃ s', Uint48Formatter.Ser [9] (2 ^ 48) = Except.ok s') ↔
        ((0 : Int) ≤ 2 ^ 48 ∧ (2 ^ 48 : Int) < 2 ^ 48)) ∧
      (∀ e, Uint48Formatter.Ser [9] (2 ^ 48) = Except.error e → e = (ERR_UINT48_RANGE, [9])) ∧
      ∀ (Header Tx : Type) (env : Serializers Header Tx) (ids : List Nat),
        (∃ x ∈ ids, 2 ^ 48 ≤ x) →
        ∃ s', SerShortTxIDs env [9] ids = Except.error (ERR_UINT48_RANGE, s') :=
  uint48_ser_fails_iff [9] (2 ^ 48)

/-- C8: for `v` in `[0, 2^48)`, `Uint48Formatter::Ser` writes exactly 6 bytes
(`SHORTTXIDS_LENGTH`): the low 32 bits of `v` as a `uint32_t`, then bits 32 to 47 of
`v` as a `uint16_t`. -/
theorem uint48_ser_layout (v : Int) (h0 : 0 ≤ v) (h1 : v < 2 ^ 48) (s : Stream) :
    Uint48Formatter.Ser s v =
        Except.ok (ser_writedata 2 (ser_writedata 4 s (v % 2 ^ 32).toNat)
          (v / 2 ^ 32 % 2 ^ 16).toNat) ∧
      ∃ bytes, Uint48Formatter.Ser s v = Except.ok (s ++ bytes) ∧
        bytes.length = SHORTTXIDS_LENGTH ∧
        bytes.take 4 = leBytes 4 (v % 2 ^ 32).toNat ∧
        bytes.drop 4 = leBytes 2 (v / 2 ^ 32 % 2 ^ 16).toNat := by
  obtain ⟨n, rfl⟩ := Int.eq_ofNat_of_zero_le h0
  have hn : n < 2 ^ 48 := by exact_mod_cast h1
  have e1 : ((n : Int) % 2 ^ 32).toNat = n % 2 ^ 32 := by omega
  have e2 : ((n : Int) / 2 ^ 32 % 2 ^ 16).toNat = n / 2 ^ 32 % 2 ^ 16 := by omega
  rw [e1, e2, uint48_ser_nat s n hn]
  refine ⟨?_, uint48Bytes n, rfl, uint48Bytes_length n, ?_, ?_⟩
  · simp only [ser_writedata, uint48Bytes, List.append_assoc]
  · exact List.take_left' (leBytes_length 4 _)
  · exact List.drop_left' (leBytes_length 4 _)

theorem uint48_ser_layout_witness :
    (0 : Int) ≤ 0x1234567890ab ∧ (0x1234567890ab : Int) < 2 ^ 48 ∧
      (Uint48Formatter.Ser [1] 0x1234567890ab =
          Except.ok (ser_writedata 2 (ser_writedata 4 [1]
            ((0x1234567890ab : Int) % 2 ^ 32).toNat)
            ((0x1234567890ab : Int) / 2 ^ 32 % 2 ^ 16).toNat) ∧
        ∃ bytes, Uint48Formatter.Ser [1] 0x1234567890ab = Except.ok ([1] ++ bytes) ∧
          bytes.length = SHORTTXIDS_LENGTH ∧
          bytes.take 4 = leBytes 4 ((0x1234567890ab : Int) % 2 ^ 32).toNat ∧
          bytes.drop 4 = leBytes 2 ((0x1234567890ab : Int) / 2 ^ 32 % 2 ^ 16).toNat) :=
  ⟨by decide, by decide, uint48_ser_layout 0x1234567890ab (by decide) (by decide) [1]⟩

/-! ## `CBlockHeaderAndShortTxIDs` -/

/-- The elements of a short-ID list read back from the bytes written for them. -/
theorem unserElems_uint48 (ids : List Nat) : ∀ (rest : Stream), (∀ x ∈ ids, x < 2 ^ 48) →
    VectorFormatter.UnserElems Uint48Formatter.Unser IdentityTransform () ids.length
      (uint48ListBytes ids ++ rest) = Except.ok (ids, rest) := by
  induction ids with
  | nil => intro rest _; rfl
  | cons v vs ih =>
    intro rest h
    simp only [List.length_cons, uint48ListBytes, VectorFormatter.UnserElems,
      List.append_assoc]
    rw [uint48_unser_bytes v (h v (List.mem_cons_self v vs))]
    simp only [IdentityTransform]
    rw [ih rest (fun x hx => h x (List.mem_cons_of_mem v hx))]

/-- Deserialization once the four fields are read: the count check decides. -/
theorem unserialize_of_fields {Header Tx : Type} (env : Serializers Header Tx)
    (obj : CBlockHeaderAndShortTxIDs Header Tx) (s s1 s2 s3 s4 : Stream) (header : Header)
    (nonce : Nat) (ids : List Nat) (pre : List (PrefilledTransaction Tx))
    (hh : env.UnserHeader s = Except.ok (header, s1))
    (hn : ser_readdata 8 s1 = Except.ok (nonce, s2))
    (hi : UnserShortTxIDs env s2 = Except.ok (ids, s3))
    (hp : UnserPrefilled env s3 = Except.ok (pre, s4)) :
    CBlockHeaderAndShortTxIDs.Unserialize env obj s =
      if ids.length + pre.length > 65535 then Except.error ERR_INDEXES_OVERFLOWED
      else Except.ok
        ({ shorttxidk0 := (env.FillShortTxIDSelector header nonce).1,
           shorttxidk1 := (env.FillShortTxIDSelector header nonce).2,
           nonce := nonce, shorttxids := ids, prefilledtxn := pre, header := header }, s4) := by
  unfold CBlockHeaderAndShortTxIDs.Unserialize
  rw [hh]
  simp only
  rw [hn]
  simp only
  rw [hi]
  simp only
  rw [hp]
  rfl

/-- C9: given that the header, the nonce, the short-ID list and the prefilled list
decode, deserializing a `CBlockHeaderAndShortTxIDs` raises "indexes overflowed 16 bits"
exactly when `BlockTxCount()`, the number of short IDs plus the number of prefilled
transactions, exceeds 65535; with 65535 entries or fewer it succeeds and returns the
decoded lists. -/
theorem unserialize_count_check {Header Tx : Type} (env : Serializers Header Tx)
    (obj : CBlockHeaderAndShortTxIDs Header Tx) (s s1 s2 s3 s4 : Stream) (header : Header)
    (nonce : Nat) (ids : List Nat) (pre : List (PrefilledTransaction Tx))
    (hh : env.UnserHeader s = Except.ok (header, s1))
    (hn : ser_readdata 8 s1 = Except.ok (nonce, s2))
    (hi : UnserShortTxIDs env s2 = Except.ok (ids, s3))
    (hp : UnserPrefilled env s3 = Except.ok (pre, s4)) :
    (CBlockHeaderAndShortTxIDs.Unserialize env obj s = Except.error ERR_INDEXES_OVERFLOWED ↔
        ids.length + pre.length > 65535) ∧
      ((∃ e, CBlockHeaderAndShortTxIDs.Unserialize env obj s = Except.error e) ↔
        ids.length + pre.length > 65535) ∧
      (ids.length + pre.length ≤ 65535 →
        ∃ read, CBlockHeaderAndShortTxIDs.Unserialize env obj s = Except.ok (read, s4) ∧
          read.shorttxids = ids ∧ read.prefilledtxn = pre ∧
          read.BlockTxCount = ids.length + pre.length) := by
  rw [unserialize_of_fields env obj s s1 s2 s3 s4 header nonce ids pre hh hn hi hp]
  by_cases hc : ids.length + pre.length > 65535
  · rw [if_pos hc]
    exact ⟨⟨fun _ => hc, fun _ => rfl⟩, ⟨fun _ => hc, fun _ => ⟨_, rfl⟩⟩, fun h => by omega⟩
  · rw [if_neg hc]
    refine ⟨⟨fun h => absurd h (by simp), fun h => absurd h hc⟩,
      ⟨?_, fun h => absurd h hc⟩, fun _ => ⟨_, rfl, rfl, rfl, rfl⟩⟩
    rintro ⟨e, he⟩
    exact absurd he (by simp)

theorem unserialize_count_check_witness :
    sampleSerializers.UnserHeader
        [9, 0, 0, 0, 7, 0, 0, 0, 0, 0, 0, 0, 2, 1, 0, 0, 0, 0, 0, 3, 0, 0, 0, 0, 0, 1, 0, 5] =
        Except.ok (9, [7, 0, 0, 0, 0, 0, 0, 0, 2, 1, 0, 0, 0, 0, 0, 3, 0, 0, 0, 0, 0, 1, 0, 5]) ∧
      ser_readdata 8 [7, 0, 0, 0, 0, 0, 0, 0, 2, 1, 0, 0, 0, 0, 0, 3, 0, 0, 0, 0, 0, 1, 0, 5] =
        Except.ok (7, [2, 1, 0, 0, 0, 0, 0, 3, 0, 0, 0, 0, 0, 1, 0, 5]) ∧
      UnserShortTxIDs sampleSerializers [2, 1, 0, 0, 0, 0, 0, 3, 0, 0, 0, 0, 0, 1, 0, 5] =
        Except.ok ([1, 3], [1, 0, 5]) ∧
      UnserPrefilled sampleSerializers [1, 0, 5] =
        Except.ok ([{ index := 0, tx := 5 }], []) ∧
      ∃ read, CBlockHeaderAndShortTxIDs.Unserialize sampleSerializers
          { shorttxidk0 := 0, shorttxidk1 := 0, nonce := 0, shorttxids := [],
            prefilledtxn := [], header := 0 }
          [9, 0, 0, 0, 7, 0, 0, 0, 0, 0, 0, 0, 2, 1, 0, 0, 0, 0, 0, 3, 0, 0, 0, 0, 0, 1, 0, 5] =
          Except.ok (read, []) ∧ read.BlockTxCount = 3 :=
  ⟨rfl, rfl, rfl, rfl,
    ((unserialize_count_check sampleSerializers
      { shorttxidk0 := 0, shorttxidk1 := 0, nonce := 0, shorttxids := [],
        prefilledtxn := [], header := 0 }
      [9, 0, 0, 0, 7, 0, 0, 0, 0, 0, 0, 0, 2, 1, 0, 0, 0, 0, 0, 3, 0, 0, 0, 0, 0, 1, 0, 5]
      [7, 0, 0, 0, 0, 0, 0, 0, 2, 1, 0, 0, 0, 0, 0, 3, 0, 0, 0, 0, 0, 1, 0, 5]
      [2, 1, 0, 0, 0, 0, 0, 3, 0, 0, 0, 0, 0, 1, 0, 5] [1, 0, 5] [] 9 7 [1, 3]
      [{ index := 0, tx := 5 }] rfl rfl rfl rfl).2.2 (by decide)).imp
      (fun _ h => ⟨h.1, h.2.2.2⟩)⟩

/-- The code at C10's input: the short IDs `[1, 3]` are written as the count and the
six bytes of 1 and of 3, while the differential wrapping would write the gaps 1 and 1;
and the short IDs `[5, 3]`, which are not ascending, are written by the code and
refused by the differential wrapping. -/
theorem shorttxids_not_differential :
    SerShortTxIDs sampleSerializers [] [1, 3] =
        Except.ok [2, 1, 0, 0, 0, 0, 0, 3, 0, 0, 0, 0, 0] ∧
      SerShortTxIDsDifferential sampleSerializers [] [1, 3] =
        Except.ok [2, 1, 0, 0, 0, 0, 0, 1, 0, 0, 0, 0, 0] ∧
      SerShortTxIDs sampleSerializers [] [5, 3] =
        Except.ok [2, 5, 0, 0, 0, 0, 0, 3, 0, 0, 0, 0, 0] ∧
      SerShortTxIDsDifferential sampleSerializers [] [5, 3] =
        Except.error (ERR_DIFFERENTIAL_OVERFLOW, [2, 5, 0, 0, 0, 0, 0]) ∧
      SerShortTxIDs sampleSerializers [] [1, 3] ≠
        SerShortTxIDsDifferential sampleSerializers [] [1, 3] :=
  ⟨rfl, rfl, rfl, rfl, by
    have h1 : SerShortTxIDs sampleSerializers [] [1, 3] =
        Except.ok [2, 1, 0, 0, 0, 0, 0, 3, 0, 0, 0, 0, 0] := rfl
    have h2 : SerShortTxIDsDifferential sampleSerializers [] [1, 3] =
        Except.ok [2, 1, 0, 0, 0, 0, 0, 1, 0, 0, 0, 0, 0] := rfl
    rw [h1, h2]
    intro h
    have := Except.ok.inj h
    revert this
    decide⟩

/-- C10 (amended): the short-ID list of a `CBlockHeaderAndShortTxIDs` goes through
`VectorFormatter<Uint48Formatter>` with no `DifferenceTransform`: after the count, every
short ID below `2^48` is written verbatim as its own six bytes, whatever its
predecessor, and reading that many elements back from these bytes returns the list.
The `DifferenceTransform` wrapping is that of the indexes of a
`BlockTransactionsRequest`, which are written as gaps when strictly ascending. -/
theorem shorttxids_written_verbatim {Header Tx : Type} (env : Serializers Header Tx)
    (s rest : Stream) (ids : List Nat) (h : ∀ x ∈ ids, x < 2 ^ 48) :
    SerShortTxIDs env s ids =
        Except.ok (env.WriteCompactSize s ids.length ++ uint48ListBytes ids) ∧
      VectorFormatter.UnserElems Uint48Formatter.Unser IdentityTransform () ids.length
        (uint48ListBytes ids ++ rest) = Except.ok (ids, rest) ∧
      ∀ req : BlockTransactionsRequest, IsUint16List req.indexes →
        req.indexes.Pairwise (· < ·) →
        BlockTransactionsRequest.Serialize env s req =
          VectorFormatter.SerElems env.CompactSizeSer16 IdentityTransform ()
            (env.WriteCompactSize (env.SerHash s req.blockhash) req.indexes.length)
            (gapsFrom (-1) req.indexes) :=
  ⟨serElems_uint48_ok ids _ h, unserElems_uint48 ids rest h,
    fun req hu hs => blockTransactionsRequest_serialize_gaps env s req hu hs⟩

theorem shorttxids_written_verbatim_witness :
    (∀ x ∈ [5, 3], x < 2 ^ 48) ∧
      (SerShortTxIDs sampleSerializers [] [5, 3] =
          Except.ok (sampleSerializers.WriteCompactSize [] [5, 3].length ++
            uint48ListBytes [5, 3]) ∧
        VectorFormatter.UnserElems Uint48Formatter.Unser IdentityTransform () [5, 3].length
          (uint48ListBytes [5, 3] ++ [8]) = Except.ok ([5, 3], [8])) :=
  ⟨by decide,
    (shorttxids_written_verbatim sampleSerializers [] [8] [5, 3] (by decide)).1,
    (shorttxids_written_verbatim sampleSerializers [] [8] [5, 3] (by decide)).2.1⟩

/-! ## The sample serializers read back what they wrote -/

theorem sampleWriteCompactSize_append (s : Stream) (n : Nat) :
    sampleWriteCompactSize s n = s ++ sampleWriteCompactSize [] n := by
  unfold sampleWriteCompactSize
  split_ifs <;> simp

theorem sampleReadCompactSize_write (n : Nat) (rest : Stream) (hn : n ≤ 65536) :
    sampleReadCompactSize (sampleWriteCompactSize [] n ++ rest) = Except.ok (n, rest) := by
  unfold sampleWriteCompactSize
  by_cases h1 : n < 253
  · rw [if_pos h1]
    simp only [List.nil_append, List.singleton_append, sampleReadCompactSize]
    rw [if_pos h1]
  · rw [if_neg h1]
    by_cases h2 : n ≤ 0xffff
    · rw [if_pos h2]
      simp only [List.nil_append, List.cons_append, sampleReadCompactSize]
      rw [if_neg (by omega), if_pos trivial, ser_readdata_leBytes]
      have : n % 256 ^ 2 = n := Nat.mod_eq_of_lt (by norm_num; omega)
      rw [this]
    · rw [if_neg h2, if_pos (by omega)]
      simp only [List.nil_append, List.cons_append, sampleReadCompactSize]
      rw [if_neg (by omega), if_neg (by omega), if_pos trivial, ser_readdata_leBytes]
      have : n % 256 ^ 4 = n := Nat.mod_eq_of_lt (by norm_num; omega)
      rw [this]

theorem sampleSerializersFin_roundTrip : sampleSerializersFin.RoundTrip sampleEncoders where
  write_size := fun s n => sampleWriteCompactSize_append s n
  read_size := fun n rest hn => sampleReadCompactSize_write n rest hn
  write_index16 := fun s v _ => by
    show Except.ok (sampleWriteCompactSize s v) = _
    rw [sampleWriteCompactSize_append]
    rfl
  read_index16 := fun v rest hv => by
    show sampleCompactSizeUnser16 (sampleWriteCompactSize [] v ++ rest) = _
    unfold sampleCompactSizeUnser16
    rw [sampleReadCompactSize_write v rest (by omega)]
    simp only
    rw [if_neg (by omega)]
  write_header := fun _ _ => rfl
  read_header := fun h rest => by
    show (match ser_readdata 4 (leBytes 4 h.val ++ rest) with
      | Except.error e => Except.error e
      | Except.ok (v, rest) => Except.ok (Fin.ofNat v, rest)) = _
    rw [ser_readdata_leBytes]
    simp only [Except.ok.injEq, Prod.mk.injEq, and_true]
    apply Fin.ext
    have := h.isLt
    simp only [Fin.ofNat, Fin.val_mk]
    omega
  write_hash := fun _ _ => rfl
  read_hash := fun h rest hh => by
    show ser_readdata 32 (leBytes 32 h ++ rest) = _
    rw [ser_readdata_leBytes]
    have : h % 256 ^ 32 = h := Nat.mod_eq_of_lt (by
      have e : (256 : Nat) ^ 32 = 2 ^ 256 := by norm_num
      rw [e]; exact hh)
    rw [this]
  write_tx := fun _ _ => rfl
  read_tx := fun t rest => by
    show (match ser_readdata 1 (leBytes 1 t.val ++ rest) with
      | Except.error e => Except.error e
      | Except.ok (v, rest) => Except.ok (Fin.ofNat v, rest)) = _
    rw [ser_readdata_leBytes]
    simp only [Except.ok.injEq, Prod.mk.injEq, and_true]
    apply Fin.ext
    have := t.isLt
    simp only [Fin.ofNat, Fin.val_mk]
    omega

/-! ## Byte layout under the round-trip laws -/

theorem serElems_index16 {Header Tx : Type} (env : Serializers Header Tx)
    (enc : Encoders Header Tx) (hrt : env.RoundTrip enc) (vs : List Nat) :
    ∀ (s : Stream), IsUint16List vs →
    VectorFormatter.SerElems env.CompactSizeSer16 IdentityTransform () s vs =
      Except.ok (s ++ index16ListBytes enc vs) := by
  induction vs with
  | nil => intro s _; simp [VectorFormatter.SerElems, index16ListBytes]
  | cons v vs ih =>
    intro s hu
    unfold VectorFormatter.SerElems
    simp only [IdentityTransform]
    rw [hrt.write_index16 s v hu.head]
    simp only
    rw [ih _ hu.tail, List.append_assoc]
    rfl

theorem unserElems_index16_decode {Header Tx : Type} (env : Serializers Header Tx)
    (enc : Encoders Header Tx) (hrt : env.RoundTrip enc) (rest : Stream) (gs : List Nat) :
    ∀ (p : Int), -1 ≤ p → p ≤ 65535 → IsUint16List gs → AccFits p gs →
    VectorFormatter.UnserElems env.CompactSizeUnser16 (DifferenceTransform.call true)
      { m_shift := p + 1 } gs.length (index16ListBytes enc gs ++ rest) =
      Except.ok (accFrom p gs, rest) := by
  induction gs with
  | nil => intro p _ _ _ _; rfl
  | cons g gs ih =>
    intro p hp1 hp2 hu ha
    obtain ⟨hpg, ha'⟩ := ha
    simp only [List.length_cons, index16ListBytes, VectorFormatter.UnserElems,
      List.append_assoc]
    rw [hrt.read_index16 g _ hu.head]
    simp only
    rw [call_decode_step p g hp1 hp2 hu.head, if_neg (by omega)]
    simp only
    rw [ih (p + 1 + (g : Int)) (by omega) (by omega) hu.tail ha']
    rfl

theorem serElems_prefilled {Header Tx : Type} (env : Serializers Header Tx)
    (enc : Encoders Header Tx) (hrt : env.RoundTrip enc)
    (pre : List (PrefilledTransaction Tx)) :
    ∀ (s : Stream), (∀ p ∈ pre, p.index < 65536) →
    VectorFormatter.SerElems (PrefilledTransaction.Serialize env) IdentityTransform () s pre =
      Except.ok (s ++ prefilledListBytes enc pre) := by
  induction pre with
  | nil => intro s _; simp [VectorFormatter.SerElems, prefilledListBytes]
  | cons q qs ih =>
    intro s h
    unfold VectorFormatter.SerElems
    simp only [IdentityTransform, PrefilledTransaction.Serialize]
    rw [hrt.write_index16 s q.index (h q (List.mem_cons_self q qs))]
    simp only
    rw [hrt.write_tx, ih _ (fun p hp => h p (List.mem_cons_of_mem q hp))]
    simp only [prefilledListBytes, prefilledBytes, List.append_assoc]

/-- A strictly ascending list of values below 65536 above `p` has at most `65535 - p`
elements. -/
theorem ascAbove_length_le (l : List Nat) : ∀ (p : Int), AscAbove p l → IsUint16List l →
    p ≤ 65535 → p + (l.length : Int) ≤ 65535 := by
  induction l with
  | nil => intro p _ _ hp; simpa using hp
  | cons v vs ih =>
    intro p ha hu hp
    obtain ⟨hpv, ha'⟩ := ha
    have hv := hu.head
    have := ih v ha' hu.tail (by omega)
    simp only [List.length_cons]
    push_cast
    omega

/-! ## Claims on the messages -/

/-- The bytes of a `CBlockHeaderAndShortTxIDs` under the round-trip laws. -/
theorem serialize_bytes {Header Tx : Type} (env : Serializers Header Tx)
    (enc : Encoders Header Tx) (hrt : env.RoundTrip enc) (s : Stream)
    (a : CBlockHeaderAndShortTxIDs Header Tx) (hi : ∀ x ∈ a.shorttxids, x < 2 ^ 48)
    (hp : ∀ p ∈ a.prefilledtxn, p.index < 65536) :
    CBlockHeaderAndShortTxIDs.Serialize env s a =
      Except.ok (s ++ enc.headerBytes a.header ++ leBytes 8 a.nonce ++
        enc.sizeBytes a.shorttxids.length ++ uint48ListBytes a.shorttxids ++
        enc.sizeBytes a.prefilledtxn.length ++ prefilledListBytes enc a.prefilledtxn) := by
  unfold CBlockHeaderAndShortTxIDs.Serialize SerShortTxIDs SerPrefilled VectorFormatter.Ser
  simp only
  rw [serElems_uint48_ok a.shorttxids _ hi]
  simp only
  rw [serElems_prefilled env enc hrt a.prefilledtxn _ hp]
  simp only [hrt.write_header, hrt.write_size, ser_writedata, List.append_assoc]

/-- C11: serializing a `CBlockHeaderAndShortTxIDs` writes the header, the `uint64_t`
nonce, the length-prefixed short-ID list and the length-prefixed prefilled list, in
this order, and nothing else; the salts `shorttxidk0` and `shorttxidk1` are not written,
so two messages that agree on header, nonce, short IDs and prefilled transactions
serialize alike whatever their salts. -/
theorem serialize_ignores_salts {Header Tx : Type} (env : Serializers Header Tx) (s : Stream)
    (a b : CBlockHeaderAndShortTxIDs Header Tx) (hh : a.header = b.header)
    (hn : a.nonce = b.nonce) (hi : a.shorttxids = b.shorttxids)
    (hp : a.prefilledtxn = b.prefilledtxn) :
    CBlockHeaderAndShortTxIDs.Serialize env s a = CBlockHeaderAndShortTxIDs.Serialize env s b ∧
      (CBlockHeaderAndShortTxIDs.Serialize env s a =
        match SerShortTxIDs env (ser_writedata 8 (env.SerHeader s a.header) a.nonce)
            a.shorttxids with
        | Except.error e => Except.error e
        | Except.ok s3 => SerPrefilled env s3 a.prefilledtxn) ∧
      ∀ enc : Encoders Header Tx, env.RoundTrip enc → (∀ x ∈ a.shorttxids, x < 2 ^ 48) →
        (∀ p ∈ a.prefilledtxn, p.index < 65536) →
        CBlockHeaderAndShortTxIDs.Serialize env s a =
          Except.ok (s ++ enc.headerBytes a.header ++ leBytes 8 a.nonce ++
            enc.sizeBytes a.shorttxids.length ++ uint48ListBytes a.shorttxids ++
            enc.sizeBytes a.prefilledtxn.length ++ prefilledListBytes enc a.prefilledtxn) := by
  refine ⟨?_, rfl, fun enc hrt hi' hp' => serialize_bytes env enc hrt s a hi' hp'⟩
  unfold CBlockHeaderAndShortTxIDs.Serialize
  rw [hh, hn, hi, hp]

theorem serialize_ignores_salts_witness :
    CBlockHeaderAndShortTxIDs.Serialize sampleSerializers []
        { shorttxidk0 := 11, shorttxidk1 := 12, nonce := 7, shorttxids := [1, 3],
          prefilledtxn := [{ index := 0, tx := 5 }], header := 9 } =
      CBlockHeaderAndShortTxIDs.Serialize sampleSerializers []
        { shorttxidk0 := 21, shorttxidk1 := 22, nonce := 7, shorttxids := [1, 3],
          prefilledtxn := [{ index := 0, tx := 5 }], header := 9 } :=
  (serialize_ignores_salts sampleSerializers []
    { shorttxidk0 := 11, shorttxidk1 := 12, nonce := 7, shorttxids := [1, 3],
      prefilledtxn := [{ index := 0, tx := 5 }], header := 9 }
    { shorttxidk0 := 21, shorttxidk1 := 22, nonce := 7, shorttxids := [1, 3],
      prefilledtxn := [{ index := 0, tx := 5 }], header := 9 } rfl rfl rfl rfl).1

/-- C12: every successful deserialization of a `CBlockHeaderAndShortTxIDs` returns a
message whose salts are those `FillShortTxIDSelector` computes from the decoded header
and nonce; the message into which it deserializes, and so the salts it held before,
have no part in the result. -/
theorem unserialize_recomputes_salts {Header Tx : Type} (env : Serializers Header Tx)
    (obj : CBlockHeaderAndShortTxIDs Header Tx) (s s' : Stream)
    (read : CBlockHeaderAndShortTxIDs Header Tx)
    (h : CBlockHeaderAndShortTxIDs.Unserialize env obj s = Except.ok (read, s')) :
    read.shorttxidk0 = (env.FillShortTxIDSelector read.header read.nonce).1 ∧
      read.shorttxidk1 = (env.FillShortTxIDSelector read.header read.nonce).2 ∧
      ∀ obj' : CBlockHeaderAndShortTxIDs Header Tx,
        CBlockHeaderAndShortTxIDs.Unserialize env obj' s = Except.ok (read, s') := by
  cases hh : env.UnserHeader s with
  | error e =>
    unfold CBlockHeaderAndShortTxIDs.Unserialize at h
    rw [hh] at h; exact absurd h (by simp)
  | ok r1 =>
    obtain ⟨header, s1⟩ := r1
    cases hn : ser_readdata 8 s1 with
    | error e =>
      unfold CBlockHeaderAndShortTxIDs.Unserialize at h
      rw [hh] at h; simp only at h
      rw [hn] at h; exact absurd h (by simp)
    | ok r2 =>
      obtain ⟨nonce, s2⟩ := r2
      cases hi : UnserShortTxIDs env s2 with
      | error e =>
        unfold CBlockHeaderAndShortTxIDs.Unserialize at h
        rw [hh] at h; simp only at h
        rw [hn] at h; simp only at h
        rw [hi] at h; exact absurd h (by simp)
      | ok r3 =>
        obtain ⟨ids, s3⟩ := r3
        cases hp : UnserPrefilled env s3 with
        | error e =>
          unfold CBlockHeaderAndShortTxIDs.Unserialize at h
          rw [hh] at h; simp only at h
          rw [hn] at h; simp only at h
          rw [hi] at h; simp only at h
          rw [hp] at h; exact absurd h (by simp)
        | ok r4 =>
          obtain ⟨pre, s4⟩ := r4
          have key := fun o => unserialize_of_fields env o s s1 s2 s3 s4 header nonce ids pre
            hh hn hi hp
          rw [key obj] at h
          by_cases hc : ids.length + pre.length > 65535
          · rw [if_pos hc] at h; exact absurd h (by simp)
          · rw [if_neg hc] at h
            simp only [Except.ok.injEq, Prod.mk.injEq] at h
            obtain ⟨hr, hs⟩ := h
            subst hr
            subst hs
            refine ⟨rfl, rfl, fun obj' => ?_⟩
            rw [key obj', if_neg hc]

theorem unserialize_recomputes_salts_witness :
    ∃ read, CBlockHeaderAndShortTxIDs.Unserialize sampleSerializers
        { shorttxidk0 := 41, shorttxidk1 := 42, nonce := 0, shorttxids := [],
          prefilledtxn := [], header := 0 }
        [9, 0, 0, 0, 7, 0, 0, 0, 0, 0, 0, 0, 2, 1, 0, 0, 0, 0, 0, 3, 0, 0, 0, 0, 0, 1, 0, 5] =
        Except.ok (read, []) ∧
      read.shorttxidk0 = (sampleSerializers.FillShortTxIDSelector read.header read.nonce).1 ∧
      read.shorttxidk1 = (sampleSerializers.FillShortTxIDSelector read.header read.nonce).2 :=
  ⟨{ shorttxidk0 := 9, shorttxidk1 := 7, nonce := 7, shorttxids := [1, 3],
     prefilledtxn := [{ index := 0, tx := 5 }], header := 9 }, rfl,
    (unserialize_recomputes_salts sampleSerializers
      { shorttxidk0 := 41, shorttxidk1 := 42, nonce := 0, shorttxids := [],
        prefilledtxn := [], header := 0 }
      [9, 0, 0, 0, 7, 0, 0, 0, 0, 0, 0, 0, 2, 1, 0, 0, 0, 0, 0, 3, 0, 0, 0, 0, 0, 1, 0, 5] []
      { shorttxidk0 := 9, shorttxidk1 := 7, nonce := 7, shorttxids := [1, 3],
        prefilledtxn := [{ index := 0, tx := 5 }], header := 9 } rfl).1,
    (unserialize_recomputes_salts sampleSerializers
      { shorttxidk0 := 41, shorttxidk1 := 42, nonce := 0, shorttxids := [],
        prefilledtxn := [], header := 0 }
      [9, 0, 0, 0, 7, 0, 0, 0, 0, 0, 0, 0, 2, 1, 0, 0, 0, 0, 0, 3, 0, 0, 0, 0, 0, 1, 0, 5] []
      { shorttxidk0 := 9, shorttxidk1 := 7, nonce := 7, shorttxids := [1, 3],
        prefilledtxn := [{ index := 0, tx := 5 }], header := 9 } rfl).2.1⟩

/-- C13: the response `BlockTransactions(req)` built from a request has the block hash
of the request and a `txn` vector of exactly `req.indexes.size()` slots, every one of
them null. -/
theorem blockTransactions_ofRequest {Tx : Type} (req : BlockTransactionsRequest) :
    (BlockTransactions.ofRequest req : BlockTransactions Tx).blockhash = req.blockhash ∧
      (BlockTransactions.ofRequest req : BlockTransactions Tx).txn.length =
        req.indexes.length ∧
      (∀ slot ∈ (BlockTransactions.ofRequest req : BlockTransactions Tx).txn, slot = none) ∧
      ∀ i, i < req.indexes.length →
        (BlockTransactions.ofRequest req : BlockTransactions Tx).txn.get? i = some none := by
  refine ⟨rfl, by simp [BlockTransactions.ofRequest], ?_, ?_⟩
  · intro slot hs
    exact List.eq_of_mem_replicate hs
  · intro i hi
    simp [BlockTransactions.ofRequest, hi]

/-- C14: for a `BlockTransactionsRequest` whose indexes are strictly ascending,
serialization writes the block hash, then the compact-size count of the indexes, then
the `DifferenceTransform<false>` gaps of the indexes, each as a compact-size integer;
deserializing these bytes returns the same block hash and the same indexes. The outside
serializers are taken to read back what they write. -/
theorem blockTransactionsRequest_roundtrip {Header Tx : Type} (env : Serializers Header Tx)
    (enc : Encoders Header Tx) (hrt : env.RoundTrip enc) (req : BlockTransactionsRequest)
    (hu : IsUint16List req.indexes) (hs : req.indexes.Pairwise (· < ·))
    (hh : req.blockhash < 2 ^ 256) (s rest : Stream) :
    ∃ gaps, encode req.indexes = Except.ok gaps ∧
      BlockTransactionsRequest.Serialize env s req =
        Except.ok (s ++ (enc.hashBytes req.blockhash ++ enc.sizeBytes req.indexes.length ++
          index16ListBytes enc gaps)) ∧
      BlockTransactionsRequest.Unserialize env
          (enc.hashBytes req.blockhash ++ enc.sizeBytes req.indexes.length ++
            index16ListBytes enc gaps ++ rest) = Except.ok (req, rest) := by
  have ha := (ascAbove_iff_pairwise req.indexes).mpr hs
  have hgu := gapsFrom_uint16 req.indexes (-1) (by omega) hu ha
  have hlen : req.indexes.length ≤ 65536 := by
    have := ascAbove_length_le req.indexes (-1) ha hu (by omega)
    omega
  refine ⟨gapsFrom (-1) req.indexes, encode_of_ascending req.indexes hu hs, ?_, ?_⟩
  · rw [blockTransactionsRequest_serialize_gaps env s req hu hs,
      serElems_index16 env enc hrt _ _ hgu, hrt.write_size, hrt.write_hash]
    simp only [List.append_assoc]
  · unfold BlockTransactionsRequest.Unserialize VectorFormatter.Unser
    simp only [List.append_assoc]
    rw [hrt.read_hash _ _ hh]
    simp only
    rw [hrt.read_size _ _ hlen]
    simp only
    have hd := unserElems_index16_decode env enc hrt rest (gapsFrom (-1) req.indexes) (-1)
      (by omega) (by omega) hgu (accFits_gapsFrom req.indexes (-1) (by omega) hu ha)
    rw [gapsFrom_length, accFrom_gapsFrom req.indexes (-1) ha] at hd
    rw [fresh_eq_decode_state, hd]

theorem blockTransactionsRequest_roundtrip_witness :
    IsUint16List [1, 3, 300] ∧ [1, 3, 300].Pairwise (· < ·) ∧
      ∃ gaps, encode [1, 3, 300] = Except.ok gaps ∧
        BlockTransactionsRequest.Serialize sampleSerializersFin []
            { blockhash := 7, indexes := [1, 3, 300] } =
          Except.ok ([] ++ (sampleEncoders.hashBytes 7 ++ sampleEncoders.sizeBytes 3 ++
            index16ListBytes sampleEncoders gaps)) ∧
        BlockTransactionsRequest.Unserialize sampleSerializersFin
            (sampleEncoders.hashBytes 7 ++ sampleEncoders.sizeBytes 3 ++
              index16ListBytes sampleEncoders gaps ++ [9]) =
          Except.ok ({ blockhash := 7, indexes := [1, 3, 300] }, [9]) :=
  ⟨by decide, by decide,
    blockTransactionsRequest_roundtrip sampleSerializersFin sampleEncoders
      sampleSerializersFin_roundTrip { blockhash := 7, indexes := [1, 3, 300] }
      (by decide) (by decide) (by norm_num) [] [9]⟩

/-! ## Claims on the reconstruction -/

/-- C15: `InitData` on a `CBlockHeaderAndShortTxIDs` whose short IDs and prefilled
transactions number more than 65535 returns `READ_STATUS_INVALID` and leaves the
reconstruction state as it was, whatever the pools, the extra pool and the
collaborators are: no slot is filled and no candidate is examined. -/
theorem initData_count_guard {Header Tx : Type} (col : Collaborators Header Tx)
    (pdb : PartiallyDownloadedBlock Header Tx)
    (cmpctblock : CBlockHeaderAndShortTxIDs Header Tx) (pool : List Tx)
    (extra_txn : List (Nat × Tx)) (h : cmpctblock.BlockTxCount > 65535) :
    pdb.InitData col cmpctblock pool extra_txn = (ReadStatus.READ_STATUS_INVALID, pdb) ∧
      (pdb.InitData col cmpctblock pool extra_txn).2.txn_available = pdb.txn_available ∧
      ∀ (col' : Collaborators Header Tx) (pool' : List Tx) (extra_txn' : List (Nat × Tx)),
        pdb.InitData col' cmpctblock pool' extra_txn' =
          pdb.InitData col cmpctblock pool extra_txn := by
  have key : ∀ (c : Collaborators Header Tx) (p : List Tx) (e : List (Nat × Tx)),
      pdb.InitData c cmpctblock p e = (ReadStatus.READ_STATUS_INVALID, pdb) := by
    intro c p e
    unfold PartiallyDownloadedBlock.InitData
    rw [if_pos h]
  refine ⟨key col pool extra_txn, ?_, fun c p e => ?_⟩
  · rw [key col pool extra_txn]
  · rw [key c p e, key col pool extra_txn]

theorem sampleMessageOfSize_count (n : Nat) : (sampleMessageOfSize n).BlockTxCount = n := by
  unfold CBlockHeaderAndShortTxIDs.BlockTxCount sampleMessageOfSize
  simp only [List.length_replicate, List.length_nil, Nat.add_zero]

theorem initData_count_guard_witness :
    (sampleMessageOfSize 65536).BlockTxCount > 65535 ∧
      sampleFreshState.InitData sampleCollaborators (sampleMessageOfSize 65536) [0, 1] [] =
        (ReadStatus.READ_STATUS_INVALID, sampleFreshState) :=
  ⟨by rw [sampleMessageOfSize_count]; decide,
    (initData_count_guard sampleCollaborators sampleFreshState (sampleMessageOfSize 65536)
      [0, 1] [] (by rw [sampleMessageOfSize_count]; decide)).1⟩

/-! ### The missing positions and the slots filled -/

theorem missingPositions_length {Tx : Type} (slots : List (Option Tx)) : ∀ (base : Nat),
    (missingPositions base slots).length = (slots.filter (fun slot => slot.isNone)).length := by
  induction slots with
  | nil => intro _; rfl
  | cons x rest ih =>
    intro base
    cases x with
    | none => simp [missingPositions, ih]
    | some t => simp [missingPositions, ih]

theorem mem_missingPositions {Tx : Type} (slots : List (Option Tx)) : ∀ (base i : Nat),
    i ∈ missingPositions base slots ↔ base ≤ i ∧ slots.get? (i - base) = some none := by
  induction slots with
  | nil => intro base i; simp [missingPositions]
  | cons x rest ih =>
    intro base i
    cases x with
    | none =>
      simp only [missingPositions, List.mem_cons, ih]
      constructor
      · rintro (h | ⟨h1, h2⟩)
        · subst h; simp
        · refine ⟨by omega, ?_⟩
          have e : i - base = (i - (base + 1)) + 1 := by omega
          rw [e, List.get?_cons_succ]; exact h2
      · rintro ⟨h1, h2⟩
        by_cases hi : i = base
        · exact Or.inl hi
        · right
          refine ⟨by omega, ?_⟩
          have e : i - base = (i - (base + 1)) + 1 := by omega
          rw [e, List.get?_cons_succ] at h2; exact h2
    | some t =>
      simp only [missingPositions, ih]
      constructor
      · rintro ⟨h1, h2⟩
        refine ⟨by omega, ?_⟩
        have e : i - base = (i - (base + 1)) + 1 := by omega
        rw [e, List.get?_cons_succ]; exact h2
      · rintro ⟨h1, h2⟩
        by_cases hi : i = base
        · subst hi; simp at h2
        · refine ⟨by omega, ?_⟩
          have e : i - base = (i - (base + 1)) + 1 := by omega
          rw [e, List.get?_cons_succ] at h2; exact h2

theorem missingPositions_pairwise {Tx : Type} (slots : List (Option Tx)) : ∀ (base : Nat),
    (missingPositions base slots).Pairwise (· < ·) := by
  induction slots with
  | nil => intro _; exact List.Pairwise.nil
  | cons x rest ih =>
    intro base
    cases x with
    | none =>
      simp only [missingPositions, List.pairwise_cons]
      refine ⟨fun a ha => ?_, ih (base + 1)⟩
      have := ((mem_missingPositions rest (base + 1) a).mp ha).1
      omega
    | some t => exact ih (base + 1)

theorem fillSlots_length {Tx : Type} (slots : List (Option Tx)) : ∀ (supplied : List Tx),
    (slots.filter (fun slot => slot.isNone)).length ≤ supplied.length →
    (fillSlots slots supplied).length = slots.length := by
  induction slots with
  | nil => intro _ _; rfl
  | cons x rest ih =>
    intro supplied h
    cases x with
    | some t =>
      simp only [fillSlots, List.length_cons]
      rw [ih supplied (by simpa using h)]
    | none =>
      cases supplied with
      | nil => simp at h
      | cons m ms =>
        simp only [fillSlots, List.length_cons]
        rw [ih ms (by simpa using h)]

theorem fillSlots_filled {Tx : Type} (slots : List (Option Tx)) :
    ∀ (supplied : List Tx) (i : Nat) (tx : Tx),
    (slots.filter (fun slot => slot.isNone)).length ≤ supplied.length →
    slots.get? i = some (some tx) → (fillSlots slots supplied).get? i = some tx := by
  induction slots with
  | nil => intro _ i _ _ h; simp at h
  | cons x rest ih =>
    intro supplied i tx hc h
    cases x with
    | some t =>
      cases i with
      | zero => simp only [List.get?_cons_zero, Option.some.injEq] at h; simp [fillSlots, h]
      | succ j =>
        simp only [List.get?_cons_succ] at h
        simp only [fillSlots, List.get?_cons_succ]
        exact ih supplied j tx (by simpa using hc) h
    | none =>
      cases supplied with
      | nil => simp at hc
      | cons m ms =>
        cases i with
        | zero => simp at h
        | succ j =>
          simp only [List.get?_cons_succ] at h
          simp only [fillSlots, List.get?_cons_succ]
          exact ih ms j tx (by simpa using hc) h

theorem fillSlots_missing {Tx : Type} (slots : List (Option Tx)) :
    ∀ (base : Nat) (supplied : List Tx) (k pos : Nat),
    (slots.filter (fun slot => slot.isNone)).length ≤ supplied.length →
    (missingPositions base slots).get? k = some pos →
    base ≤ pos ∧ (fillSlots slots supplied).get? (pos - base) = supplied.get? k := by
  induction slots with
  | nil => intro _ _ k _ _ h; simp [missingPositions] at h
  | cons x rest ih =>
    intro base supplied k pos hc h
    cases x with
    | some t =>
      simp only [missingPositions] at h
      obtain ⟨h1, h2⟩ := ih (base + 1) supplied k pos (by simpa using hc) h
      refine ⟨by omega, ?_⟩
      have e : pos - base = (pos - (base + 1)) + 1 := by omega
      rw [e]
      simp only [fillSlots, List.get?_cons_succ]
      exact h2
    | none =>
      cases supplied with
      | nil => simp at hc
      | cons m ms =>
        simp only [missingPositions] at h
        cases k with
        | zero =>
          simp only [List.get?_cons_zero, Option.some.injEq] at h
          subst h
          simp [fillSlots]
        | succ j =>
          simp only [List.get?_cons_succ] at h
          obtain ⟨h1, h2⟩ := ih (base + 1) ms j pos (by simpa using hc) h
          refine ⟨by omega, ?_⟩
          have e : pos - base = (pos - (base + 1)) + 1 := by omega
          rw [e]
          simp only [fillSlots, List.get?_cons_succ]
          exact h2

/-- C16: `FillBlock` returns `READ_STATUS_INVALID` whenever the number of supplied
transactions differs from the number of slots that are missing, and otherwise assembles
a block in which the `k`-th supplied transaction stands at the `k`-th missing position
in ascending order and every slot that was filled keeps its transaction. The missing
positions are the indexes, in ascending order, for which `IsTxAvailable` is false. -/
theorem fillBlock_places {Header Tx : Type} (col : Collaborators Header Tx)
    (pdb : PartiallyDownloadedBlock Header Tx) (vtx_missing : List Tx) :
    (vtx_missing.length ≠ (missingPositions 0 pdb.txn_available).length →
        pdb.FillBlock col vtx_missing = (ReadStatus.READ_STATUS_INVALID, none)) ∧
      (vtx_missing.length = (missingPositions 0 pdb.txn_available).length →
        ∃ block, (pdb.FillBlock col vtx_missing).2 = some block ∧
          (pdb.FillBlock col vtx_missing).1 =
            (if col.CheckBlock block then ReadStatus.READ_STATUS_OK
             else ReadStatus.READ_STATUS_CHECKBLOCK_FAILED) ∧
          block.header = pdb.header ∧
          block.vtx.length = pdb.txn_available.length ∧
          (∀ k pos, (missingPositions 0 pdb.txn_available).get? k = some pos →
            block.vtx.get? pos = vtx_missing.get? k) ∧
          ∀ i tx, pdb.txn_available.get? i = some (some tx) → block.vtx.get? i = some tx) ∧
      (missingPositions 0 pdb.txn_available).Pairwise (· < ·) ∧
      ∀ i, i ∈ missingPositions 0 pdb.txn_available ↔
        i < pdb.txn_available.length ∧ pdb.IsTxAvailable i = false := by
  refine ⟨?_, ?_, missingPositions_pairwise _ 0, ?_⟩
  · intro h
    rw [missingPositions_length] at h
    unfold PartiallyDownloadedBlock.FillBlock
    rw [if_pos h]
  · intro h
    rw [missingPositions_length] at h
    have hle : (pdb.txn_available.filter (fun slot => slot.isNone)).length ≤
        vtx_missing.length := by omega
    refine ⟨{ header := pdb.header, vtx := fillSlots pdb.txn_available vtx_missing },
      ?_, ?_, rfl, fillSlots_length _ _ hle, ?_, ?_⟩
    · unfold PartiallyDownloadedBlock.FillBlock
      rw [if_neg (by simpa using h)]
      simp only
      split_ifs <;> rfl
    · unfold PartiallyDownloadedBlock.FillBlock
      rw [if_neg (by simpa using h)]
      simp only
      split_ifs <;> rfl
    · intro k pos hk
      simpa using (fillSlots_missing pdb.txn_available 0 vtx_missing k pos hle hk).2
    · intro i tx hi
      exact fillSlots_filled pdb.txn_available vtx_missing i tx hle hi
  · intro i
    rw [mem_missingPositions]
    unfold PartiallyDownloadedBlock.IsTxAvailable
    simp only [Nat.zero_le, Nat.sub_zero, true_and]
    constructor
    · intro h
      rw [h]
      refine ⟨?_, rfl⟩
      by_contra hc
      rw [List.get?_eq_none.mpr (by omega)] at h
      exact absurd h (by simp)
    · rintro ⟨h1, h2⟩
      cases hg : pdb.txn_available.get? i with
      | none =>
        rw [List.get?_eq_none] at hg
        omega
      | some slot =>
        cases slot with
        | none => rfl
        | some t => rw [hg] at h2; exact absurd h2 (by simp)

/-! ### The scan of a pool -/

theorem scanOne_miss {Tx : Type} (lookup : Nat → Option Nat) (getShortID : Nat → Nat)
    (st : List (Option Tx) × Nat) (c : Nat × Tx) (h : lookup (getShortID c.1) = none) :
    scanOne lookup getShortID st c = st := by
  unfold scanOne
  rw [h]

theorem scanOne_fill {Tx : Type} (lookup : Nat → Option Nat) (getShortID : Nat → Nat)
    (st : List (Option Tx) × Nat) (c : Nat × Tx) (pos : Nat)
    (h : lookup (getShortID c.1) = some pos) (he : st.1.get? pos = some none) :
    scanOne lookup getShortID st c = (st.1.set pos (some c.2), st.2 + 1) := by
  unfold scanOne
  rw [h]
  simp only [he]

theorem scanOne_skip {Tx : Type} (lookup : Nat → Option Nat) (getShortID : Nat → Nat)
    (st : List (Option Tx) × Nat) (c : Nat × Tx) (pos : Nat)
    (h : lookup (getShortID c.1) = some pos) (he : st.1.get? pos ≠ some none) :
    scanOne lookup getShortID st c = st := by
  unfold scanOne
  rw [h]
  simp only

theorem scanPool_nil {Tx : Type} (lookup : Nat → Option Nat) (getShortID : Nat → Nat)
    (st : List (Option Tx) × Nat) : scanPool lookup getShortID st [] = st := rfl

theorem scanPool_cons {Tx : Type} (lookup : Nat → Option Nat) (getShortID : Nat → Nat)
    (st : List (Option Tx) × Nat) (c : Nat × Tx) (cs : List (Nat × Tx)) :
    scanPool lookup getShortID st (c :: cs) =
      scanPool lookup getShortID (scanOne lookup getShortID st c) cs := rfl

theorem scanPool_append {Tx : Type} (lookup : Nat → Option Nat) (getShortID : Nat → Nat)
    (st : List (Option Tx) × Nat) (cs ds : List (Nat × Tx)) :
    scanPool lookup getShortID st (cs ++ ds) =
      scanPool lookup getShortID (scanPool lookup getShortID st cs) ds := by
  unfold scanPool
  rw [List.foldl_append]

/-- The slots after a scan do not depend on the count the scan started from. -/
theorem scanPool_slots_indep {Tx : Type} (lookup : Nat → Option Nat) (getShortID : Nat → Nat)
    (cs : List (Nat × Tx)) : ∀ (slots : List (Option Tx)) (a b : Nat),
    (scanPool lookup getShortID (slots, a) cs).1 = (scanPool lookup getShortID (slots, b) cs).1 := by
  induction cs with
  | nil => intro _ _ _; rfl
  | cons c cs ih =>
    intro slots a b
    rw [scanPool_cons, scanPool_cons]
    cases hl : lookup (getShortID c.1) with
    | none => rw [scanOne_miss _ _ _ _ hl, scanOne_miss _ _ _ _ hl]; exact ih slots a b
    | some pos =>
      by_cases he : slots.get? pos = some none
      · rw [scanOne_fill _ _ (slots, a) c pos hl he, scanOne_fill _ _ (slots, b) c pos hl he]
        exact ih _ _ _
      · rw [scanOne_skip _ _ (slots, a) c pos hl he, scanOne_skip _ _ (slots, b) c pos hl he]
        exact ih slots a b

/-- A slot that is filled keeps its transaction through a scan. -/
theorem scanPool_get_filled {Tx : Type} (lookup : Nat → Option Nat) (getShortID : Nat → Nat)
    (cs : List (Nat × Tx)) : ∀ (st : List (Option Tx) × Nat) (pos : Nat) (t : Tx),
    st.1.get? pos = some (some t) →
    (scanPool lookup getShortID st cs).1.get? pos = some (some t) := by
  induction cs with
  | nil => intro st pos t h; exact h
  | cons c cs ih =>
    intro st pos t h
    rw [scanPool_cons]
    apply ih
    cases hl : lookup (getShortID c.1) with
    | none => rw [scanOne_miss _ _ _ _ hl]; exact h
    | some p =>
      by_cases he : st.1.get? p = some none
      · rw [scanOne_fill _ _ st c p hl he]
        have hne : p ≠ pos := by
          intro hp; subst hp; rw [he] at h; exact absurd h (by simp)
        simp only [List.get?_eq_getElem?] at h ⊢
        rw [List.getElem?_set_ne hne]
        exact h
      · rw [scanOne_skip _ _ st c p hl he]; exact h

/-- An empty slot holds, after a scan, the transaction of the first candidate whose
short ID is looked up to it, and stays empty when there is none. -/
theorem scanPool_get_empty {Tx : Type} (lookup : Nat → Option Nat) (getShortID : Nat → Nat)
    (cs : List (Nat × Tx)) : ∀ (st : List (Option Tx) × Nat) (pos : Nat),
    st.1.get? pos = some none →
    (scanPool lookup getShortID st cs).1.get? pos =
      some ((cs.find? (fun c => decide (lookup (getShortID c.1) = some pos))).map Prod.snd) := by
  induction cs with
  | nil => intro st pos h; exact h
  | cons c cs ih =>
    intro st pos h
    rw [scanPool_cons]
    cases hl : lookup (getShortID c.1) with
    | none =>
      rw [scanOne_miss _ _ _ _ hl, List.find?_cons_of_neg _ (by simp [hl])]
      exact ih st pos h
    | some p =>
      by_cases hp : p = pos
      · subst hp
        rw [scanOne_fill _ _ st c p hl h, List.find?_cons_of_pos _ (by simp [hl])]
        apply scanPool_get_filled
        have hlt : p < st.1.length := by
          by_contra hc
          rw [List.get?_eq_none.mpr (by omega)] at h
          exact absurd h (by simp)
        simp only [List.get?_eq_getElem?, Option.map_some']
        rw [List.getElem?_set_self hlt]
      · rw [List.find?_cons_of_neg _ (by simp [hl, hp])]
        by_cases he : st.1.get? p = some none
        · rw [scanOne_fill _ _ st c p hl he]
          apply ih
          simp only [List.get?_eq_getElem?] at h ⊢
          rw [List.getElem?_set_ne hp]
          exact h
        · rw [scanOne_skip _ _ st c p hl he]
          exact ih st pos h

theorem emptyCount_set {Tx : Type} (slots : List (Option Tx)) : ∀ (pos : Nat) (t : Tx),
    slots.get? pos = some none →
    emptyCount (slots.set pos (some t)) + 1 = emptyCount slots := by
  induction slots with
  | nil => intro pos t h; simp at h
  | cons x rest ih =>
    intro pos t h
    cases pos with
    | zero =>
      simp only [List.get?_cons_zero, Option.some.injEq] at h
      subst h
      simp [emptyCount]
    | succ j =>
      simp only [List.get?_cons_succ] at h
      have := ih j t h
      unfold emptyCount at this ⊢
      cases x with
      | none => simp only [List.set_cons_succ, List.filter_cons, Option.isNone_none, if_true,
          List.length_cons]; omega
      | some y => simpa [List.set_cons_succ, List.filter_cons] using this

/-- Every candidate counted by a scan fills one empty slot: the count and the number
of empty slots add up to the same before and after. -/
theorem scanPool_count {Tx : Type} (lookup : Nat → Option Nat) (getShortID : Nat → Nat)
    (cs : List (Nat × Tx)) : ∀ (st : List (Option Tx) × Nat),
    (scanPool lookup getShortID st cs).2 + emptyCount (scanPool lookup getShortID st cs).1 =
      st.2 + emptyCount st.1 := by
  induction cs with
  | nil => intro _; rfl
  | cons c cs ih =>
    intro st
    rw [scanPool_cons, ih]
    cases hl : lookup (getShortID c.1) with
    | none => rw [scanOne_miss _ _ _ _ hl]
    | some p =>
      by_cases he : st.1.get? p = some none
      · rw [scanOne_fill _ _ st c p hl he]
        have := emptyCount_set st.1 p c.2 he
        simp only
        omega
      · rw [scanOne_skip _ _ st c p hl he]

/-! ### The lookup from short IDs to positions -/

theorem lookup_mem (pairs : List (Nat × Nat)) (k p : Nat) (h : pairs.lookup k = some p) :
    (k, p) ∈ pairs := by
  induction pairs with
  | nil => simp at h
  | cons x rest ih =>
    obtain ⟨a, b⟩ := x
    rw [List.lookup_cons] at h
    by_cases hk : k = a
    · subst hk
      simp only [beq_self_eq_true, Option.some.injEq] at h
      subst h
      exact List.mem_cons_self _ _
    · have hb : (k == a) = false := by simpa using hk
      rw [hb] at h
      exact List.mem_cons_of_mem _ (ih h)

theorem zip_key_unique (ids : List Nat) : ∀ (free : List Nat) (k1 k2 p : Nat), free.Nodup →
    (k1, p) ∈ ids.zip free → (k2, p) ∈ ids.zip free → k1 = k2 := by
  induction ids with
  | nil => intro free k1 k2 p _ h1 _; simp at h1
  | cons a as ih =>
    intro free k1 k2 p hn h1 h2
    cases free with
    | nil => simp at h1
    | cons f fs =>
      rw [List.zip_cons_cons, List.mem_cons] at h1 h2
      rw [List.nodup_cons] at hn
      rcases h1 with h1 | h1 <;> rcases h2 with h2 | h2
      · simp only [Prod.mk.injEq] at h1 h2
        rw [h1.1, h2.1]
      · simp only [Prod.mk.injEq] at h1
        exact absurd (h1.2 ▸ (List.of_mem_zip h2).2) hn.1
      · simp only [Prod.mk.injEq] at h2
        exact absurd (h2.2 ▸ (List.of_mem_zip h1).2) hn.1
      · exact ih fs k1 k2 p hn.2 h1 h2

theorem missingPositions_nodup {Tx : Type} (slots : List (Option Tx)) (base : Nat) :
    (missingPositions base slots).Nodup :=
  (missingPositions_pairwise slots base).imp (fun h => Nat.ne_of_lt h)

/-- A position the lookup returns is a slot the prefilled transactions left empty. -/
theorem slotLookup_empty {Header Tx : Type} (cmpctblock : CBlockHeaderAndShortTxIDs Header Tx)
    (k pos : Nat) (h : slotLookup cmpctblock k = some pos) :
    (initialSlots cmpctblock).get? pos = some none := by
  have hm := (List.of_mem_zip (lookup_mem _ k pos h)).2
  simpa using ((mem_missingPositions _ 0 pos).mp hm).2

/-- Two short IDs looked up to the same position are the same short ID. -/
theorem slotLookup_key_unique {Header Tx : Type}
    (cmpctblock : CBlockHeaderAndShortTxIDs Header Tx) (k1 k2 pos : Nat)
    (h1 : slotLookup cmpctblock k1 = some pos) (h2 : slotLookup cmpctblock k2 = some pos) :
    k1 = k2 :=
  zip_key_unique _ _ k1 k2 pos (missingPositions_nodup _ 0) (lookup_mem _ k1 pos h1)
    (lookup_mem _ k2 pos h2)

/-- What `InitData` returns for a message that passes the two validations. -/
theorem initData_ok {Header Tx : Type} (col : Collaborators Header Tx)
    (pdb : PartiallyDownloadedBlock Header Tx)
    (cmpctblock : CBlockHeaderAndShortTxIDs Header Tx) (pool : List Tx)
    (extra_txn : List (Nat × Tx)) (hc : cmpctblock.BlockTxCount ≤ 65535)
    (hv : prefilledValid col cmpctblock = true) :
    pdb.InitData col cmpctblock pool extra_txn =
      (ReadStatus.READ_STATUS_OK,
        { txn_available :=
            (scanPool (slotLookup cmpctblock) (cmpctblock.GetShortID col)
              (initialSlots cmpctblock, pdb.mempool_count)
              (poolCandidates col pool ++ extra_txn)).1
          prefilled_count := cmpctblock.prefilledtxn.length
          mempool_count :=
            (scanPool (slotLookup cmpctblock) (cmpctblock.GetShortID col)
              (initialSlots cmpctblock, pdb.mempool_count) (poolCandidates col pool)).2
          extra_count :=
            (scanPool (slotLookup cmpctblock) (cmpctblock.GetShortID col)
              ((scanPool (slotLookup cmpctblock) (cmpctblock.GetShortID col)
                (initialSlots cmpctblock, pdb.mempool_count) (poolCandidates col pool)).1,
                pdb.extra_count) extra_txn).2
          header := cmpctblock.header }) := by
  unfold PartiallyDownloadedBlock.InitData
  rw [if_neg (by omega), if_neg (by simp [hv])]
  simp only [Prod.mk.injEq, true_and]
  congr 1
  rw [scanPool_append]
  exact scanPool_slots_indep _ _ _ _ _ _

/-- C19: when two candidates have the same short ID under the salts of the message and
the first of them is the first candidate scanned with that short ID, `InitData` leaves
the transaction of the first in the slot the short ID stands for; the later hit is on a
slot already filled, where the scan step changes neither the slots nor the count; and
the matches counted in `mempool_count` and `extra_count` are as many as the slots the
two scans filled. The candidates are those of the primary pool followed by those of the
extra pool. -/
theorem initData_first_match_wins {Header Tx : Type} (col : Collaborators Header Tx)
    (pdb : PartiallyDownloadedBlock Header Tx)
    (cmpctblock : CBlockHeaderAndShortTxIDs Header Tx) (pool : List Tx)
    (extra_txn : List (Nat × Tx)) (before between after : List (Nat × Tx))
    (first later : Nat × Tx) (pos : Nat)
    (hc : cmpctblock.BlockTxCount ≤ 65535) (hv : prefilledValid col cmpctblock = true)
    (hsplit : poolCandidates col pool ++ extra_txn =
      before ++ first :: (between ++ later :: after))
    (hsame : cmpctblock.GetShortID col first.1 = cmpctblock.GetShortID col later.1)
    (hhit : slotLookup cmpctblock (cmpctblock.GetShortID col first.1) = some pos)
    (hfirst : ∀ c ∈ before, cmpctblock.GetShortID col c.1 ≠ cmpctblock.GetShortID col first.1) :
    (pdb.InitData col cmpctblock pool extra_txn).1 = ReadStatus.READ_STATUS_OK ∧
      (pdb.InitData col cmpctblock pool extra_txn).2.txn_available.get? pos =
        some (some first.2) ∧
      (∀ st : List (Option Tx) × Nat, st.1.get? pos = some (some first.2) →
        scanOne (slotLookup cmpctblock) (cmpctblock.GetShortID col) st later = st) ∧
      (pdb.InitData col cmpctblock pool extra_txn).2.mempool_count +
          (pdb.InitData col cmpctblock pool extra_txn).2.extra_count +
          emptyCount (pdb.InitData col cmpctblock pool extra_txn).2.txn_available =
        pdb.mempool_count + pdb.extra_count + emptyCount (initialSlots cmpctblock) := by
  rw [initData_ok col pdb cmpctblock pool extra_txn hc hv]
  refine ⟨rfl, ?_, ?_, ?_⟩
  · simp only
    rw [scanPool_get_empty _ _ _ _ pos (slotLookup_empty cmpctblock _ pos hhit), hsplit,
      List.find?_append]
    have hnone : before.find?
        (fun c => decide (slotLookup cmpctblock (cmpctblock.GetShortID col c.1) = some pos)) =
        none := by
      rw [List.find?_eq_none]
      intro c hcm hd
      exact hfirst c hcm (slotLookup_key_unique cmpctblock _ _ pos (of_decide_eq_true hd) hhit)
    rw [hnone, Option.none_or, List.find?_cons_of_pos _ (by simp [hhit])]
    rfl
  · intro st hst
    apply scanOne_skip _ _ st later pos (by rw [← hsame]; exact hhit)
    rw [hst]
    simp
  · simp only
    have h1 := scanPool_count (slotLookup cmpctblock) (cmpctblock.GetShortID col)
      (poolCandidates col pool) (initialSlots cmpctblock, pdb.mempool_count)
    have h2 := scanPool_count (slotLookup cmpctblock) (cmpctblock.GetShortID col) extra_txn
      ((scanPool (slotLookup cmpctblock) (cmpctblock.GetShortID col)
        (initialSlots cmpctblock, pdb.mempool_count) (poolCandidates col pool)).1,
        pdb.extra_count)
    have h3 : (scanPool (slotLookup cmpctblock) (cmpctblock.GetShortID col)
        (initialSlots cmpctblock, pdb.mempool_count)
        (poolCandidates col pool ++ extra_txn)).1 =
        (scanPool (slotLookup cmpctblock) (cmpctblock.GetShortID col)
          ((scanPool (slotLookup cmpctblock) (cmpctblock.GetShortID col)
            (initialSlots cmpctblock, pdb.mempool_count) (poolCandidates col pool)).1,
            pdb.extra_count) extra_txn).1 := by
      rw [scanPool_append]
      exact scanPool_slots_indep _ _ _ _ _ _
    rw [h3]
    simp only at h1 h2
    omega

theorem initData_first_match_wins_witness :
    sampleCompactBlock.BlockTxCount ≤ 65535 ∧
      prefilledValid sampleCollaborators sampleCompactBlock = true ∧
      sampleCompactBlock.GetShortID sampleCollaborators 1 =
        sampleCompactBlock.GetShortID sampleCollaborators (2 ^ 48 + 1) ∧
      slotLookup sampleCompactBlock (sampleCompactBlock.GetShortID sampleCollaborators 1) =
        some 1 ∧
      (sampleFreshState.InitData sampleCollaborators sampleCompactBlock
          [1, 2 ^ 48 + 1] []).2.txn_available.get? 1 = some (some 1) ∧
      (sampleFreshState.InitData sampleCollaborators sampleCompactBlock
          [1, 2 ^ 48 + 1] []).2.mempool_count +
        (sampleFreshState.InitData sampleCollaborators sampleCompactBlock
          [1, 2 ^ 48 + 1] []).2.extra_count +
        emptyCount (sampleFreshState.InitData sampleCollaborators sampleCompactBlock
          [1, 2 ^ 48 + 1] []).2.txn_available =
        sampleFreshState.mempool_count + sampleFreshState.extra_count +
          emptyCount (initialSlots sampleCompactBlock) :=
  ⟨by decide, by rfl, by rfl, by rfl,
    (initData_first_match_wins sampleCollaborators sampleFreshState sampleCompactBlock
      [1, 2 ^ 48 + 1] [] [] [] [] (1, 1) (2 ^ 48 + 1, 2 ^ 48 + 1) 1 (by decide) (by rfl)
      (by rfl) (by rfl) (by rfl) (by simp)).2.1,
    (initData_first_match_wins sampleCollaborators sampleFreshState sampleCompactBlock
      [1, 2 ^ 48 + 1] [] [] [] [] (1, 1) (2 ^ 48 + 1, 2 ^ 48 + 1) 1 (by decide) (by rfl)
      (by rfl) (by rfl) (by rfl) (by simp)).2.2.2⟩

/-- C20: `GetShortID` is a function of the header, the nonce and the transaction hash:
on two messages with the same header and nonce, whose salts are those
`FillShortTxIDSelector` derives from them, it returns the same value for the same hash;
every value it returns is below `2^48`, and `Uint48Formatter::Ser` writes it without
raising the out-of-range failure. -/
theorem getShortID_fits {Header Tx : Type} (env : Serializers Header Tx)
    (col : Collaborators Header Tx) (a b : CBlockHeaderAndShortTxIDs Header Tx)
    (txhash : Nat) (s : Stream)
    (ha : (a.shorttxidk0, a.shorttxidk1) = env.FillShortTxIDSelector a.header a.nonce)
    (hb : (b.shorttxidk0, b.shorttxidk1) = env.FillShortTxIDSelector b.header b.nonce)
    (hh : a.header = b.header) (hn : a.nonce = b.nonce) :
    a.GetShortID col txhash = b.GetShortID col txhash ∧
      a.GetShortID col txhash < 2 ^ 48 ∧
      Uint48Formatter.Ser s (a.GetShortID col txhash : Int) =
        Except.ok (s ++ uint48Bytes (a.GetShortID col txhash)) := by
  have hlt : a.GetShortID col txhash < 2 ^ 48 := by
    unfold CBlockHeaderAndShortTxIDs.GetShortID
    exact Nat.mod_lt _ (by norm_num)
  refine ⟨?_, hlt, uint48_ser_nat s _ hlt⟩
  have hk : (a.shorttxidk0, a.shorttxidk1) = (b.shorttxidk0, b.shorttxidk1) := by
    rw [ha, hb, hh, hn]
  simp only [Prod.mk.injEq] at hk
  unfold CBlockHeaderAndShortTxIDs.GetShortID
  rw [hk.1, hk.2]

theorem getShortID_fits_witness :
    sampleCompactBlock.GetShortID sampleCollaborators (2 ^ 48 + 1) =
        CBlockHeaderAndShortTxIDs.GetShortID sampleCollaborators
          { shorttxidk0 := 9, shorttxidk1 := 7, nonce := 7, shorttxids := [],
            prefilledtxn := [], header := 9 } (2 ^ 48 + 1) ∧
      sampleCompactBlock.GetShortID sampleCollaborators (2 ^ 48 + 1) < 2 ^ 48 ∧
      Uint48Formatter.Ser []
          (sampleCompactBlock.GetShortID sampleCollaborators (2 ^ 48 + 1) : Int) =
        Except.ok ([] ++ uint48Bytes
          (sampleCompactBlock.GetShortID sampleCollaborators (2 ^ 48 + 1))) :=
  getShortID_fits sampleSerializers sampleCollaborators sampleCompactBlock
    { shorttxidk0 := 9, shorttxidk1 := 7, nonce := 7, shorttxids := [],
      prefilledtxn := [], header := 9 } (2 ^ 48 + 1) [] rfl rfl rfl rfl

/-! ### The message built from a block -/

theorem ofBlock_shorttxids {Header Tx : Type} (env : Serializers Header Tx)
    (col : Collaborators Header Tx) (nonce : Nat) (block : CBlock Header Tx)
    (coinbase : Tx) (rest : List Tx) (hvtx : block.vtx = coinbase :: rest) :
    (CBlockHeaderAndShortTxIDs.ofBlock env col nonce block).shorttxids =
      rest.map (fun tx =>
        (CBlockHeaderAndShortTxIDs.ofBlock env col nonce block).GetShortID col (col.TxHash tx)) := by
  unfold CBlockHeaderAndShortTxIDs.ofBlock
  rw [hvtx]
  rfl

theorem ofBlock_prefilledtxn {Header Tx : Type} (env : Serializers Header Tx)
    (col : Collaborators Header Tx) (nonce : Nat) (block : CBlock Header Tx)
    (coinbase : Tx) (rest : List Tx) (hvtx : block.vtx = coinbase :: rest) :
    (CBlockHeaderAndShortTxIDs.ofBlock env col nonce block).prefilledtxn =
      [{ index := 0, tx := coinbase }] := by
  unfold CBlockHeaderAndShortTxIDs.ofBlock
  rw [hvtx]

theorem ofBlock_header {Header Tx : Type} (env : Serializers Header Tx)
    (col : Collaborators Header Tx) (nonce : Nat) (block : CBlock Header Tx) :
    (CBlockHeaderAndShortTxIDs.ofBlock env col nonce block).header = block.header := by
  unfold CBlockHeaderAndShortTxIDs.ofBlock
  cases block.vtx <;> rfl

theorem ofBlock_count {Header Tx : Type} (env : Serializers Header Tx)
    (col : Collaborators Header Tx) (nonce : Nat) (block : CBlock Header Tx)
    (coinbase : Tx) (rest : List Tx) (hvtx : block.vtx = coinbase :: rest) :
    (CBlockHeaderAndShortTxIDs.ofBlock env col nonce block).BlockTxCount = rest.length + 1 := by
  unfold CBlockHeaderAndShortTxIDs.BlockTxCount
  rw [ofBlock_shorttxids env col nonce block coinbase rest hvtx,
    ofBlock_prefilledtxn env col nonce block coinbase rest hvtx]
  simp

theorem ofBlock_initialSlots {Header Tx : Type} (env : Serializers Header Tx)
    (col : Collaborators Header Tx) (nonce : Nat) (block : CBlock Header Tx)
    (coinbase : Tx) (rest : List Tx) (hvtx : block.vtx = coinbase :: rest) :
    initialSlots (CBlockHeaderAndShortTxIDs.ofBlock env col nonce block) =
      some coinbase :: List.replicate rest.length none := by
  unfold initialSlots prefilledPositions
  rw [ofBlock_count env col nonce block coinbase rest hvtx,
    ofBlock_prefilledtxn env col nonce block coinbase rest hvtx]
  simp [accFrom, placePrefilled, List.replicate_succ]

theorem ofBlock_prefilledValid {Header Tx : Type} (env : Serializers Header Tx)
    (col : Collaborators Header Tx) (nonce : Nat) (block : CBlock Header Tx)
    (coinbase : Tx) (rest : List Tx) (hvtx : block.vtx = coinbase :: rest)
    (hwf : col.WellFormed coinbase = true) :
    prefilledValid col (CBlockHeaderAndShortTxIDs.ofBlock env col nonce block) = true := by
  unfold prefilledValid prefilledPositions
  rw [ofBlock_count env col nonce block coinbase rest hvtx,
    ofBlock_prefilledtxn env col nonce block coinbase rest hvtx]
  simp [accFrom, hwf]

/-! ### The lookup of the message built from a block -/

theorem mem_zip_positions {Tx : Type} (f : Tx → Nat) (rest : List Tx) :
    ∀ (base k p : Nat),
    (k, p) ∈ (rest.map f).zip (missingPositions base (List.replicate rest.length (none : Option Tx))) →
    ∃ j r, p = base + j ∧ rest.get? j = some r ∧ k = f r := by
  induction rest with
  | nil => intro base k p h; simp [missingPositions] at h
  | cons a as ih =>
    intro base k p h
    simp only [List.map_cons, List.length_cons, List.replicate_succ, missingPositions,
      List.zip_cons_cons, List.mem_cons, Prod.mk.injEq] at h
    rcases h with ⟨hk, hp⟩ | h
    · exact ⟨0, a, by omega, rfl, hk⟩
    · obtain ⟨j, r, hp, hr, hk⟩ := ih (base + 1) k p h
      exact ⟨j + 1, r, by omega, by simpa using hr, hk⟩

theorem lookup_zip_positions {Tx : Type} (f : Tx → Nat) (rest : List Tx) :
    ∀ (base j : Nat) (r : Tx), (rest.map f).Nodup → rest.get? j = some r →
    ((rest.map f).zip
      (missingPositions base (List.replicate rest.length (none : Option Tx)))).lookup (f r) =
      some (base + j) := by
  induction rest with
  | nil => intro base j r _ h; simp at h
  | cons a as ih =>
    intro base j r hn h
    simp only [List.map_cons, List.length_cons, List.replicate_succ, missingPositions,
      List.zip_cons_cons]
    rw [List.map_cons, List.nodup_cons] at hn
    rw [List.lookup_cons]
    cases j with
    | zero =>
      simp only [List.get?_cons_zero, Option.some.injEq] at h
      subst h
      simp
    | succ i =>
      simp only [List.get?_cons_succ] at h
      have hne : (f r == f a) = false := by
        have hm : f r ∈ as.map f := List.mem_map_of_mem f (List.get?_mem h)
        have : f r ≠ f a := fun e => hn.1 (e ▸ hm)
        simpa using this
      rw [hne]
      simp only
      rw [ih (base + 1) i r hn.2 h]
      congr 1
      omega

theorem slotLookup_of_block {Header Tx : Type} (col : Collaborators Header Tx)
    (cmpctblock : CBlockHeaderAndShortTxIDs Header Tx) (coinbase : Tx) (rest : List Tx)
    (hids : cmpctblock.shorttxids =
      rest.map (fun tx => cmpctblock.GetShortID col (col.TxHash tx)))
    (hslots : initialSlots cmpctblock = some coinbase :: List.replicate rest.length none)
    (hnodup : (rest.map (fun tx => cmpctblock.GetShortID col (col.TxHash tx))).Nodup)
    (j : Nat) (r : Tx) (hr : rest.get? j = some r) :
    slotLookup cmpctblock (cmpctblock.GetShortID col (col.TxHash r)) = some (j + 1) := by
  unfold slotLookup shortIdLookup
  rw [hids, hslots]
  simp only [missingPositions]
  have := lookup_zip_positions (fun tx => cmpctblock.GetShortID col (col.TxHash tx)) rest
    (0 + 1) j r hnodup hr
  rw [this]
  congr 1
  omega

theorem slotLookup_of_block_inv {Header Tx : Type} (col : Collaborators Header Tx)
    (cmpctblock : CBlockHeaderAndShortTxIDs Header Tx) (coinbase : Tx) (rest : List Tx)
    (hids : cmpctblock.shorttxids =
      rest.map (fun tx => cmpctblock.GetShortID col (col.TxHash tx)))
    (hslots : initialSlots cmpctblock = some coinbase :: List.replicate rest.length none)
    (k p : Nat) (h : slotLookup cmpctblock k = some p) :
    ∃ j r, p = j + 1 ∧ rest.get? j = some r ∧ k = cmpctblock.GetShortID col (col.TxHash r) := by
  unfold slotLookup shortIdLookup at h
  rw [hids, hslots] at h
  simp only [missingPositions] at h
  obtain ⟨j, r, hp, hr, hk⟩ := mem_zip_positions
    (fun tx => cmpctblock.GetShortID col (col.TxHash tx)) rest (0 + 1) k p (lookup_mem _ k p h)
  exact ⟨j, r, by omega, hr, hk⟩

theorem scanPool_length {Tx : Type} (lookup : Nat → Option Nat) (getShortID : Nat → Nat)
    (cs : List (Nat × Tx)) : ∀ (st : List (Option Tx) × Nat),
    (scanPool lookup getShortID st cs).1.length = st.1.length := by
  induction cs with
  | nil => intro _; rfl
  | cons c cs ih =>
    intro st
    rw [scanPool_cons, ih]
    cases hl : lookup (getShortID c.1) with
    | none => rw [scanOne_miss _ _ _ _ hl]
    | some p =>
      by_cases he : st.1.get? p = some none
      · rw [scanOne_fill _ _ st c p hl he]; simp
      · rw [scanOne_skip _ _ st c p hl he]

/-- The slot of a block transaction that a candidate carries under its short ID holds
that transaction after the scan, when no candidate collides with a block transaction. -/
theorem scan_slot_present {Header Tx : Type} (col : Collaborators Header Tx)
    (cmpctblock : CBlockHeaderAndShortTxIDs Header Tx) (coinbase : Tx) (rest : List Tx)
    (hids : cmpctblock.shorttxids =
      rest.map (fun tx => cmpctblock.GetShortID col (col.TxHash tx)))
    (hslots : initialSlots cmpctblock = some coinbase :: List.replicate rest.length none)
    (hnodup : (rest.map (fun tx => cmpctblock.GetShortID col (col.TxHash tx))).Nodup)
    (cands others : List (Nat × Tx)) (count : Nat)
    (hcoll : ∀ c ∈ cands, ∀ r ∈ rest,
      cmpctblock.GetShortID col c.1 = cmpctblock.GetShortID col (col.TxHash r) → c.2 = r)
    (j : Nat) (r : Tx) (hr : rest.get? j = some r)
    (hin : ∃ c ∈ cands, cmpctblock.GetShortID col c.1 = cmpctblock.GetShortID col (col.TxHash r)) :
    (scanPool (slotLookup cmpctblock) (cmpctblock.GetShortID col)
      (initialSlots cmpctblock, count) (cands ++ others)).1.get? (j + 1) = some (some r) := by
  have hlook := slotLookup_of_block col cmpctblock coinbase rest hids hslots hnodup j r hr
  rw [scanPool_get_empty _ _ _ _ (j + 1) (slotLookup_empty cmpctblock _ (j + 1) hlook),
    List.find?_append]
  cases hf : cands.find?
      (fun c => decide (slotLookup cmpctblock (cmpctblock.GetShortID col c.1) = some (j + 1))) with
  | none =>
    rw [List.find?_eq_none] at hf
    obtain ⟨c, hc, hsid⟩ := hin
    exact absurd (by rw [hsid]; simpa using hlook) (hf c hc)
  | some c =>
    have hmem := List.mem_of_find?_eq_some hf
    have hmatch : slotLookup cmpctblock (cmpctblock.GetShortID col c.1) = some (j + 1) := by
      have := List.find?_some hf
      simpa using this
    have hsid := slotLookup_key_unique cmpctblock _ _ (j + 1) hmatch hlook
    have hc2 := hcoll c hmem r (List.get?_mem hr) hsid
    simp [hc2]

/-- The slot of a block transaction that no candidate carries stays empty through the
scan, when no candidate collides with a block transaction. -/
theorem scan_slot_absent {Header Tx : Type} (col : Collaborators Header Tx)
    (cmpctblock : CBlockHeaderAndShortTxIDs Header Tx) (coinbase : Tx) (rest : List Tx)
    (hids : cmpctblock.shorttxids =
      rest.map (fun tx => cmpctblock.GetShortID col (col.TxHash tx)))
    (hslots : initialSlots cmpctblock = some coinbase :: List.replicate rest.length none)
    (cands : List (Nat × Tx)) (count : Nat)
    (hcoll : ∀ c ∈ cands, ∀ r ∈ rest,
      cmpctblock.GetShortID col c.1 = cmpctblock.GetShortID col (col.TxHash r) → c.2 = r)
    (j : Nat) (r : Tx) (hr : rest.get? j = some r) (hout : ∀ c ∈ cands, c.2 ≠ r) :
    (scanPool (slotLookup cmpctblock) (cmpctblock.GetShortID col)
      (initialSlots cmpctblock, count) cands).1.get? (j + 1) = some none := by
  have hempty : (initialSlots cmpctblock).get? (j + 1) = some none := by
    rw [hslots]
    have hj : j < rest.length := by
      by_contra hc
      rw [List.get?_eq_none.mpr (by omega)] at hr
      exact absurd hr (by simp)
    simp [List.getElem?_replicate, hj]
  rw [scanPool_get_empty _ _ _ _ (j + 1) hempty]
  have hf : cands.find?
      (fun c => decide (slotLookup cmpctblock (cmpctblock.GetShortID col c.1) = some (j + 1))) =
      none := by
    rw [List.find?_eq_none]
    intro c hc hd
    obtain ⟨j', r', hp, hr', hk⟩ := slotLookup_of_block_inv col cmpctblock coinbase rest hids
      hslots _ _ (of_decide_eq_true hd)
    have hjj : j' = j := by omega
    subst hjj
    rw [hr] at hr'
    have hrr : r = r' := Option.some.inj hr'
    subst hrr
    exact hout c hc (hcoll c hc r (List.get?_mem hr) hk)
  rw [hf]
  rfl

/-! ### Slots that are all filled -/

theorem filter_isNone_map_some {Tx : Type} (l : List Tx) :
    (l.map some).filter (fun slot => slot.isNone) = [] := by
  induction l with
  | nil => rfl
  | cons a as ih => simp [ih]

theorem fillSlots_map_some {Tx : Type} (l : List Tx) (supplied : List Tx) :
    fillSlots (l.map some) supplied = l := by
  induction l with
  | nil => rfl
  | cons a as ih => simp [fillSlots, ih]

theorem missingPositions_map_some {Tx : Type} (l : List Tx) : ∀ (base : Nat),
    missingPositions base (l.map some) = [] := by
  induction l with
  | nil => intro _; rfl
  | cons a as ih => intro base; simp [missingPositions, ih]

/-- The slots after `InitData` on the message built from a block whose transactions
other than the coinbase are all in the primary pool, without collision. -/
theorem initData_slots_full {Header Tx : Type} (col : Collaborators Header Tx)
    (cmpctblock : CBlockHeaderAndShortTxIDs Header Tx) (coinbase : Tx) (rest : List Tx)
    (pool : List Tx) (extra_txn : List (Nat × Tx)) (count : Nat)
    (hids : cmpctblock.shorttxids =
      rest.map (fun tx => cmpctblock.GetShortID col (col.TxHash tx)))
    (hslots : initialSlots cmpctblock = some coinbase :: List.replicate rest.length none)
    (hpool : ∀ r ∈ rest, r ∈ pool)
    (hnodup : (rest.map (fun tx => cmpctblock.GetShortID col (col.TxHash tx))).Nodup)
    (hcoll : ∀ t ∈ pool, ∀ r ∈ rest,
      cmpctblock.GetShortID col (col.TxHash t) = cmpctblock.GetShortID col (col.TxHash r) →
      t = r) :
    (scanPool (slotLookup cmpctblock) (cmpctblock.GetShortID col)
      (initialSlots cmpctblock, count) (poolCandidates col pool ++ extra_txn)).1 =
      (coinbase :: rest).map some := by
  have hcoll' : ∀ c ∈ poolCandidates col pool, ∀ r ∈ rest,
      cmpctblock.GetShortID col c.1 = cmpctblock.GetShortID col (col.TxHash r) → c.2 = r := by
    intro c hc r hr hsid
    unfold poolCandidates at hc
    obtain ⟨t, ht, rfl⟩ := List.mem_map.mp hc
    exact hcoll t ht r hr hsid
  apply List.ext_get?
  intro i
  cases i with
  | zero =>
    rw [scanPool_get_filled _ _ _ _ 0 coinbase (by rw [hslots]; rfl)]
    rfl
  | succ j =>
    cases hr : rest.get? j with
    | none =>
      have hj : rest.length ≤ j := List.get?_eq_none.mp hr
      rw [List.get?_eq_none.mpr (by rw [scanPool_length, hslots]; simp; omega),
        List.get?_eq_none.mpr (by simp; omega)]
    | some r =>
      rw [scan_slot_present col cmpctblock coinbase rest hids hslots hnodup
        (poolCandidates col pool) extra_txn count hcoll' j r hr
        ⟨(col.TxHash r, r), List.mem_map.mpr ⟨r, hpool r (List.get?_mem hr), rfl⟩, rfl⟩]
      rw [List.map_cons, List.get?_cons_succ, List.get?_eq_getElem?, List.getElem?_map,
        ← List.get?_eq_getElem?, hr]
      rfl

/-- The code at C17's input: in the sample block the transactions 1 and `2^48 + 1` have
the same short ID; with the coinbase prefilled and both of them in the primary pool,
`InitData` returns `READ_STATUS_OK` but leaves index 2 unavailable, and `FillBlock` with
an empty list returns `READ_STATUS_INVALID`. -/
theorem full_reconstruction_collision :
    sampleCollidingBlock.vtx = [100, 1, 2 ^ 48 + 1] ∧
      (CBlockHeaderAndShortTxIDs.ofBlock sampleSerializers sampleCollaborators 7
        sampleCollidingBlock).prefilledtxn.map (fun p => (p.index, p.tx)) = [(0, 100)] ∧
      (∀ r ∈ sampleCollidingBlock.vtx.tail, r ∈ [1, 2 ^ 48 + 1]) ∧
      (CBlockHeaderAndShortTxIDs.ofBlock sampleSerializers sampleCollaborators 7
        sampleCollidingBlock).shorttxids = [17, 17] ∧
      (sampleFreshState.InitData sampleCollaborators
        (CBlockHeaderAndShortTxIDs.ofBlock sampleSerializers sampleCollaborators 7
          sampleCollidingBlock) [1, 2 ^ 48 + 1] []).1 = ReadStatus.READ_STATUS_OK ∧
      (sampleFreshState.InitData sampleCollaborators
        (CBlockHeaderAndShortTxIDs.ofBlock sampleSerializers sampleCollaborators 7
          sampleCollidingBlock) [1, 2 ^ 48 + 1] []).2.IsTxAvailable 2 = false ∧
      (sampleFreshState.InitData sampleCollaborators
        (CBlockHeaderAndShortTxIDs.ofBlock sampleSerializers sampleCollaborators 7
          sampleCollidingBlock) [1, 2 ^ 48 + 1] []).2.FillBlock sampleCollaborators [] =
        (ReadStatus.READ_STATUS_INVALID, none) :=
  ⟨rfl, rfl, by decide, rfl, rfl, rfl, rfl⟩

/-- C17 (amended): for every block of at most 65535 transactions whose coinbase is
well-formed and prefilled and whose other transactions are all in the primary pool,
when no two transactions of the block have the same short ID, no pool transaction has
the short ID of a different block transaction, and the block passes `CheckBlock`:
`InitData` on the compact block built from it returns `READ_STATUS_OK` with every
index available, and `FillBlock` with an empty list returns `READ_STATUS_OK` and the
original block. -/
theorem full_reconstruction {Header Tx : Type} (env : Serializers Header Tx)
    (col : Collaborators Header Tx) (pdb : PartiallyDownloadedBlock Header Tx) (nonce : Nat)
    (block : CBlock Header Tx) (coinbase : Tx) (rest : List Tx) (pool : List Tx)
    (extra_txn : List (Nat × Tx))
    (hvtx : block.vtx = coinbase :: rest) (hlen : block.vtx.length ≤ 65535)
    (hwf : col.WellFormed coinbase = true) (hpool : ∀ r ∈ rest, r ∈ pool)
    (hnodup : (rest.map (fun tx =>
      (CBlockHeaderAndShortTxIDs.ofBlock env col nonce block).GetShortID col
        (col.TxHash tx))).Nodup)
    (hcoll : ∀ t ∈ pool, ∀ r ∈ rest,
      (CBlockHeaderAndShortTxIDs.ofBlock env col nonce block).GetShortID col (col.TxHash t) =
        (CBlockHeaderAndShortTxIDs.ofBlock env col nonce block).GetShortID col (col.TxHash r) →
      t = r)
    (hcheck : col.CheckBlock block = true) :
    (pdb.InitData col (CBlockHeaderAndShortTxIDs.ofBlock env col nonce block) pool
        extra_txn).1 = ReadStatus.READ_STATUS_OK ∧
      (∀ i, i < block.vtx.length →
        (pdb.InitData col (CBlockHeaderAndShortTxIDs.ofBlock env col nonce block) pool
          extra_txn).2.IsTxAvailable i = true) ∧
      (pdb.InitData col (CBlockHeaderAndShortTxIDs.ofBlock env col nonce block) pool
          extra_txn).2.FillBlock col [] = (ReadStatus.READ_STATUS_OK, some block) := by
  have hc : (CBlockHeaderAndShortTxIDs.ofBlock env col nonce block).BlockTxCount ≤ 65535 := by
    rw [ofBlock_count env col nonce block coinbase rest hvtx]
    rw [hvtx] at hlen
    simpa using hlen
  rw [initData_ok col pdb _ pool extra_txn hc
    (ofBlock_prefilledValid env col nonce block coinbase rest hvtx hwf),
    initData_slots_full col _ coinbase rest pool extra_txn pdb.mempool_count
      (ofBlock_shorttxids env col nonce block coinbase rest hvtx)
      (ofBlock_initialSlots env col nonce block coinbase rest hvtx) hpool hnodup hcoll,
    ← hvtx]
  refine ⟨rfl, ?_, ?_⟩
  · intro i hi
    unfold PartiallyDownloadedBlock.IsTxAvailable
    simp only [List.get?_eq_getElem?, List.getElem?_map]
    rw [List.getElem?_eq_getElem hi]
    rfl
  · unfold PartiallyDownloadedBlock.FillBlock
    simp only [filter_isNone_map_some, fillSlots_map_some, List.length_nil, ne_eq,
      not_true_eq_false, if_false, ofBlock_header]
    have hb : ({ header := block.header, vtx := block.vtx } : CBlock Header Tx) = block := by
      cases block; rfl
    rw [hb, hcheck]
    rfl

theorem full_reconstruction_witness :
    sampleSevenBlock.vtx = 100 :: [1, 2, 3, 4, 5, 6] ∧
      (sampleFreshState.InitData sampleCollaborators
        (CBlockHeaderAndShortTxIDs.ofBlock sampleSerializers sampleCollaborators 7
          sampleSevenBlock) [6, 5, 4, 3, 2, 1] []).1 = ReadStatus.READ_STATUS_OK ∧
      (∀ i, i < sampleSevenBlock.vtx.length →
        (sampleFreshState.InitData sampleCollaborators
          (CBlockHeaderAndShortTxIDs.ofBlock sampleSerializers sampleCollaborators 7
            sampleSevenBlock) [6, 5, 4, 3, 2, 1] []).2.IsTxAvailable i = true) ∧
      (sampleFreshState.InitData sampleCollaborators
        (CBlockHeaderAndShortTxIDs.ofBlock sampleSerializers sampleCollaborators 7
          sampleSevenBlock) [6, 5, 4, 3, 2, 1] []).2.FillBlock sampleCollaborators [] =
        (ReadStatus.READ_STATUS_OK, some sampleSevenBlock) :=
  ⟨rfl, full_reconstruction sampleSerializers sampleCollaborators sampleFreshState 7
    sampleSevenBlock 100 [1, 2, 3, 4, 5, 6] [6, 5, 4, 3, 2, 1] [] rfl (by decide) rfl
    (by decide) (by decide) (by decide) rfl⟩

/-! ### Two transactions missing -/

/-- The slots after the scan when the block transactions at positions 2 and 5 are
carried by no candidate and all others after the coinbase are, without collision. -/
theorem scan_slots_two_missing {Header Tx : Type} (col : Collaborators Header Tx)
    (cmpctblock : CBlockHeaderAndShortTxIDs Header Tx) (t0 t1 t2 t3 t4 t5 : Tx)
    (tail : List Tx) (cands : List (Nat × Tx)) (count : Nat)
    (hids : cmpctblock.shorttxids =
      (t1 :: t2 :: t3 :: t4 :: t5 :: tail).map
        (fun tx => cmpctblock.GetShortID col (col.TxHash tx)))
    (hslots : initialSlots cmpctblock =
      some t0 :: List.replicate (t1 :: t2 :: t3 :: t4 :: t5 :: tail).length none)
    (hnodup : ((t1 :: t2 :: t3 :: t4 :: t5 :: tail).map
      (fun tx => cmpctblock.GetShortID col (col.TxHash tx))).Nodup)
    (hcoll : ∀ c ∈ cands, ∀ r ∈ t1 :: t2 :: t3 :: t4 :: t5 :: tail,
      cmpctblock.GetShortID col c.1 = cmpctblock.GetShortID col (col.TxHash r) → c.2 = r)
    (hpresent : ∀ r ∈ t1 :: t3 :: t4 :: tail, ∃ c ∈ cands,
      cmpctblock.GetShortID col c.1 = cmpctblock.GetShortID col (col.TxHash r))
    (hout2 : ∀ c ∈ cands, c.2 ≠ t2) (hout5 : ∀ c ∈ cands, c.2 ≠ t5) :
    (scanPool (slotLookup cmpctblock) (cmpctblock.GetShortID col)
      (initialSlots cmpctblock, count) cands).1 =
      some t0 :: some t1 :: none :: some t3 :: some t4 :: none :: tail.map some := by
  have present : ∀ (j : Nat) (r : Tx),
      (t1 :: t2 :: t3 :: t4 :: t5 :: tail).get? j = some r → r ∈ t1 :: t3 :: t4 :: tail →
      (scanPool (slotLookup cmpctblock) (cmpctblock.GetShortID col)
        (initialSlots cmpctblock, count) cands).1.get? (j + 1) = some (some r) := by
    intro j r hr hm
    have := scan_slot_present col cmpctblock t0 _ hids hslots hnodup cands [] count hcoll j r hr
      (hpresent r hm)
    rwa [List.append_nil] at this
  have absent : ∀ (j : Nat) (r : Tx),
      (t1 :: t2 :: t3 :: t4 :: t5 :: tail).get? j = some r → (∀ c ∈ cands, c.2 ≠ r) →
      (scanPool (slotLookup cmpctblock) (cmpctblock.GetShortID col)
        (initialSlots cmpctblock, count) cands).1.get? (j + 1) = some none :=
    fun j r hr ho =>
      scan_slot_absent col cmpctblock t0 _ hids hslots cands count hcoll j r hr ho
  apply List.ext_get?
  intro i
  match i with
  | 0 =>
    rw [scanPool_get_filled _ _ _ _ 0 t0 (by rw [hslots]; rfl)]
    rfl
  | 1 => rw [present 0 t1 rfl (by simp)]; rfl
  | 2 => rw [absent 1 t2 rfl hout2]; rfl
  | 3 => rw [present 2 t3 rfl (by simp)]; rfl
  | 4 => rw [present 3 t4 rfl (by simp)]; rfl
  | 5 => rw [absent 4 t5 rfl hout5]; rfl
  | k + 6 =>
    cases hr : tail.get? k with
    | none =>
      have hk : tail.length ≤ k := List.get?_eq_none.mp hr
      rw [List.get?_eq_none.mpr (by rw [scanPool_length, hslots]; simp; omega),
        List.get?_eq_none.mpr (by simp; omega)]
    | some r =>
      rw [present (k + 5) r hr (by
        have := List.get?_mem hr
        simp [this])]
      simp only [List.get?_cons_succ]
      rw [List.get?_eq_getElem?, List.getElem?_map, ← List.get?_eq_getElem?, hr]
      rfl

/-- The code at C18's input: in the sample block of seven transactions the ones at
positions 2 and 5 are in neither pool and all others are in the primary pool, which
also holds the transaction `2^48 + 2`, of the same short ID as the transaction 2 at
position 2. `InitData` fills slot 2 with it, so index 2 is available, and `FillBlock`
supplied with the transactions of positions 2 and 5 returns `READ_STATUS_INVALID`. -/
theorem partial_reconstruction_collision :
    sampleSevenBlock.vtx = [100, 1, 2, 3, 4, 5, 6] ∧
      (CBlockHeaderAndShortTxIDs.ofBlock sampleSerializers sampleCollaborators 7
        sampleSevenBlock).prefilledtxn.map (fun p => (p.index, p.tx)) = [(0, 100)] ∧
      (∀ r ∈ [1, 3, 4, 6], r ∈ [1, 3, 4, 6, 2 ^ 48 + 2]) ∧
      2 ∉ [1, 3, 4, 6, 2 ^ 48 + 2] ∧ 5 ∉ [1, 3, 4, 6, 2 ^ 48 + 2] ∧
      (CBlockHeaderAndShortTxIDs.ofBlock sampleSerializers sampleCollaborators 7
          sampleSevenBlock).GetShortID sampleCollaborators (2 ^ 48 + 2) =
        (CBlockHeaderAndShortTxIDs.ofBlock sampleSerializers sampleCollaborators 7
          sampleSevenBlock).GetShortID sampleCollaborators 2 ∧
      (sampleFreshState.InitData sampleCollaborators
        (CBlockHeaderAndShortTxIDs.ofBlock sampleSerializers sampleCollaborators 7
          sampleSevenBlock) [1, 3, 4, 6, 2 ^ 48 + 2] []).1 = ReadStatus.READ_STATUS_OK ∧
      (sampleFreshState.InitData sampleCollaborators
        (CBlockHeaderAndShortTxIDs.ofBlock sampleSerializers sampleCollaborators 7
          sampleSevenBlock) [1, 3, 4, 6, 2 ^ 48 + 2] []).2.IsTxAvailable 2 = true ∧
      (sampleFreshState.InitData sampleCollaborators
        (CBlockHeaderAndShortTxIDs.ofBlock sampleSerializers sampleCollaborators 7
          sampleSevenBlock) [1, 3, 4, 6, 2 ^ 48 + 2] []).2.FillBlock sampleCollaborators
          [2, 5] = (ReadStatus.READ_STATUS_INVALID, none) :=
  ⟨rfl, rfl, by decide, by decide, by decide, rfl, rfl, rfl, rfl⟩

/-- C18 (amended): for a block of at most 65535 transactions with a well-formed coinbase,
whose transactions at positions 2 and 5 are in neither pool while every other
transaction after the coinbase is in the primary pool or, under its hash, in the extra
pool, when no two transactions of the block have the same short ID, no candidate has
the short ID of a different block transaction, and the block passes `CheckBlock`: after
`InitData` on the compact block built from it `IsTxAvailable(i)` is false exactly for
`i` in `{2, 5}`, the missing positions are `[2, 5]`, and `FillBlock` supplied with the
transactions of positions 2 and 5 in that order returns `READ_STATUS_OK` and the
original block. -/
theorem partial_reconstruction {Header Tx : Type} (env : Serializers Header Tx)
    (col : Collaborators Header Tx) (pdb : PartiallyDownloadedBlock Header Tx) (nonce : Nat)
    (block : CBlock Header Tx) (t0 t1 t2 t3 t4 t5 : Tx) (tail : List Tx) (pool : List Tx)
    (extra_txn : List (Nat × Tx))
    (hvtx : block.vtx = t0 :: t1 :: t2 :: t3 :: t4 :: t5 :: tail)
    (hlen : block.vtx.length ≤ 65535) (hwf : col.WellFormed t0 = true)
    (hpresent : ∀ r ∈ t1 :: t3 :: t4 :: tail, r ∈ pool ∨ (col.TxHash r, r) ∈ extra_txn)
    (habsent2 : ∀ c ∈ poolCandidates col pool ++ extra_txn, c.2 ≠ t2)
    (habsent5 : ∀ c ∈ poolCandidates col pool ++ extra_txn, c.2 ≠ t5)
    (hnodup : ((t1 :: t2 :: t3 :: t4 :: t5 :: tail).map (fun tx =>
      (CBlockHeaderAndShortTxIDs.ofBlock env col nonce block).GetShortID col
        (col.TxHash tx))).Nodup)
    (hcoll : ∀ c ∈ poolCandidates col pool ++ extra_txn,
      ∀ r ∈ t1 :: t2 :: t3 :: t4 :: t5 :: tail,
      (CBlockHeaderAndShortTxIDs.ofBlock env col nonce block).GetShortID col c.1 =
        (CBlockHeaderAndShortTxIDs.ofBlock env col nonce block).GetShortID col (col.TxHash r) →
      c.2 = r)
    (hcheck : col.CheckBlock block = true) :
    (pdb.InitData col (CBlockHeaderAndShortTxIDs.ofBlock env col nonce block) pool
        extra_txn).1 = ReadStatus.READ_STATUS_OK ∧
      (∀ i, i < block.vtx.length →
        ((pdb.InitData col (CBlockHeaderAndShortTxIDs.ofBlock env col nonce block) pool
          extra_txn).2.IsTxAvailable i = false ↔ i = 2 ∨ i = 5)) ∧
      missingPositions 0
        (pdb.InitData col (CBlockHeaderAndShortTxIDs.ofBlock env col nonce block) pool
          extra_txn).2.txn_available = [2, 5] ∧
      (pdb.InitData col (CBlockHeaderAndShortTxIDs.ofBlock env col nonce block) pool
          extra_txn).2.FillBlock col [t2, t5] = (ReadStatus.READ_STATUS_OK, some block) := by
  have hc : (CBlockHeaderAndShortTxIDs.ofBlock env col nonce block).BlockTxCount ≤ 65535 := by
    rw [ofBlock_count env col nonce block t0 _ hvtx]
    rw [hvtx] at hlen
    simpa using hlen
  have hin : ∀ r ∈ t1 :: t3 :: t4 :: tail, ∃ c ∈ poolCandidates col pool ++ extra_txn,
      (CBlockHeaderAndShortTxIDs.ofBlock env col nonce block).GetShortID col c.1 =
        (CBlockHeaderAndShortTxIDs.ofBlock env col nonce block).GetShortID col
          (col.TxHash r) := by
    intro r hr
    rcases hpresent r hr with h | h
    · exact ⟨(col.TxHash r, r),
        List.mem_append_left _ (List.mem_map.mpr ⟨r, h, rfl⟩), rfl⟩
    · exact ⟨(col.TxHash r, r), List.mem_append_right _ h, rfl⟩
  rw [initData_ok col pdb _ pool extra_txn hc
    (ofBlock_prefilledValid env col nonce block t0 _ hvtx hwf),
    scan_slots_two_missing col _ t0 t1 t2 t3 t4 t5 tail _ pdb.mempool_count
      (ofBlock_shorttxids env col nonce block t0 _ hvtx)
      (ofBlock_initialSlots env col nonce block t0 _ hvtx) hnodup hcoll hin habsent2 habsent5]
  refine ⟨rfl, ?_, ?_, ?_⟩
  · intro i hi
    rw [hvtx] at hi
    unfold PartiallyDownloadedBlock.IsTxAvailable
    match i with
    | 0 => simp
    | 1 => simp
    | 2 => simp
    | 3 => simp
    | 4 => simp
    | 5 => simp
    | k + 6 =>
      have hk : k < tail.length := by simpa using hi
      simp only [List.get?_cons_succ]
      rw [List.get?_eq_getElem?, List.getElem?_map, List.getElem?_eq_getElem hk]
      simp
  · simp [missingPositions, missingPositions_map_some]
  · unfold PartiallyDownloadedBlock.FillBlock
    simp only [List.filter_cons, Option.isNone_some, Option.isNone_none, filter_isNone_map_some,
      fillSlots, fillSlots_map_some, List.length_cons, List.length_nil, ne_eq,
      not_true_eq_false, if_false, if_true, Bool.false_eq_true, ofBlock_header]
    have hb : (CBlock.mk block.header (t0 :: t1 :: t2 :: t3 :: t4 :: t5 :: tail)) = block := by
      rw [← hvtx]
    rw [hb, hcheck]
    rfl

theorem partial_reconstruction_witness :
    sampleSevenBlock.vtx = 100 :: 1 :: 2 :: 3 :: 4 :: 5 :: [6] ∧
      (∀ c ∈ poolCandidates sampleCollaborators [6, 4, 3] ++ [(1, 1)], c.2 ≠ 2) ∧
      (∀ c ∈ poolCandidates sampleCollaborators [6, 4, 3] ++ [(1, 1)], c.2 ≠ 5) ∧
      (sampleFreshState.InitData sampleCollaborators
        (CBlockHeaderAndShortTxIDs.ofBlock sampleSerializers sampleCollaborators 7
          sampleSevenBlock) [6, 4, 3] [(1, 1)]).1 = ReadStatus.READ_STATUS_OK ∧
      missingPositions 0
        (sampleFreshState.InitData sampleCollaborators
          (CBlockHeaderAndShortTxIDs.ofBlock sampleSerializers sampleCollaborators 7
            sampleSevenBlock) [6, 4, 3] [(1, 1)]).2.txn_available = [2, 5] ∧
      (sampleFreshState.InitData sampleCollaborators
        (CBlockHeaderAndShortTxIDs.ofBlock sampleSerializers sampleCollaborators 7
          sampleSevenBlock) [6, 4, 3] [(1, 1)]).2.FillBlock sampleCollaborators [2, 5] =
        (ReadStatus.READ_STATUS_OK, some sampleSevenBlock) :=
  ⟨rfl, by decide, by decide,
    (partial_reconstruction sampleSerializers sampleCollaborators sampleFreshState 7
      sampleSevenBlock 100 1 2 3 4 5 [6] [6, 4, 3] [(1, 1)] rfl (by decide) rfl
      (by decide) (by decide) (by decide) (by decide) (by decide) rfl).1,
    (partial_reconstruction sampleSerializers sampleCollaborators sampleFreshState 7
      sampleSevenBlock 100 1 2 3 4 5 [6] [6, 4, 3] [(1, 1)] rfl (by decide) rfl
      (by decide) (by decide) (by decide) (by decide) (by decide) rfl).2.2.1,
    (partial_reconstruction sampleSerializers sampleCollaborators sampleFreshState 7
      sampleSevenBlock 100 1 2 3 4 5 [6] [6, 4, 3] [(1, 1)] rfl (by decide) rfl
      (by decide) (by decide) (by decide) (by decide) (by decide) rfl).2.2.2⟩

/-! ## Further claims on the differential codec -/

/-- The state an encoder is left in by a call that returned: minus the value, minus one. -/
theorem call_encode_state (t t1 : DifferenceTransform) (o v : Nat) (hv : v < 65536)
    (hcall : t.call false v = Except.ok (o, t1)) : t1 = { m_shift := -(v : Int) - 1 } := by
  have e2 : wrapInt32 (-(v : Int)) = -(v : Int) := wrapInt32_of_range _ (by omega) (by omega)
  have e3 : wrapInt32 (-(v : Int) - 1) = -(v : Int) - 1 :=
    wrapInt32_of_range _ (by omega) (by omega)
  unfold DifferenceTransform.call at hcall
  simp only [Bool.false_eq_true, if_false] at hcall
  by_cases hc : wrapInt32 (t.m_shift + (v : Int)) < 0 ∨
      wrapInt32 (t.m_shift + (v : Int)) > 0xffff
  · rw [if_pos hc] at hcall
    exact absurd hcall (by simp)
  · rw [if_neg hc] at hcall
    simp only [Except.ok.injEq, Prod.mk.injEq] at hcall
    rw [← hcall.2, e2, e3]

/-- The first call on a fresh encoder returns its argument. -/
theorem call_encode_fresh (w : Nat) (hw : w < 65536) :
    DifferenceTransform.call false {} w = Except.ok (w, { m_shift := -(w : Int) - 1 }) := by
  rw [fresh_eq_encode_state, call_encode_step (-1) w (by omega) (by omega) hw,
    if_neg (by omega)]
  have : ((w : Int) - -1 - 1).toNat = w := by omega
  rw [this]

theorem gap_ne_self (v w : Nat) (h : v < w) : w ≠ w - v - 1 := by omega

theorem run_cons (U : Bool) (t : DifferenceTransform) (v : Nat) (vs : List Nat) :
    DifferenceTransform.run U t (v :: vs) =
      match t.call U v with
      | Except.error e => Except.error e
      | Except.ok (o, t') =>
        match DifferenceTransform.run U t' vs with
        | Except.error e => Except.error e
        | Except.ok (os, t'') => Except.ok (o :: os, t'') := rfl

theorem call_encode_gt (v w : Nat) (hv : v < 65536) (hw : w < 65536) (h : v < w) :
    DifferenceTransform.call false { m_shift := -(v : Int) - 1 } w =
      Except.ok (w - v - 1, { m_shift := -(w : Int) - 1 }) := by
  have hstep := call_encode_step (v : Int) w (by omega) (by omega) hw
  rw [hstep, if_neg (by omega)]
  have : ((w : Int) - (v : Int) - 1).toNat = w - v - 1 := by omega
  rw [this]

theorem call_encode_le (v w : Nat) (hv : v < 65536) (hw : w < 65536) (h : w ≤ v) :
    DifferenceTransform.call false { m_shift := -(v : Int) - 1 } w =
      Except.error ERR_DIFFERENTIAL_OVERFLOW := by
  have hstep := call_encode_step (v : Int) w (by omega) (by omega) hw
  rw [hstep, if_pos (by omega)]

theorem call_encode_ne_fresh (v w : Nat) (hv : v < 65536) (hw : w < 65536) :
    DifferenceTransform.call false { m_shift := -(v : Int) - 1 } w ≠
      DifferenceTransform.call false {} w := by
  rw [call_encode_fresh w hw]
  by_cases h : v < w
  · rw [call_encode_gt v w hv hw h]
    intro he
    have h1 : w - v - 1 = w := congrArg Prod.fst (Except.ok.inj he)
    exact gap_ne_self v w h h1.symm
  · rw [call_encode_le v w hv hw (Nat.le_of_not_lt h)]
    intro he
    cases he

theorem run_head (U : Bool) (t t1 t2 : DifferenceTransform) (v o : Nat) (vs outs : List Nat)
    (hcall : t.call U v = Except.ok (o, t1))
    (hrun : DifferenceTransform.run U t (v :: vs) = Except.ok (outs, t2)) :
    outs.head? = some o := by
  rw [run_cons, hcall] at hrun
  dsimp only at hrun
  cases hr : DifferenceTransform.run U t1 vs with
  | error e =>
    rw [hr] at hrun
    cases hrun
  | ok r =>
    obtain ⟨os, t3⟩ := r
    rw [hr] at hrun
    have h1 : o :: os = outs := congrArg Prod.fst (Except.ok.inj hrun)
    rw [← h1]
    rfl

theorem encode_run_state (indexes gaps : List Nat) (h : encode indexes = Except.ok gaps) :
    ∃ t, DifferenceTransform.run false {} indexes = Except.ok (gaps, t) := by
  unfold encode at h
  cases hr : DifferenceTransform.run false {} indexes with
  | error e =>
    rw [hr] at h
    cases h
  | ok r =>
    obtain ⟨os, t⟩ := r
    rw [hr] at h
    exact ⟨t, by rw [← Except.ok.inj h]⟩

/-- C21: the encoder is stateful. After a `DifferenceTransform<false>` has encoded a
value `v`, the same instance applied to a next value `w` returns `w - v - 1` when
`w > v` and raises the failure when `w ≤ v`, while a fresh instance returns `w`; so an
encoder reused for a second list never returns the gaps that a fresh encoder returns
for that list. -/
theorem encoder_is_stateful (t t1 : DifferenceTransform) (o v w : Nat) (hv : v < 65536)
    (hw : w < 65536) (hcall : t.call false v = Except.ok (o, t1)) :
    (v < w → t1.call false w = Except.ok (w - v - 1, { m_shift := -(w : Int) - 1 })) ∧
      (w ≤ v → t1.call false w = Except.error ERR_DIFFERENTIAL_OVERFLOW) ∧
      DifferenceTransform.call false {} w = Except.ok (w, { m_shift := -(w : Int) - 1 }) ∧
      t1.call false w ≠ DifferenceTransform.call false {} w ∧
      ∀ (ws gaps outs : List Nat) (t2 : DifferenceTransform),
        encode (w :: ws) = Except.ok gaps →
        DifferenceTransform.run false t1 (w :: ws) = Except.ok (outs, t2) → outs ≠ gaps := by
  have hst := call_encode_state t t1 o v hv hcall
  subst hst
  refine ⟨call_encode_gt v w hv hw, call_encode_le v w hv hw, call_encode_fresh w hw,
    call_encode_ne_fresh v w hv hw, ?_⟩
  intro ws gaps outs t2 henc hrun he
  subst he
  by_cases h : v < w
  · have h1 := run_head false _ _ t2 w _ ws outs (call_encode_gt v w hv hw h) hrun
    obtain ⟨t3, h3⟩ := encode_run_state (w :: ws) outs henc
    have h2 := run_head false _ _ t3 w _ ws outs (call_encode_fresh w hw) h3
    rw [h1] at h2
    exact gap_ne_self v w h (Option.some.inj h2).symm
  · rw [run_cons, call_encode_le v w hv hw (Nat.le_of_not_lt h)] at hrun
    cases hrun
theorem encoder_is_stateful_witness :
    DifferenceTransform.call false {} 5 = Except.ok (5, { m_shift := -6 }) ∧
      DifferenceTransform.call false { m_shift := -6 } 9 = Except.ok (3, { m_shift := -10 }) ∧
      DifferenceTransform.call false {} 9 = Except.ok (9, { m_shift := -10 }) ∧
      DifferenceTransform.call false { m_shift := -6 } 9 ≠ DifferenceTransform.call false {} 9 :=
  ⟨rfl, (encoder_is_stateful {} { m_shift := -6 } 5 5 9 (by decide) (by decide) rfl).1
      (by decide),
    (encoder_is_stateful {} { m_shift := -6 } 5 5 9 (by decide) (by decide) rfl).2.2.1,
    (encoder_is_stateful {} { m_shift := -6 } 5 5 9 (by decide) (by decide) rfl).2.2.2.1⟩

/-! ### Decoding followed by encoding -/

theorem gapsFrom_accFrom (gs : List Nat) : ∀ (p : Int), -1 ≤ p →
    gapsFrom p (accFrom p gs) = gs := by
  induction gs with
  | nil => intro _ _; rfl
  | cons g gs ih =>
    intro p hp
    have e : (((p + 1 + (g : Int)).toNat : Nat) : Int) = p + 1 + (g : Int) := by omega
    simp only [accFrom, gapsFrom]
    rw [e, ih (p + 1 + (g : Int)) (by omega)]
    congr 1
    omega

theorem ascAbove_accFrom (gs : List Nat) : ∀ (p : Int), -1 ≤ p →
    AscAbove p (accFrom p gs) := by
  induction gs with
  | nil => intro _ _; trivial
  | cons g gs ih =>
    intro p hp
    have e : (((p + 1 + (g : Int)).toNat : Nat) : Int) = p + 1 + (g : Int) := by omega
    simp only [accFrom, AscAbove]
    rw [e]
    exact ⟨by omega, ih (p + 1 + (g : Int)) (by omega)⟩

theorem accFrom_uint16 (gs : List Nat) : ∀ (p : Int), -1 ≤ p → AccFits p gs →
    IsUint16List (accFrom p gs) := by
  induction gs with
  | nil => intro _ _ _ x hx; exact absurd hx (List.not_mem_nil x)
  | cons g gs ih =>
    intro p hp hf x hx
    obtain ⟨h1, h2⟩ := hf
    simp only [accFrom, List.mem_cons] at hx
    rcases hx with rfl | hx
    · omega
    · exact ih (p + 1 + (g : Int)) (by omega) h2 x hx

/-- C25: for every uint16 gap list on which decoding with a fresh
`DifferenceTransform<true>` succeeds, the decoded list is a strictly ascending uint16
list, and encoding it with a fresh `DifferenceTransform<false>` succeeds and returns the
original gaps; with the converse round trip, from every strictly ascending uint16 list
to gaps that decode back to it, the codec is a bijection between strictly ascending
index lists and decodable gap lists. -/
theorem encode_decode_inverse (gs idx : List Nat) (hu : IsUint16List gs)
    (hd : decode gs = Except.ok idx) :
    IsUint16List idx ∧ idx.Pairwise (· < ·) ∧ encode idx = Except.ok gs ∧
      ∀ l, IsUint16List l → l.Pairwise (· < ·) →
        ∃ g, IsUint16List g ∧ encode l = Except.ok g ∧ decode g = Except.ok l := by
  obtain ⟨hf, rfl⟩ := decode_ok_inv gs idx hu hd
  have hasc := ascAbove_accFrom gs (-1) (by omega)
  have hpw := (ascAbove_iff_pairwise _).mp hasc
  have hidx := accFrom_uint16 gs (-1) (by omega) hf
  refine ⟨hidx, hpw, ?_, ?_⟩
  · rw [encode_of_ascending _ hidx hpw, gapsFrom_accFrom gs (-1) (by omega)]
  · intro l hl hs
    have ha := (ascAbove_iff_pairwise l).mpr hs
    have hg := gapsFrom_uint16 l (-1) (by omega) hl ha
    refine ⟨gapsFrom (-1) l, hg, encode_of_ascending l hl hs, ?_⟩
    rw [decode_of_fits _ hg (accFits_gapsFrom l (-1) (by omega) hl ha),
      accFrom_gapsFrom l (-1) ha]

theorem encode_decode_inverse_witness :
    IsUint16List [2, 0, 6] ∧ decode [2, 0, 6] = Except.ok [2, 3, 10] ∧
      encode [2, 3, 10] = Except.ok [2, 0, 6] :=
  ⟨by decide, rfl, (encode_decode_inverse [2, 0, 6] [2, 3, 10] (by decide) rfl).2.2.1⟩

/-! ### The decoded indexes ascend -/

theorem accLast_ge (gs : List Nat) : ∀ (p : Int), p ≤ accLast p gs := by
  induction gs with
  | nil => intro p; exact le_refl p
  | cons g gs ih =>
    intro p
    have := ih (p + 1 + (g : Int))
    simp only [accLast]
    omega

theorem accFits_append (l1 l2 : List Nat) : ∀ (p : Int),
    AccFits p (l1 ++ l2) ↔ AccFits p l1 ∧ AccFits (accLast p l1) l2 := by
  induction l1 with
  | nil => intro p; simp [AccFits, accLast]
  | cons g gs ih =>
    intro p
    show (p + 1 + (g : Int) ≤ 65535 ∧ AccFits (p + 1 + g) (gs ++ l2)) ↔
      (p + 1 + (g : Int) ≤ 65535 ∧ AccFits (p + 1 + g) gs) ∧
        AccFits (accLast (p + 1 + g) gs) l2
    rw [ih]
    exact and_assoc.symm

theorem accFrom_getLast (gs : List Nat) : ∀ (p : Int), gs ≠ [] →
    (accFrom p gs).getLast? = some (accLast p gs).toNat := by
  induction gs with
  | nil => intro _ h; exact absurd rfl h
  | cons g gs ih =>
    intro p _
    cases gs with
    | nil => rfl
    | cons g' gs' =>
      have := ih (p + 1 + (g : Int)) (by simp)
      simp only [accFrom, accLast, List.getLast?_cons_cons] at this ⊢
      exact this

/-- A gap after a decoded index of 65535 makes the decode fail. -/
theorem decode_after_last_index (pre post pidx : List Nat) (g : Nat)
    (hu : IsUint16List (pre ++ g :: post)) (hd : decode pre = Except.ok pidx)
    (hlast : pidx.getLast? = some 65535) :
    decode (pre ++ g :: post) = Except.error ERR_DIFFERENTIAL_OVERFLOW := by
  have hpre : IsUint16List pre := fun x hx => hu x (List.mem_append_left _ hx)
  obtain ⟨_, rfl⟩ := decode_ok_inv pre pidx hpre hd
  have hne : pre ≠ [] := by
    intro h
    subst h
    simp [accFrom] at hlast
  rw [accFrom_getLast pre (-1) hne] at hlast
  have hge := accLast_ge pre (-1)
  have hacc : accLast (-1) pre = 65535 := by
    have := Option.some.inj hlast
    omega
  apply decode_of_not_fits _ hu
  rw [accFits_append, hacc]
  rintro ⟨_, h1, _⟩
  omega

/-- C26: every index list returned by a successful decode with a fresh
`DifferenceTransform<true>` is strictly ascending, so it has no duplicate, at most
65536 elements, and 65535 only as its last element; and any gap that follows a decoded
index of 65535 makes the decode fail. -/
theorem decode_strictly_ascending (gs idx : List Nat) (hu : IsUint16List gs)
    (hd : decode gs = Except.ok idx) :
    idx.Pairwise (· < ·) ∧ idx.Nodup ∧ idx.length ≤ 65536 ∧
      (∀ i, i + 1 < idx.length → idx.getD i 0 < 65535) ∧
      ∀ (pre post pidx : List Nat) (g : Nat), IsUint16List (pre ++ g :: post) →
        decode pre = Except.ok pidx → pidx.getLast? = some 65535 →
        decode (pre ++ g :: post) = Except.error ERR_DIFFERENTIAL_OVERFLOW := by
  obtain ⟨hf, hidx⟩ := decode_ok_inv gs idx hu hd
  have hasc : AscAbove (-1) idx := by rw [hidx]; exact ascAbove_accFrom gs (-1) (by omega)
  have hpw := (ascAbove_iff_pairwise _).mp hasc
  have hu16 : IsUint16List idx := by rw [hidx]; exact accFrom_uint16 gs (-1) (by omega) hf
  refine ⟨hpw, hpw.imp (fun h => Nat.ne_of_lt h), ?_, ?_,
    fun pre post pidx g => decode_after_last_index pre post pidx g⟩
  · have := ascAbove_length_le idx (-1) hasc hu16 (by omega)
    omega
  · intro i hi
    have h1 : idx.getD i 0 < idx.getD (i + 1) 0 := by
      rw [List.getD_eq_getElem _ _ (by omega), List.getD_eq_getElem _ _ hi]
      exact List.pairwise_iff_getElem.mp hpw i (i + 1) (by omega) hi (by omega)
    have h2 : idx.getD (i + 1) 0 < 65536 := by
      rw [List.getD_eq_getElem _ _ hi]
      exact hu16 _ (List.getElem_mem _)
    omega

theorem decode_strictly_ascending_witness :
    IsUint16List [2, 0, 65531] ∧ decode [2, 0, 65531] = Except.ok [2, 3, 65535] ∧
      [2, 3, 65535].Pairwise (· < ·) ∧
      decode ([2, 0, 65531] ++ 0 :: []) = Except.error ERR_DIFFERENTIAL_OVERFLOW :=
  ⟨by decide, rfl,
    (decode_strictly_ascending [2, 0, 65531] [2, 3, 65535] (by decide) rfl).1,
    (decode_strictly_ascending [2, 0, 65531] [2, 3, 65535] (by decide) rfl).2.2.2.2
      [2, 0, 65531] [] [2, 3, 65535] 0 (by decide) rfl rfl⟩

/-! ### The range of `m_shift` -/

/-- With `m_shift` between -65536 and 65536 no operation of `operator()` on a `uint16_t`
argument leaves the range of `int32_t`. -/
theorem call_eq_callExact (U : Bool) (t : DifferenceTransform) (val : Nat)
    (h1 : -65536 ≤ t.m_shift) (h2 : t.m_shift ≤ 65536) (hv : val < 65536) :
    t.call U val = t.callExact U val := by
  unfold DifferenceTransform.call DifferenceTransform.callExact
  have e1 : wrapInt32 (t.m_shift + (val : Int)) = t.m_shift + (val : Int) :=
    wrapInt32_of_range _ (by omega) (by omega)
  simp only [e1]
  by_cases hc : t.m_shift + (val : Int) < 0 ∨ t.m_shift + (val : Int) > 0xffff
  · rw [if_pos hc, if_pos hc]
  · rw [if_neg hc, if_neg hc]
    have hlo : 0 ≤ t.m_shift + (val : Int) := by
      by_contra h; exact hc (Or.inl (by omega))
    have hhi : t.m_shift + (val : Int) ≤ 65535 := by
      by_contra h; exact hc (Or.inr (by omega))
    have e2 : wrapInt32 (t.m_shift + (val : Int) + 1) = t.m_shift + (val : Int) + 1 :=
      wrapInt32_of_range _ (by omega) (by omega)
    have e3 : wrapInt32 (-(val : Int)) = -(val : Int) :=
      wrapInt32_of_range _ (by omega) (by omega)
    have e4 : wrapInt32 (-(val : Int) - 1) = -(val : Int) - 1 :=
      wrapInt32_of_range _ (by omega) (by omega)
    have e5 : toUint16 (t.m_shift + (val : Int)) = (t.m_shift + (val : Int)).toNat := by
      have := toUint16_of_range _ hlo hhi
      omega
    rw [e2, e3, e4, e5]

/-- The range of `m_shift` by direction: from 0 to 65536 when decoding, from -65536 to
0 when encoding; one call keeps it. -/
theorem step_keeps_range (U : Bool) (t : DifferenceTransform) (val : Nat) (hv : val < 65536)
    (h : if U then 0 ≤ t.m_shift ∧ t.m_shift ≤ 65536
         else -65536 ≤ t.m_shift ∧ t.m_shift ≤ 0) :
    if U then 0 ≤ (t.step U val).m_shift ∧ (t.step U val).m_shift ≤ 65536
    else -65536 ≤ (t.step U val).m_shift ∧ (t.step U val).m_shift ≤ 0 := by
  have hb : -65536 ≤ t.m_shift ∧ t.m_shift ≤ 65536 := by
    cases U
    · simp only [Bool.false_eq_true, if_false] at h; omega
    · simp only [if_true] at h; omega
  unfold DifferenceTransform.step
  rw [call_eq_callExact U t val hb.1 hb.2 hv]
  unfold DifferenceTransform.callExact
  simp only
  by_cases hc : t.m_shift + (val : Int) < 0 ∨ t.m_shift + (val : Int) > 0xffff
  · rw [if_pos hc]
    exact h
  · rw [if_neg hc]
    have hlo : 0 ≤ t.m_shift + (val : Int) := by
      by_contra h'; exact hc (Or.inl (by omega))
    have hhi : t.m_shift + (val : Int) ≤ 65535 := by
      by_contra h'; exact hc (Or.inr (by omega))
    cases U
    · simp only [Bool.false_eq_true, if_false]
      omega
    · simp only [if_true]
      omega

theorem foldl_step_keeps_range (U : Bool) (vals : List Nat) :
    ∀ (t : DifferenceTransform), IsUint16List vals →
    (if U then 0 ≤ t.m_shift ∧ t.m_shift ≤ 65536 else -65536 ≤ t.m_shift ∧ t.m_shift ≤ 0) →
    if U then 0 ≤ (vals.foldl (DifferenceTransform.step U) t).m_shift ∧
        (vals.foldl (DifferenceTransform.step U) t).m_shift ≤ 65536
    else -65536 ≤ (vals.foldl (DifferenceTransform.step U) t).m_shift ∧
        (vals.foldl (DifferenceTransform.step U) t).m_shift ≤ 0 := by
  induction vals with
  | nil => intro t _ h; exact h
  | cons v vs ih =>
    intro t hu h
    rw [List.foldl_cons]
    exact ih _ hu.tail (step_keeps_range U t v hu.head h)

/-- C29: after every sequence of calls on a fresh `DifferenceTransform`, in either
direction, with `uint16_t` arguments, `m_shift` lies in `[-65536, 65536]`, and for the
next argument the sum `m_shift + val` lies in `[-65536, 131071]`; the `int32_t`
arithmetic of the call does not overflow, and the call is the one computed on the
exact integers. -/
theorem shift_stays_in_range (U : Bool) (vals : List Nat) (val : Nat)
    (hu : IsUint16List vals) (hv : val < 65536) :
    -65536 ≤ (DifferenceTransform.afterCalls U vals).m_shift ∧
      (DifferenceTransform.afterCalls U vals).m_shift ≤ 65536 ∧
      -65536 ≤ (DifferenceTransform.afterCalls U vals).m_shift + (val : Int) ∧
      (DifferenceTransform.afterCalls U vals).m_shift + (val : Int) ≤ 131071 ∧
      wrapInt32 ((DifferenceTransform.afterCalls U vals).m_shift + (val : Int)) =
        (DifferenceTransform.afterCalls U vals).m_shift + (val : Int) ∧
      (DifferenceTransform.afterCalls U vals).call U val =
        (DifferenceTransform.afterCalls U vals).callExact U val := by
  have h := foldl_step_keeps_range U vals {} hu (by
    cases U
    · simp only [Bool.false_eq_true, if_false]; exact ⟨by decide, by decide⟩
    · simp only [if_true]; exact ⟨by decide, by decide⟩)
  have hb : -65536 ≤ (DifferenceTransform.afterCalls U vals).m_shift ∧
      (DifferenceTransform.afterCalls U vals).m_shift ≤ 65536 := by
    unfold DifferenceTransform.afterCalls
    cases U
    · simp only [Bool.false_eq_true, if_false] at h; omega
    · simp only [if_true] at h; omega
  refine ⟨hb.1, hb.2, by omega, by omega, wrapInt32_of_range _ (by omega) (by omega),
    call_eq_callExact U _ val hb.1 hb.2 hv⟩

theorem shift_stays_in_range_witness :
    IsUint16List [65535, 0, 7] ∧
      DifferenceTransform.afterCalls true [65535, 0, 7] = { m_shift := 65536 } ∧
      (DifferenceTransform.afterCalls true [65535, 0, 7]).m_shift + ((65535 : Nat) : Int) ≤
        131071 :=
  ⟨by decide, rfl,
    (shift_stays_in_range true [65535, 0, 7] 65535 (by decide) (by decide)).2.2.2.1⟩

/-! ## Further claims on `Uint48Formatter` -/

/-- The six bytes of a value below `2^48` are its six little-endian base-256 digits. -/
theorem uint48Bytes_eq_leBytes (n : Nat) : uint48Bytes n = leBytes 6 n := by
  simp only [uint48Bytes, leBytes, List.cons_append, List.nil_append, List.cons.injEq,
    and_true]
  refine ⟨?_, ?_, ?_, ?_, ?_, ?_⟩ <;> omega

theorem leBytes_six_getD (n i : Nat) (hi : i < 6) :
    (leBytes 6 n).getD i 0 = n / 256 ^ i % 256 := by
  simp only [leBytes]
  match i, hi with
  | 0, _ => simp
  | 1, _ => simp
  | 2, _ => simp only [List.getD_cons_succ, List.getD_cons_zero]; omega
  | 3, _ => simp only [List.getD_cons_succ, List.getD_cons_zero]; omega
  | 4, _ => simp only [List.getD_cons_succ, List.getD_cons_zero]; omega
  | 5, _ => simp only [List.getD_cons_succ, List.getD_cons_zero]; omega

/-- C28: with a stream that writes `uint32_t` and `uint16_t` little-endian, the six
bytes that `Uint48Formatter::Ser` writes for `v` in `[0, 2^48)` are the little-endian
base-256 digits of `v`: byte `i` is `(v div 256^i) mod 256` for `i` from 0 to 5, as for
a plain 6-byte little-endian integer. -/
theorem uint48_ser_little_endian (v : Int) (h0 : 0 ≤ v) (h1 : v < 2 ^ 48) (s : Stream) :
    Uint48Formatter.Ser s v = Except.ok (s ++ leBytes 6 v.toNat) ∧
      (leBytes 6 v.toNat).length = 6 ∧
      ∀ i, i < 6 → (((leBytes 6 v.toNat).getD i 0 : Nat) : Int) = v / 256 ^ i % 256 := by
  obtain ⟨n, rfl⟩ := Int.eq_ofNat_of_zero_le h0
  have hn : n < 2 ^ 48 := by exact_mod_cast h1
  refine ⟨?_, leBytes_length 6 _, ?_⟩
  · rw [uint48_ser_nat s n hn, uint48Bytes_eq_leBytes]
    rfl
  · intro i hi
    have : ((n : Int)).toNat = n := Int.toNat_natCast n
    rw [this, leBytes_six_getD n i hi]
    push_cast
    rfl

theorem uint48_ser_little_endian_witness :
    (0 : Int) ≤ 0x1234567890ab ∧ (0x1234567890ab : Int) < 2 ^ 48 ∧
      Uint48Formatter.Ser [] 0x1234567890ab =
        Except.ok ([] ++ leBytes 6 (0x1234567890ab : Int).toNat) ∧
      leBytes 6 (0x1234567890ab : Int).toNat = [0xab, 0x90, 0x78, 0x56, 0x34, 0x12] :=
  ⟨by decide, by decide,
    (uint48_ser_little_endian 0x1234567890ab (by decide) (by decide) []).1, by decide⟩

/-- Six bytes are the little-endian digits of the value they spell. -/
theorem leBytes_six_leValue (b0 b1 b2 b3 b4 b5 : Nat) (h0 : b0 < 256) (h1 : b1 < 256)
    (h2 : b2 < 256) (h3 : b3 < 256) (h4 : b4 < 256) (h5 : b5 < 256) :
    [b0, b1, b2, b3, b4, b5] =
      leBytes 4 (leValue [b0, b1, b2, b3]) ++ leBytes 2 (leValue [b4, b5]) := by
  simp only [leBytes, leValue, List.cons_append, List.nil_append, List.cons.injEq, and_true]
  refine ⟨?_, ?_, ?_, ?_, ?_, ?_⟩ <;> omega

/-- C27: on every input of six bytes `Uint48Formatter::Unser` returns a value below
`2^48` and raises no failure, and `Uint48Formatter::Ser` of that value writes the same
six bytes. -/
theorem uint48_unser_then_ser (bs : List Nat) (hlen : bs.length = 6)
    (hb : ∀ b ∈ bs, b < 256) (s rest : Stream) :
    ∃ v, Uint48Formatter.Unser (bs ++ rest) = Except.ok (v, rest) ∧ v < 2 ^ 48 ∧
      Uint48Formatter.Ser s (v : Int) = Except.ok (s ++ bs) := by
  match bs, hlen with
  | [b0, b1, b2, b3, b4, b5], _ =>
    have h0 : b0 < 256 := hb b0 (by simp)
    have h1 : b1 < 256 := hb b1 (by simp)
    have h2 : b2 < 256 := hb b2 (by simp)
    have h3 : b3 < 256 := hb b3 (by simp)
    have h4 : b4 < 256 := hb b4 (by simp)
    have h5 : b5 < 256 := hb b5 (by simp)
    have hbs := leBytes_six_leValue b0 b1 b2 b3 b4 b5 h0 h1 h2 h3 h4 h5
    have ha : leValue [b0, b1, b2, b3] < 2 ^ 32 := by
      simp only [leValue]; omega
    have hm : leValue [b4, b5] < 2 ^ 16 := by
      simp only [leValue]; omega
    have hv : 2 ^ 32 * (leValue [b4, b5] % 2 ^ 16) + leValue [b0, b1, b2, b3] % 2 ^ 32 <
        2 ^ 48 := by omega
    refine ⟨2 ^ 32 * (leValue [b4, b5] % 2 ^ 16) + leValue [b0, b1, b2, b3] % 2 ^ 32,
      ?_, hv, ?_⟩
    · rw [hbs, uint48_unser_leBytes]
    · rw [uint48_ser_nat s _ hv]
      have e1 : (2 ^ 32 * (leValue [b4, b5] % 2 ^ 16) + leValue [b0, b1, b2, b3] % 2 ^ 32) %
          2 ^ 32 = leValue [b0, b1, b2, b3] := by omega
      have e2 : (2 ^ 32 * (leValue [b4, b5] % 2 ^ 16) + leValue [b0, b1, b2, b3] % 2 ^ 32) /
          2 ^ 32 % 2 ^ 16 = leValue [b4, b5] := by omega
      unfold uint48Bytes
      rw [e1, e2, ← hbs]

theorem uint48_unser_then_ser_witness :
    [0xab, 0x90, 0x78, 0x56, 0x34, 0x12].length = 6 ∧
      (∀ b ∈ [0xab, 0x90, 0x78, 0x56, 0x34, 0x12], b < 256) ∧
      ∃ v, Uint48Formatter.Unser ([0xab, 0x90, 0x78, 0x56, 0x34, 0x12] ++ [7]) =
          Except.ok (v, [7]) ∧ v < 2 ^ 48 ∧
        Uint48Formatter.Ser [1] (v : Int) =
          Except.ok ([1] ++ [0xab, 0x90, 0x78, 0x56, 0x34, 0x12]) :=
  ⟨rfl, by decide,
    uint48_unser_then_ser [0xab, 0x90, 0x78, 0x56, 0x34, 0x12] rfl (by decide) [1] [7]⟩

/-! ## Further claims on the messages -/

theorem prefilled_unserialize_bytes {Header Tx : Type} (env : Serializers Header Tx)
    (enc : Encoders Header Tx) (hrt : env.RoundTrip enc) (p : PrefilledTransaction Tx)
    (hidx : p.index < 65536) (rest : Stream) :
    PrefilledTransaction.Unserialize env (prefilledBytes enc p ++ rest) = Except.ok (p, rest) := by
  unfold PrefilledTransaction.Unserialize prefilledBytes
  rw [List.append_assoc, hrt.read_index16 _ _ hidx]
  simp only
  rw [hrt.read_tx]

theorem unserElems_prefilled {Header Tx : Type} (env : Serializers Header Tx)
    (enc : Encoders Header Tx) (hrt : env.RoundTrip enc) (rest : Stream)
    (pre : List (PrefilledTransaction Tx)) : (∀ p ∈ pre, p.index < 65536) →
    VectorFormatter.UnserElems (PrefilledTransaction.Unserialize env) IdentityTransform ()
      pre.length (prefilledListBytes enc pre ++ rest) = Except.ok (pre, rest) := by
  induction pre with
  | nil => intro _; rfl
  | cons q qs ih =>
    intro h
    simp only [List.length_cons, prefilledListBytes, VectorFormatter.UnserElems,
      List.append_assoc]
    rw [prefilled_unserialize_bytes env enc hrt q (h q (List.mem_cons_self q qs))]
    simp only [IdentityTransform]
    rw [ih (fun p hp => h p (List.mem_cons_of_mem q hp))]

/-- C22: the index of a `PrefilledTransaction` goes on the wire as stored: serialization
writes the stored 16-bit index as a compact-size integer, with no transform applied,
followed by the transaction, also inside the prefilled list, where every entry is
written with its own stored index whatever precedes it; and deserializing the bytes
written for an index and a transaction returns that index and that transaction. The
outside serializers are taken to read back what they write. -/
theorem prefilled_roundtrip {Header Tx : Type} (env : Serializers Header Tx)
    (enc : Encoders Header Tx) (hrt : env.RoundTrip enc) (p : PrefilledTransaction Tx)
    (hidx : p.index < 65536) (s rest : Stream) :
    PrefilledTransaction.Serialize env s p =
        Except.ok (s ++ (enc.index16Bytes p.index ++ enc.txBytes p.tx)) ∧
      PrefilledTransaction.Unserialize env (enc.index16Bytes p.index ++ enc.txBytes p.tx ++ rest) =
        Except.ok (p, rest) ∧
      ∀ ps : List (PrefilledTransaction Tx), (∀ q ∈ ps, q.index < 65536) →
        SerPrefilled env s ps =
          Except.ok (env.WriteCompactSize s ps.length ++ prefilledListBytes enc ps) := by
  refine ⟨?_, prefilled_unserialize_bytes env enc hrt p hidx rest, ?_⟩
  · unfold PrefilledTransaction.Serialize
    rw [hrt.write_index16 s p.index hidx]
    simp only
    rw [hrt.write_tx, List.append_assoc]
  · intro ps hps
    exact serElems_prefilled env enc hrt ps _ hps

theorem prefilled_roundtrip_witness :
    (3 : Nat) < 65536 ∧
      PrefilledTransaction.Serialize sampleSerializersFin [] { index := 3, tx := 5 } =
        Except.ok ([] ++ (sampleEncoders.index16Bytes 3 ++ sampleEncoders.txBytes 5)) ∧
      PrefilledTransaction.Unserialize sampleSerializersFin
          (sampleEncoders.index16Bytes 3 ++ sampleEncoders.txBytes 5 ++ [9]) =
        Except.ok ({ index := 3, tx := 5 }, [9]) :=
  ⟨by decide,
    (prefilled_roundtrip sampleSerializersFin sampleEncoders sampleSerializersFin_roundTrip
      { index := 3, tx := 5 } (by decide) [] [9]).1,
    (prefilled_roundtrip sampleSerializersFin sampleEncoders sampleSerializersFin_roundTrip
      { index := 3, tx := 5 } (by decide) [] [9]).2.1⟩

theorem serialize_messageBytes {Header Tx : Type} (env : Serializers Header Tx)
    (enc : Encoders Header Tx) (hrt : env.RoundTrip enc) (s : Stream)
    (a : CBlockHeaderAndShortTxIDs Header Tx) (hi : ∀ x ∈ a.shorttxids, x < 2 ^ 48)
    (hp : ∀ p ∈ a.prefilledtxn, p.index < 65536) :
    CBlockHeaderAndShortTxIDs.Serialize env s a = Except.ok (s ++ messageBytes enc a) := by
  rw [serialize_bytes env enc hrt s a hi hp]
  simp only [messageBytes, List.append_assoc]

/-- Deserialization of the bytes of a message whose two counts the reader returns: the
four fields are read back and the count check decides. -/
theorem unserialize_messageBytes {Header Tx : Type} (env : Serializers Header Tx)
    (enc : Encoders Header Tx) (hrt : env.RoundTrip enc)
    (a obj : CBlockHeaderAndShortTxIDs Header Tx) (rest : Stream)
    (hi : ∀ x ∈ a.shorttxids, x < 2 ^ 48) (hp : ∀ p ∈ a.prefilledtxn, p.index < 65536)
    (hn : a.nonce < 2 ^ 64)
    (hsize1 : ∀ r, env.ReadCompactSize (enc.sizeBytes a.shorttxids.length ++ r) =
      Except.ok (a.shorttxids.length, r))
    (hsize2 : ∀ r, env.ReadCompactSize (enc.sizeBytes a.prefilledtxn.length ++ r) =
      Except.ok (a.prefilledtxn.length, r)) :
    CBlockHeaderAndShortTxIDs.Unserialize env obj (messageBytes enc a ++ rest) =
      if a.shorttxids.length + a.prefilledtxn.length > 65535 then
        Except.error ERR_INDEXES_OVERFLOWED
      else Except.ok
        ({ shorttxidk0 := (env.FillShortTxIDSelector a.header a.nonce).1,
           shorttxidk1 := (env.FillShortTxIDSelector a.header a.nonce).2,
           nonce := a.nonce, shorttxids := a.shorttxids, prefilledtxn := a.prefilledtxn,
           header := a.header }, rest) := by
  have hnonce : a.nonce % 256 ^ 8 = a.nonce := Nat.mod_eq_of_lt (by
    have e : (256 : Nat) ^ 8 = 2 ^ 64 := by norm_num
    rw [e]; exact hn)
  apply unserialize_of_fields env obj _
    (leBytes 8 a.nonce ++ (enc.sizeBytes a.shorttxids.length ++
      (uint48ListBytes a.shorttxids ++ (enc.sizeBytes a.prefilledtxn.length ++
        (prefilledListBytes enc a.prefilledtxn ++ rest)))))
    (enc.sizeBytes a.shorttxids.length ++
      (uint48ListBytes a.shorttxids ++ (enc.sizeBytes a.prefilledtxn.length ++
        (prefilledListBytes enc a.prefilledtxn ++ rest))))
    (enc.sizeBytes a.prefilledtxn.length ++ (prefilledListBytes enc a.prefilledtxn ++ rest))
    rest a.header a.nonce a.shorttxids a.prefilledtxn
  · simp only [messageBytes, List.append_assoc]
    exact hrt.read_header _ _
  · rw [ser_readdata_leBytes, hnonce]
  · unfold UnserShortTxIDs VectorFormatter.Unser
    rw [hsize1]
    simp only
    exact unserElems_uint48 a.shorttxids _ hi
  · unfold UnserPrefilled VectorFormatter.Unser
    rw [hsize2]
    simp only
    exact unserElems_prefilled env enc hrt rest a.prefilledtxn hp

theorem sampleMessageFin_ids_lt (n : Nat) (pre : List (PrefilledTransaction (Fin 256))) :
    ∀ x ∈ (sampleMessageFin n pre).shorttxids, x < 2 ^ 48 := by
  intro x hx
  have : x = 0 := List.eq_of_mem_replicate hx
  rw [this]
  exact Nat.two_pow_pos 48

theorem sampleMessageFin_ids_length (n : Nat) (pre : List (PrefilledTransaction (Fin 256))) :
    (sampleMessageFin n pre).shorttxids.length = n := by
  unfold sampleMessageFin
  simp only [List.length_replicate]

theorem sampleMessageFin_count (n : Nat) (pre : List (PrefilledTransaction (Fin 256))) :
    (sampleMessageFin n pre).BlockTxCount = n + pre.length := by
  unfold CBlockHeaderAndShortTxIDs.BlockTxCount
  rw [sampleMessageFin_ids_length]
  rfl

/-- C23: for every `CBlockHeaderAndShortTxIDs` with at most 65535 entries in total and
every short ID below `2^48`, deserializing the bytes that serializing it produced
succeeds and returns the same header, nonce, short IDs and prefilled transactions, in
the same order. The nonce is a `uint64_t`, the prefilled indexes are `uint16_t`, and
the outside serializers are taken to read back what they write. -/
theorem message_roundtrip {Header Tx : Type} (env : Serializers Header Tx)
    (enc : Encoders Header Tx) (hrt : env.RoundTrip enc)
    (a obj : CBlockHeaderAndShortTxIDs Header Tx) (s rest : Stream)
    (hcount : a.BlockTxCount ≤ 65535) (hi : ∀ x ∈ a.shorttxids, x < 2 ^ 48)
    (hp : ∀ p ∈ a.prefilledtxn, p.index < 65536) (hn : a.nonce < 2 ^ 64) :
    ∃ bytes, CBlockHeaderAndShortTxIDs.Serialize env s a = Except.ok (s ++ bytes) ∧
      ∃ read, CBlockHeaderAndShortTxIDs.Unserialize env obj (bytes ++ rest) =
          Except.ok (read, rest) ∧
        read.header = a.header ∧ read.nonce = a.nonce ∧ read.shorttxids = a.shorttxids ∧
        read.prefilledtxn = a.prefilledtxn := by
  unfold CBlockHeaderAndShortTxIDs.BlockTxCount at hcount
  refine ⟨messageBytes enc a, serialize_messageBytes env enc hrt s a hi hp, ?_⟩
  rw [unserialize_messageBytes env enc hrt a obj rest hi hp hn
    (fun r => hrt.read_size _ r (by omega)) (fun r => hrt.read_size _ r (by omega)),
    if_neg (by omega)]
  exact ⟨_, rfl, rfl, rfl, rfl, rfl⟩

/-- C24: the bound of 65535 entries is enforced only when reading: serializing a
`CBlockHeaderAndShortTxIDs` with more than 65535 entries, every short ID below `2^48`,
succeeds, and deserializing the bytes it produced fails with "indexes overflowed 16
bits". The outside serializers are taken to read back what they write, the compact-size
reader also the two counts of this message. -/
theorem message_oversize_not_roundtrip {Header Tx : Type} (env : Serializers Header Tx)
    (enc : Encoders Header Tx) (hrt : env.RoundTrip enc)
    (a obj : CBlockHeaderAndShortTxIDs Header Tx) (s rest : Stream)
    (hcount : a.BlockTxCount > 65535) (hi : ∀ x ∈ a.shorttxids, x < 2 ^ 48)
    (hp : ∀ p ∈ a.prefilledtxn, p.index < 65536) (hn : a.nonce < 2 ^ 64)
    (hsize1 : ∀ r, env.ReadCompactSize (enc.sizeBytes a.shorttxids.length ++ r) =
      Except.ok (a.shorttxids.length, r))
    (hsize2 : ∀ r, env.ReadCompactSize (enc.sizeBytes a.prefilledtxn.length ++ r) =
      Except.ok (a.prefilledtxn.length, r)) :
    ∃ bytes, CBlockHeaderAndShortTxIDs.Serialize env s a = Except.ok (s ++ bytes) ∧
      CBlockHeaderAndShortTxIDs.Unserialize env obj (bytes ++ rest) =
        Except.error ERR_INDEXES_OVERFLOWED := by
  unfold CBlockHeaderAndShortTxIDs.BlockTxCount at hcount
  refine ⟨messageBytes enc a, serialize_messageBytes env enc hrt s a hi hp, ?_⟩
  rw [unserialize_messageBytes env enc hrt a obj rest hi hp hn hsize1 hsize2, if_pos hcount]

theorem message_roundtrip_witness :
    (sampleMessageFin 2 [{ index := 0, tx := 5 }]).BlockTxCount ≤ 65535 ∧
      ∃ bytes, CBlockHeaderAndShortTxIDs.Serialize sampleSerializersFin []
          (sampleMessageFin 2 [{ index := 0, tx := 5 }]) = Except.ok ([] ++ bytes) ∧
        ∃ read, CBlockHeaderAndShortTxIDs.Unserialize sampleSerializersFin
            (sampleMessageFin 0 []) (bytes ++ [1]) = Except.ok (read, [1]) ∧
          read.header = (sampleMessageFin 2 [{ index := 0, tx := 5 }]).header ∧
          read.nonce = (sampleMessageFin 2 [{ index := 0, tx := 5 }]).nonce ∧
          read.shorttxids = (sampleMessageFin 2 [{ index := 0, tx := 5 }]).shorttxids ∧
          read.prefilledtxn = (sampleMessageFin 2 [{ index := 0, tx := 5 }]).prefilledtxn :=
  ⟨by rw [sampleMessageFin_count]; decide,
    message_roundtrip sampleSerializersFin sampleEncoders sampleSerializersFin_roundTrip
      (sampleMessageFin 2 [{ index := 0, tx := 5 }]) (sampleMessageFin 0 []) [] [1]
      (by rw [sampleMessageFin_count]; decide) (sampleMessageFin_ids_lt _ _)
      (by decide) (by decide)⟩

theorem message_oversize_not_roundtrip_witness :
    (sampleMessageFin 65536 []).BlockTxCount > 65535 ∧
      ∃ bytes, CBlockHeaderAndShortTxIDs.Serialize sampleSerializersFin []
          (sampleMessageFin 65536 []) = Except.ok ([] ++ bytes) ∧
        CBlockHeaderAndShortTxIDs.Unserialize sampleSerializersFin (sampleMessageFin 0 [])
          (bytes ++ []) = Except.error ERR_INDEXES_OVERFLOWED :=
  ⟨by rw [sampleMessageFin_count]; decide,
    message_oversize_not_roundtrip sampleSerializersFin sampleEncoders
      sampleSerializersFin_roundTrip (sampleMessageFin 65536 []) (sampleMessageFin 0 []) [] []
      (by rw [sampleMessageFin_count]; decide) (sampleMessageFin_ids_lt _ _)
      (fun p hp => absurd hp (List.not_mem_nil p)) (by decide)
      (fun r => by
        rw [sampleMessageFin_ids_length]
        exact sampleReadCompactSize_write 65536 r (by decide))
      (fun r => sampleReadCompactSize_write 0 r (by decide))⟩

end BlockEncodings
